import Mathlib

/-!
# Splay tree (`SplayTree.h` / `SplayTree.cpp`)

A shallow embedding of the pointer-based splay tree.  Nodes live in an explicit
memory (`Heap`), a pointer is an optional cell index, and every member function
is a state-passing function that may fail (`Err`).  Recursive member functions
and loops take a `fuel` argument; `Err.fuel` is returned when it runs out.
The key type `Comparable` is instantiated at `Int`.
-/

namespace Splay

/-- Ways in which an execution does not return normally. -/
inductive Err where
  /-- The recursion or loop budget of the model is exhausted. -/
  | fuel
  /-- A `NULL` pointer is dereferenced. -/
  | null
  /-- A freed (or never allocated) cell is accessed. -/
  | dangling
  deriving DecidableEq, Repr

/-- A `SplayNode *`: `none` is `NULL`, `some a` the address of cell `a`. -/
abbrev Ptr := Option Nat

/-- The class `SplayNode` of `SplayTree.h`. -/
structure SplayNode where
  element : Int
  left : Ptr
  right : Ptr
  parent : Ptr
  deriving DecidableEq, Repr

/-- The memory: cell `a` holds `some n` while allocated and `none` once deleted. -/
abbrev Heap := List (Option SplayNode)

/-- The class `SplayTree` of `SplayTree.h`, together with the memory its nodes live in. -/
structure SplayTree where
  heap : Heap
  root : Ptr
  ITEM_NOT_FOUND : Int
  deriving DecidableEq, Repr

/-- A `SplayNode * &`: the root field of the tree or a child field of a cell. -/
inductive Ref where
  | root
  | left (a : Nat)
  | right (a : Nat)
  deriving DecidableEq, Repr

/-- The constructor `SplayTree( notFound )`: an empty tree in an empty memory. -/
def empty (notFound : Int) : SplayTree :=
  { heap := [], root := none, ITEM_NOT_FOUND := notFound }

/-- Reading through a pointer (`*p`). -/
def deref (h : Heap) : Ptr → Except Err SplayNode
  | none => .error .null
  | some a =>
    match h[a]? with
    | some (some n) => .ok n
    | _ => .error .dangling

/-- Writing through a pointer: the cell `p` points to is replaced by `f` of it. -/
def modify (st : SplayTree) (p : Ptr) (f : SplayNode → SplayNode) : Except Err SplayTree :=
  match p with
  | none => .error .null
  | some a =>
    match st.heap[a]? with
    | some (some n) => .ok { st with heap := st.heap.set a (some (f n)) }
    | _ => .error .dangling

/-- The expression `p->element`. -/
def getElement (st : SplayTree) (p : Ptr) : Except Err Int :=
  (deref st.heap p).map (·.element)

/-- The expression `p->left`. -/
def getLeft (st : SplayTree) (p : Ptr) : Except Err Ptr :=
  (deref st.heap p).map (·.left)

/-- The expression `p->right`. -/
def getRight (st : SplayTree) (p : Ptr) : Except Err Ptr :=
  (deref st.heap p).map (·.right)

/-- The expression `p->parent`. -/
def getParent (st : SplayTree) (p : Ptr) : Except Err Ptr :=
  (deref st.heap p).map (·.parent)

/-- The assignment `p->element = v`. -/
def setElement (st : SplayTree) (p : Ptr) (v : Int) : Except Err SplayTree :=
  modify st p (fun n => { n with element := v })

/-- The assignment `p->left = v`. -/
def setLeft (st : SplayTree) (p : Ptr) (v : Ptr) : Except Err SplayTree :=
  modify st p (fun n => { n with left := v })

/-- The assignment `p->right = v`. -/
def setRight (st : SplayTree) (p : Ptr) (v : Ptr) : Except Err SplayTree :=
  modify st p (fun n => { n with right := v })

/-- The assignment `p->parent = v`. -/
def setParent (st : SplayTree) (p : Ptr) (v : Ptr) : Except Err SplayTree :=
  modify st p (fun n => { n with parent := v })

/-- Reading a `SplayNode * &`. -/
def readRef (st : SplayTree) : Ref → Except Err Ptr
  | .root => .ok st.root
  | .left a => getLeft st (some a)
  | .right a => getRight st (some a)

/-- Assigning to a `SplayNode * &`. -/
def writeRef (st : SplayTree) : Ref → Ptr → Except Err SplayTree
  | .root, v => .ok { st with root := v }
  | .left a, v => setLeft st (some a) v
  | .right a, v => setRight st (some a) v

/-- The expression `new SplayNode( x, lt, rt )`: the constructor sets `parent = NULL`.
The new cell is placed at the end of the memory. -/
def alloc (st : SplayTree) (x : Int) (lt rt : Ptr) : Ptr × SplayTree :=
  (some st.heap.length,
    { st with heap := st.heap ++ [some { element := x, left := lt, right := rt, parent := none }] })

/-- The statement `delete p`. -/
def free (st : SplayTree) (p : Ptr) : Except Err SplayTree :=
  match p with
  | none => .ok st
  | some a =>
    match st.heap[a]? with
    | some (some _) => .ok { st with heap := st.heap.set a none }
    | _ => .error .dangling

/-- The private `elementAt( t )`. -/
def elementAt (st : SplayTree) (t : Ptr) : Except Err Int :=
  if t = none then .ok st.ITEM_NOT_FOUND else getElement st t

/-- The private `insert( x, t )`, `t` a reference to a pointer. -/
def insertAt : Nat → Int → Ref → SplayTree → Except Err SplayTree
  | 0, _, _, _ => .error .fuel
  | fuel + 1, x, t, st => do
    let p ← readRef st t
    match p with
    | none =>
      let (q, st) := alloc st x none none
      writeRef st t q
    | some a =>
      let e ← getElement st p
      if x < e then do
        let st ← insertAt fuel x (.left a) st
        -- t->left->parent = t
        let p ← readRef st t
        let l ← getLeft st p
        setParent st l p
      else if e < x then do
        let st ← insertAt fuel x (.right a) st
        -- t->right->parent = t
        let p ← readRef st t
        let r ← getRight st p
        setParent st r p
      else
        pure st

/-- The private `findMin( t )`. -/
def findMinAt : Nat → SplayTree → Ptr → Except Err Ptr
  | 0, _, _ => .error .fuel
  | fuel + 1, st, t =>
    if t = none then pure none
    else do
      let l ← getLeft st t
      if l = none then pure t else findMinAt fuel st l

/-- The loop `while( t->right != NULL ) t = t->right;` of the private `findMax`. -/
def findMaxLoop : Nat → SplayTree → Ptr → Except Err Ptr
  | 0, _, _ => .error .fuel
  | fuel + 1, st, t => do
    let r ← getRight st t
    if r ≠ none then findMaxLoop fuel st r else pure t

/-- The private `findMax( t )`. -/
def findMaxAt (fuel : Nat) (st : SplayTree) (t : Ptr) : Except Err Ptr :=
  if t ≠ none then findMaxLoop fuel st t else pure t

/-- The private `find( x, t )`. -/
def findAt : Nat → SplayTree → Int → Ptr → Except Err Ptr
  | 0, _, _, _ => .error .fuel
  | fuel + 1, st, x, t =>
    if t = none then pure none
    else do
      let e ← getElement st t
      if x < e then do
        let l ← getLeft st t
        findAt fuel st x l
      else if e < x then do
        let r ← getRight st t
        findAt fuel st x r
      else
        pure t

/-- The private `remove( x, t )`, `t` a reference to a pointer.  The key `x` is read only
on entry, before any assignment of the call, so it is passed by value. -/
def removeAt : Nat → Int → Ref → SplayTree → Except Err SplayTree
  | 0, _, _, _ => .error .fuel
  | fuel + 1, x, t, st => do
    let p ← readRef st t
    match p with
    | none => pure st
    | some a =>
      let e ← getElement st p
      if x < e then removeAt fuel x (.left a) st
      else if e < x then removeAt fuel x (.right a) st
      else do
        let l ← getLeft st p
        let r ← getRight st p
        if l ≠ none ∧ r ≠ none then do
          -- t->element = findMin( t->right )->element
          let m ← findMinAt fuel st r
          let v ← getElement st m
          let st ← setElement st p v
          -- remove( t->element, t->right )
          let p ← readRef st t
          let e ← getElement st p
          match p with
          | some b => removeAt fuel e (.right b) st
          | none => .error .null
        else do
          let oldNode := p
          let st ← writeRef st t (if l ≠ none then l else r)
          free st oldNode

/-- The private `makeEmpty( t )`, `t` a reference to a pointer. -/
def makeEmptyAt : Nat → Ref → SplayTree → Except Err SplayTree
  | 0, _, _ => .error .fuel
  | fuel + 1, t, st => do
    let p ← readRef st t
    let st ←
      match p with
      | none => pure st
      | some a => do
        let st ← makeEmptyAt fuel (.left a) st
        let st ← makeEmptyAt fuel (.right a) st
        let p ← readRef st t
        free st p
    writeRef st t none

/-- The private `clone( t )`; the left subtree is cloned before the right one. -/
def clone : Nat → SplayTree → Ptr → Except Err (Ptr × SplayTree)
  | 0, _, _ => .error .fuel
  | fuel + 1, st, t =>
    if t = none then pure (none, st)
    else do
      let e ← getElement st t
      let l ← getLeft st t
      let (cl, st) ← clone fuel st l
      let r ← getRight st t
      let (cr, st) ← clone fuel st r
      pure (alloc st e cl cr)

/-- The private `inorder( t )`; the result is the sequence of keys written to `cout`. -/
def inorderAt : Nat → SplayTree → Ptr → Except Err (List Int)
  | 0, _, _ => .error .fuel
  | fuel + 1, st, t =>
    if t = none then pure []
    else do
      let l ← getLeft st t
      let ls ← inorderAt fuel st l
      let e ← getElement st t
      let r ← getRight st t
      let rs ← inorderAt fuel st r
      pure (ls ++ e :: rs)

/-- The private `LRChild( t )`. -/
def LRChild (st : SplayTree) (t : Ptr) : Except Err Int :=
  if t = st.root then pure (-1)
  else do
    let p ← getParent st t
    if (← getRight st p) = t then pure 1
    else if (← getLeft st p) = t then pure 0
    else pure (-1)

/-- The private `isZigZag( t )`. -/
def isZigZag (st : SplayTree) (t : Ptr) : Except Err Int :=
  if t ≠ none then do
    let tC ← LRChild st t
    let p ← getParent st t
    let tP ← if p ≠ none then LRChild st p else pure (-1)
    if tP = -1 then pure 2
    else if tC ≠ tP then pure 1
    else pure 0
  else
    pure (-1)

/-- The private `insertNode( input, t )`.  There is no `return` after `root = input`. -/
def insertNode : Nat → SplayTree → Ptr → Ptr → Except Err SplayTree
  | 0, _, _, _ => .error .fuel
  | fuel + 1, st, input, t => do
    let st := if t = none then { st with root := input } else st
    let ie ← getElement st input
    let te ← getElement st t
    if ie < te then do
      let l ← getLeft st t
      if l ≠ none then insertNode fuel st input l
      else do
        let st ← setLeft st t input
        let l ← getLeft st t
        setParent st l t
    else if te < ie then do
      let r ← getRight st t
      if r ≠ none then insertNode fuel st input r
      else do
        let st ← setRight st t input
        let r ← getRight st t
        setParent st r t
    else
      pure st

/-- The private `rotate( t )`: rotates a node about its parent. -/
def rotate (fuel : Nat) (st : SplayTree) (t : Ptr) : Except Err SplayTree :=
  if t = none then pure st
  else do
    let p ← getParent st t
    if p = none then pure st
    else do
      let tLR ← LRChild st t
      if tLR = 0 then do
        -- t is a left child
        let r ← getRight st t
        if r ≠ none then do
          let zig ← isZigZag st t
          let p ← getParent st t
          let st := if st.root = p then { st with root := t } else st
          if zig = 1 then do
            let p ← getParent st t
            let gPtr ← getParent st p
            -- t->parent->left = NULL
            let st ← setLeft st p none
            -- t->parent->parent->right = t
            let p ← getParent st t
            let g ← getParent st p
            let st ← setRight st g t
            -- insertNode(t->parent, t->right)
            let p ← getParent st t
            let r ← getRight st t
            let st ← insertNode fuel st p r
            -- t->parent = gPtr
            setParent st t gPtr
          else if zig = 0 then do
            let p ← getParent st t
            let gPtr ← getParent st p
            -- t->parent->left = NULL
            let st ← setLeft st p none
            -- t->parent->parent->left = t
            let p ← getParent st t
            let g ← getParent st p
            let st ← setLeft st g t
            -- insertNode(t->parent, t->right)
            let p ← getParent st t
            let r ← getRight st t
            let st ← insertNode fuel st p r
            -- t->parent = gPtr
            setParent st t gPtr
          else if zig = 2 then do
            let rCPtr ← getRight st t
            -- t->parent->parent = t
            let p ← getParent st t
            let st ← setParent st p t
            -- t->right = t->parent
            let p ← getParent st t
            let st ← setRight st t p
            -- t->right->left = rCPtr
            let r ← getRight st t
            let st ← setLeft st r rCPtr
            -- t->right->left->parent = t->left
            let l ← getLeft st t
            let r ← getRight st t
            let rl ← getLeft st r
            setParent st rl l
          else pure st
        else do
          let zig ← isZigZag st t
          let p ← getParent st t
          let st := if st.root = p then { st with root := t } else st
          if zig = 1 then do
            -- t->parent->left = NULL
            let p ← getParent st t
            let st ← setLeft st p none
            -- t->right = t->parent
            let p ← getParent st t
            let st ← setRight st t p
            -- t->parent = t->parent->parent
            let p ← getParent st t
            let g ← getParent st p
            let st ← setParent st t g
            -- t->parent->right->parent = t
            let p ← getParent st t
            let pr ← getRight st p
            let st ← setParent st pr t
            -- t->parent->right = t
            let p ← getParent st t
            setRight st p t
          else if zig = 0 then do
            -- t->parent->left = NULL
            let p ← getParent st t
            let st ← setLeft st p none
            -- t->parent->parent->left = t
            let p ← getParent st t
            let g ← getParent st p
            let st ← setLeft st g t
            -- t->right = t->parent
            let p ← getParent st t
            let st ← setRight st t p
            -- t->parent = t->right->parent
            let r ← getRight st t
            let rp ← getParent st r
            let st ← setParent st t rp
            -- t->right->parent = t
            let r ← getRight st t
            setParent st r t
          else if zig = 2 then do
            let rCPtr ← getRight st t
            -- t->parent->parent = t
            let p ← getParent st t
            let st ← setParent st p t
            -- t->right = t->parent
            let p ← getParent st t
            let st ← setRight st t p
            -- insertNode(rCPtr, t->right)
            let r ← getRight st t
            insertNode fuel st rCPtr r
          else pure st
      else if tLR = 1 then do
        -- t is a right child
        let l ← getLeft st t
        if l ≠ none then do
          -- t has a left child
          let zig ← isZigZag st t
          let p ← getParent st t
          let st := if st.root = p then { st with root := t } else st
          if zig = 1 then do
            let p ← getParent st t
            let gPtr ← getParent st p
            -- t->parent->right = NULL
            let st ← setRight st p none
            -- t->parent->parent->left = t
            let p ← getParent st t
            let g ← getParent st p
            let st ← setLeft st g t
            -- insertNode(t->parent, t->left)
            let p ← getParent st t
            let l ← getLeft st t
            let st ← insertNode fuel st p l
            -- t->parent = gPtr
            setParent st t gPtr
          else if zig = 0 then do
            let p ← getParent st t
            let gPtr ← getParent st p
            -- t->parent->right = NULL
            let st ← setRight st p none
            -- t->parent->parent->right = t
            let p ← getParent st t
            let g ← getParent st p
            let st ← setRight st g t
            -- insertNode(t->parent, t->left)
            let p ← getParent st t
            let l ← getLeft st t
            let st ← insertNode fuel st p l
            -- t->parent = gPtr
            setParent st t gPtr
          else if zig = 2 then do
            let rCPtr ← getLeft st t
            -- t->parent->parent = t
            let p ← getParent st t
            let st ← setParent st p t
            -- t->left = t->parent
            let p ← getParent st t
            let st ← setLeft st t p
            -- t->left->right = rCPtr
            let l ← getLeft st t
            let st ← setRight st l rCPtr
            -- t->left->right->parent = t->right
            let r ← getRight st t
            let l ← getLeft st t
            let lr ← getRight st l
            setParent st lr r
          else pure st
        else do
          -- t does not have a left child
          let zig ← isZigZag st t
          let p ← getParent st t
          let st := if st.root = p then { st with root := t } else st
          if zig = 1 then do
            -- t->parent->right = NULL
            let p ← getParent st t
            let st ← setRight st p none
            -- t->left = t->parent
            let p ← getParent st t
            let st ← setLeft st t p
            -- t->parent = t->parent->parent
            let p ← getParent st t
            let g ← getParent st p
            let st ← setParent st t g
            -- t->parent->left->parent = t
            let p ← getParent st t
            let pl ← getLeft st p
            let st ← setParent st pl t
            -- t->parent->left = t
            let p ← getParent st t
            setLeft st p t
          else if zig = 0 then do
            -- t->parent->right = NULL
            let p ← getParent st t
            let st ← setRight st p none
            -- t->parent->parent->right = t
            let p ← getParent st t
            let g ← getParent st p
            let st ← setRight st g t
            -- t->left = t->parent
            let p ← getParent st t
            let st ← setLeft st t p
            -- t->parent = t->left->parent
            let l ← getLeft st t
            let lp ← getParent st l
            let st ← setParent st t lp
            -- t->left->parent = t
            let l ← getLeft st t
            setParent st l t
          else if zig = 2 then do
            -- t->left = t->parent
            let p ← getParent st t
            let st ← setLeft st t p
            -- t->left->parent = t
            let l ← getLeft st t
            let st ← setParent st l t
            -- t->left->right = NULL
            let l ← getLeft st t
            setRight st l none
          else pure st
      else pure st

/-- The private `splay( SplayNode * t )`: one splay step on the node `t`. -/
def splayNode (fuel : Nat) (st : SplayTree) (t : Ptr) : Except Err (Int × SplayTree) := do
  let p ← getParent st t
  let st ←
    if p ≠ none then do
      let result ← isZigZag st t
      if result = 1 then do
        -- zig zag
        let st ← rotate fuel st t
        let st ← setParent st st.root none
        let st ← rotate fuel st t
        setParent st st.root none
      else if result = 0 then do
        -- zig zig
        let p ← getParent st t
        let st ← rotate fuel st p
        let st ← setParent st st.root none
        let st ← rotate fuel st t
        setParent st st.root none
      else if result = 2 then
        rotate fuel st t
      else
        -- cout << "not found"
        pure st
    else pure st
  let e ← getElement st t
  pure (e, st)

/-- The loop `while (valPtr != root) { valPtr = find(value, root); splay(valPtr); }` of the
public `splay( value )`. -/
def splayLoop : Nat → SplayTree → Int → Ptr → Except Err SplayTree
  | 0, _, _, _ => .error .fuel
  | fuel + 1, st, value, valPtr =>
    if valPtr ≠ st.root then do
      let valPtr ← findAt fuel st value st.root
      let (_, st) ← splayNode fuel st valPtr
      splayLoop fuel st value valPtr
    else pure st

/-- The public `splay( value )`. -/
def splay (fuel : Nat) (value : Int) (st : SplayTree) : Except Err (Int × SplayTree) :=
  if st.root = none then pure (st.ITEM_NOT_FOUND, st)
  else do
    let e ← getElement st st.root
    if e = value then pure (value, st)
    else do
      let st ← splayLoop fuel st value none
      pure (value, st)

/-- The public `insert( x )`. -/
def insert (fuel : Nat) (x : Int) (st : SplayTree) : Except Err SplayTree :=
  insertAt fuel x .root st

/-- The public `remove( x )`. -/
def remove (fuel : Nat) (x : Int) (st : SplayTree) : Except Err SplayTree :=
  removeAt fuel x .root st

/-- The public `findMin( )`. -/
def findMin (fuel : Nat) (st : SplayTree) : Except Err Int := do
  let t ← findMinAt fuel st st.root
  elementAt st t

/-- The public `findMax( )`. -/
def findMax (fuel : Nat) (st : SplayTree) : Except Err Int := do
  let t ← findMaxAt fuel st st.root
  elementAt st t

/-- The public `find( x )`. -/
def find (fuel : Nat) (x : Int) (st : SplayTree) : Except Err Int := do
  let t ← findAt fuel st x st.root
  elementAt st t

/-- The public `makeEmpty( )`. -/
def makeEmpty (fuel : Nat) (st : SplayTree) : Except Err SplayTree :=
  makeEmptyAt fuel .root st

/-- The public `isEmpty( )`. -/
def isEmpty (st : SplayTree) : Bool :=
  st.root = none

/-- The public `inorder( )`; the result is the sequence of keys written to `cout`. -/
def inorder (fuel : Nat) (st : SplayTree) : Except Err (List Int) :=
  if st.root ≠ none then inorderAt fuel st st.root else pure []

/-- The assignment `*this = rhs` for two distinct tree objects in one memory: `this` is the
destination (its `heap` field is the common memory) and `rhsRoot` is `rhs.root`. -/
def assign (fuel : Nat) (this : SplayTree) (rhsRoot : Ptr) : Except Err SplayTree := do
  let st ← makeEmpty fuel this
  let (c, st) ← clone fuel st rhsRoot
  pure { st with root := c }

/-- The copy constructor `SplayTree( rhs )`: the new tree object, in the memory of `rhs`. -/
def copy (fuel : Nat) (rhs : SplayTree) : Except Err SplayTree :=
  assign fuel { heap := rhs.heap, root := none, ITEM_NOT_FOUND := rhs.ITEM_NOT_FOUND } rhs.root

/-- A call of one of the public mutating operations. -/
inductive Op where
  | insert (x : Int)
  | remove (x : Int)
  deriving DecidableEq, Repr

/-- Executing one call. -/
def Op.run (fuel : Nat) (st : SplayTree) : Op → Except Err SplayTree
  | .insert x => Splay.insert fuel x st
  | .remove x => Splay.remove fuel x st

/-- Executing a sequence of calls, first to last. -/
def runOps (fuel : Nat) : List Op → SplayTree → Except Err SplayTree
  | [], st => pure st
  | op :: ops, st => do
    let st ← op.run fuel st
    runOps fuel ops st

/-- The tree obtained from the empty tree by inserting the keys `xs`, first to last. -/
def build (fuel : Nat) (xs : List Int) : Except Err SplayTree :=
  runOps fuel (xs.map Op.insert) (empty 0)

/-! ## Abstract trees and the representation relation -/

/-- The shape of a tree in memory: the address and key of every node, in position. -/
inductive Tree where
  | nil : Tree
  | node (l : Tree) (a : Nat) (k : Int) (r : Tree) : Tree
  deriving DecidableEq, Repr

namespace Tree

/-- The keys, left to right (the in-order sequence). -/
def keys : Tree → List Int
  | nil => []
  | node l _ k r => l.keys ++ k :: r.keys

/-- The addresses of the nodes, left to right. -/
def addrs : Tree → List Nat
  | nil => []
  | node l a _ r => l.addrs ++ a :: r.addrs

/-- The number of nodes on the longest path from the root down. -/
def height : Tree → Nat
  | nil => 0
  | node l _ _ r => max l.height r.height + 1

/-- The pointer to the root node. -/
def ptr : Tree → Ptr
  | nil => none
  | node _ a _ _ => some a

/-- The key of the leftmost node, `d` for the empty tree. -/
def minKey (d : Int) : Tree → Int
  | nil => d
  | node l _ k _ => l.minKey k

/-- The key of the rightmost node, `d` for the empty tree. -/
def maxKey (d : Int) : Tree → Int
  | nil => d
  | node _ _ k r => r.maxKey k

/-- The effect of the private `insert( x, t )` on the shape; `n` is the address of the
cell a new node gets. -/
def ins (n : Nat) (x : Int) : Tree → Tree
  | nil => node nil n x nil
  | node l a k r =>
    if x < k then node (ins n x l) a k r
    else if k < x then node l a k (ins n x r)
    else node l a k r

/-- The effect of the private `remove( x, t )` on the shape. -/
def rem : Int → Tree → Tree
  | _, nil => nil
  | x, node l a k r =>
    if x < k then node (rem x l) a k r
    else if k < x then node l a k (rem x r)
    else if l ≠ nil ∧ r ≠ nil then node l a (r.minKey k) (rem (r.minKey k) r)
    else if l ≠ nil then l else r

end Tree

/-- The cells reachable from `p` by child links form the tree `T`: every node of `T` is a
live cell with that key whose child pointers lead to the subtrees. Parent links are not
constrained. -/
inductive Rep (h : Heap) : Ptr → Tree → Prop
  | nil : Rep h none .nil
  | node {a : Nat} {n : SplayNode} {l r : Tree} {k : Int} :
      h[a]? = some (some n) → n.element = k → Rep h n.left l → Rep h n.right r →
      Rep h (some a) (.node l a k r)

/-- Every node of `T` has the parent link it should have, `par` being the parent of the
root of `T`. -/
def ParentsOK (h : Heap) : Ptr → Tree → Prop
  | _, .nil => True
  | par, .node l a _ r =>
    (∃ n, h[a]? = some (some n) ∧ n.parent = par) ∧
      ParentsOK h (some a) l ∧ ParentsOK h (some a) r

/-- The tree object `st` is a binary search tree of shape `T`: its root represents `T` and
the in-order key sequence is strictly ascending. -/
def IsBST (st : SplayTree) (T : Tree) : Prop :=
  Rep st.heap st.root T ∧ T.keys.Pairwise (· < ·)

/-- The effect the specification assigns to one call on the set of stored keys: an insert
adds the key, a remove takes it out. -/
def Op.spec (s : Finset Int) : Op → Finset Int
  | .insert x => s ∪ {x}
  | .remove x => s.erase x

/-- The key set the specification assigns to a sequence of calls on the empty tree. -/
def specKeys (ops : List Op) : Finset Int :=
  ops.foldl Op.spec ∅

/-- Cells that agree on key and child links (parent links may differ). -/
def Agree (h h' : Heap) (b : Nat) : Prop :=
  ∀ n, h[b]? = some (some n) →
    ∃ n', h'[b]? = some (some n') ∧ n'.element = n.element ∧ n'.left = n.left ∧
      n'.right = n.right

/-- The cell a reference lives in (none for the root field of the tree object). -/
def Ref.owner : Ref → Option Nat
  | .root => none
  | .left a => some a
  | .right a => some a

/-- The cell `n` after the reference, a field of it, is assigned `v`. -/
def Ref.put : Ref → Ptr → SplayNode → SplayNode
  | .root, _, n => n
  | .left _, v, n => { n with left := v }
  | .right _, v, n => { n with right := v }

/-- The effect on the memory of a call that turns the subtree `T` below the reference `t`
into `T'`: the reference holds the new subtree, new nodes are new cells, and outside the
old subtree only the referenced field changes. -/
def Post (st st' : SplayTree) (t : Ref) (T T' : Tree) : Prop :=
  st'.ITEM_NOT_FOUND = st.ITEM_NOT_FOUND ∧
  Rep st'.heap T'.ptr T' ∧
  (∀ b ∈ T'.addrs, b ∈ T.addrs ∨ st.heap.length ≤ b) ∧
  st.heap.length ≤ st'.heap.length ∧
  st'.root = (if t = .root then T'.ptr else st.root) ∧
  ∀ b, b < st.heap.length → b ∉ T.addrs →
    st'.heap[b]? =
      if t.owner = some b then (st.heap[b]?).map (Option.map (t.put T'.ptr))
      else st.heap[b]?

/-- The tree object with every parent link blanked: what remains are the cells, their keys
and their child links. -/
def eraseParents (st : SplayTree) : SplayTree :=
  { st with heap := st.heap.map (Option.map fun n => { n with parent := none }) }

/-- The tree obtained from the empty tree by `insert(5); insert(3)`. -/
def tree53 : SplayTree :=
  { heap := [some { element := 5, left := some 1, right := none, parent := none },
             some { element := 3, left := none, right := none, parent := some 0 }],
    root := some 0, ITEM_NOT_FOUND := 0 }

/-- The shape of `tree53`. -/
def shape53 : Tree :=
  .node (.node .nil 1 3 .nil) 0 5 .nil

/-- The tree obtained from the empty tree by `insert(5)`. -/
def tree5 : SplayTree :=
  { heap := [some { element := 5, left := none, right := none, parent := none }],
    root := some 0, ITEM_NOT_FOUND := 0 }

/-- The copy of `tree53` made by the copy constructor (cells 2 and 3 of the memory). -/
def copy53 : SplayTree :=
  { heap := [some { element := 5, left := some 1, right := none, parent := none },
             some { element := 3, left := none, right := none, parent := some 0 },
             some { element := 3, left := none, right := none, parent := none },
             some { element := 5, left := some 2, right := none, parent := none }],
    root := some 3, ITEM_NOT_FOUND := 0 }

/-- The tree after `insert(5); insert(3); insert(1); remove(3)`: the cell of the removed
node is freed and the node holding 1 still names it as its parent. -/
def tree51 : SplayTree :=
  { heap := [some { element := 5, left := some 2, right := none, parent := none },
             none,
             some { element := 1, left := none, right := none, parent := some 1 }],
    root := some 0, ITEM_NOT_FOUND := 0 }

/-- The shape of `tree51`. -/
def shape51 : Tree :=
  .node (.node .nil 2 1 .nil) 0 5 .nil

namespace Tree

/-- The tree `B` with `S` hung below the last node of its right spine. -/
def attachR : Tree → Tree → Tree
  | nil, S => S
  | node l a k r, S => node l a k (attachR r S)

/-- The tree `B` with `S` hung below the last node of its left spine. -/
def attachL : Tree → Tree → Tree
  | nil, S => S
  | node l a k r, S => node (attachL l S) a k r

/-- The address of the node the search for `k` ends at (`NULL` when `k` is not found). -/
def addrOf (k : Int) : Tree → Ptr
  | nil => none
  | node l a key r =>
    if k < key then l.addrOf k else if key < k then r.addrOf k else some a

end Tree

/-- The parent links along the search path of `k` are right: every node the search visits
has as parent link the node it was reached from, `par` for the root of `T`. -/
def PathOK (h : Heap) (k : Int) : Ptr → Tree → Prop
  | _, .nil => True
  | par, .node l a key r =>
    (∃ n, h[a]? = some (some n) ∧ n.parent = par) ∧
      (if k < key then PathOK h k (some a) l
       else if key < k then PathOK h k (some a) r else True)

/-- What `rotate` reads of the surroundings of the subtree `T` held by the reference `s`:
below a cell `z`, the root of the tree object is not a node of `T` and the other child link
of `z` does not lead into `T`. -/
def SlotOK (st : SplayTree) (s : Ref) (T : Tree) : Prop :=
  match s with
  | .root => True
  | .left z =>
    (∀ b ∈ T.addrs, st.root ≠ some b) ∧
      ∃ nz, st.heap[z]? = some (some nz) ∧ ∀ b ∈ T.addrs, nz.right ≠ some b
  | .right z =>
    (∀ b ∈ T.addrs, st.root ≠ some b) ∧
      ∃ nz, st.heap[z]? = some (some nz) ∧ ∀ b ∈ T.addrs, nz.left ≠ some b

/-- The number of steps the search for `k` takes below the root of the tree. -/
def Tree.depthOf (k : Int) : Tree → Nat
  | .nil => 0
  | .node l _ key r =>
    if k < key then l.depthOf k + 1 else if key < k then r.depthOf k + 1 else 0

/-- The root node of the tree object exists and its parent link is `NULL`. -/
def RootOK (st : SplayTree) : Prop :=
  ∃ ρ n, st.root = some ρ ∧ st.heap[ρ]? = some (some n) ∧ n.parent = none

/-- The state in which a splay step on the key `k` starts, seen from the subtree `T` held by
the reference `s`: `T` is a binary search tree in memory, the parent links along the search
path of `k` are right, and the surroundings are as `rotate` expects them. -/
def Ctx (st : SplayTree) (s : Ref) (T : Tree) (k : Int) : Prop :=
  readRef st s = .ok T.ptr ∧ Rep st.heap T.ptr T ∧ T.keys.Pairwise (· < ·) ∧
    (∀ c, s.owner = some c → c ∉ T.addrs) ∧ PathOK st.heap k s.owner T ∧ SlotOK st s T ∧
    RootOK st

/-- The outcome of a splay step on the key `k` that turns the subtree `T` held by the
reference `s` into `T'`: same keys in the same order, same cells, and the parent links along
the new search path of `k` are right. -/
def StepOK (st st' : SplayTree) (s : Ref) (T T' : Tree) (k : Int) : Prop :=
  Post st st' s T T' ∧ T'.keys = T.keys ∧ T'.addrs.Perm T.addrs ∧
    PathOK st'.heap k s.owner T' ∧ RootOK st'

/-- The tree after `insert(5); insert(8)` on the empty tree. -/
def tree58 : SplayTree :=
  { heap := [some { element := 5, left := none, right := some 1, parent := none },
             some { element := 8, left := none, right := none, parent := some 0 }],
    root := some 0, ITEM_NOT_FOUND := 0 }

/-- The tree `tree58` after `splay(8)`. -/
def tree85 : SplayTree :=
  { heap := [some { element := 5, left := none, right := none, parent := some 1 },
             some { element := 8, left := some 0, right := none, parent := some 0 }],
    root := some 1, ITEM_NOT_FOUND := 0 }

/-! ## Level-order printing, the splitting removal and mirror images -/

/-- The private `PrintDepth( t, depth, counter )`; the result is the sequence of keys written
to `cout`. -/
def PrintDepth : Nat → SplayTree → Ptr → Int → Int → Except Err (List Int)
  | 0, _, _, _, _ => .error .fuel
  | fuel + 1, st, t, depth, counter =>
    if t ≠ none then do
      let l ← getLeft st t
      let ls ← PrintDepth fuel st l depth (counter + 1)
      let mid ← if depth = counter then do
          let e ← getElement st t
          pure [e]
        else pure []
      let r ← getRight st t
      let rs ← PrintDepth fuel st r depth (counter + 1)
      pure (ls ++ mid ++ rs)
    else pure []

/-- The private `findDepth( t, depth, max )`. -/
def findDepth : Nat → SplayTree → Ptr → Int → Int → Except Err Int
  | 0, _, _, _, _ => .error .fuel
  | fuel + 1, st, t, depth, max =>
    if t ≠ none then do
      let max := if depth > max then depth else max
      let l ← getLeft st t
      let max ← findDepth fuel st l (depth + 1) max
      let r ← getRight st t
      findDepth fuel st r (depth + 1) max
    else pure max

/-- The loop `for (int i = 0; i <= x; i++) { PrintDepth(root,i,0); cout << endl; }` from the
value `i` on; the result is the list of lines written. -/
def PrintLOLoop : Nat → Nat → SplayTree → Int → Int → Except Err (List (List Int))
  | 0, _, _, _, _ => .error .fuel
  | n + 1, fuel, st, x, i =>
    if i ≤ x then do
      let line ← PrintDepth fuel st st.root i 0
      let rest ← PrintLOLoop n fuel st x (i + 1)
      pure (line :: rest)
    else pure []

/-- The private `PrintLO( t )`. -/
def PrintLOAt (fuel : Nat) (st : SplayTree) (t : Ptr) : Except Err (List (List Int)) := do
  let x ← findDepth fuel st t 0 0
  PrintLOLoop fuel fuel st x 0

/-- The public `PrintLO( )`. -/
def PrintLO (fuel : Nat) (st : SplayTree) : Except Err (List (List Int)) :=
  if st.root ≠ none then PrintLOAt fuel st st.root else pure []

/-- The public `Sremove( value )`.  The local tree object `lTree` lives in the same memory;
it is destroyed (`makeEmpty`) when the function returns. -/
def Sremove (fuel : Nat) (value : Int) (st : SplayTree) : Except Err (Int × SplayTree) := do
  let lRoot ← getLeft st st.root
  let rRoot ← getRight st st.root
  let min ← findMinAt fuel st lRoot
  let lTree : SplayTree := { heap := st.heap, root := none, ITEM_NOT_FOUND := st.ITEM_NOT_FOUND }
  let lTree ← insertNode fuel lTree lRoot none
  let me ← getElement lTree min
  let (_, lTree) ← splay fuel me lTree
  -- root = NULL
  let lr ← getRight lTree lRoot
  let lTree ← insertNode fuel lTree rRoot lr
  -- *this = lTree
  let this ← assign fuel { heap := lTree.heap, root := none, ITEM_NOT_FOUND := st.ITEM_NOT_FOUND }
    lTree.root
  -- the destructor of lTree
  let lTree ← makeEmpty fuel { lTree with heap := this.heap }
  pure (value, { this with heap := lTree.heap })

/-- The mirror image of a memory: in every node the left and right child links are swapped
and the key is negated, which reverses the key order. -/
def mirror (st : SplayTree) : SplayTree :=
  { st with heap := st.heap.map (Option.map fun n =>
      { element := -n.element, left := n.right, right := n.left, parent := n.parent }) }

namespace Tree

/-- The keys of the nodes at depth `i` (the root is at depth 0), left to right. -/
def level : Nat → Tree → List Int
  | _, nil => []
  | 0, node _ _ k _ => [k]
  | i + 1, node l _ _ r => level i l ++ level i r

/-- The shape and keys of a tree without the addresses. -/
def unlabel : Tree → Tree
  | nil => nil
  | node l _ k r => node l.unlabel 0 k r.unlabel

end Tree

/-- The shape of `tree58`. -/
def shape58 : Tree :=
  .node .nil 0 5 (.node .nil 1 8 .nil)

/-- The shape of `tree85`. -/
def shape85 : Tree :=
  .node (.node .nil 0 5 .nil) 1 8 .nil

/-- The tree after `insert(9); insert(5); insert(3); insert(4)` on the empty tree. -/
def tree9534 : SplayTree :=
  { heap := [some { element := 9, left := some 1, right := none, parent := none },
             some { element := 5, left := some 2, right := none, parent := some 0 },
             some { element := 3, left := none, right := some 3, parent := some 1 },
             some { element := 4, left := none, right := none, parent := some 2 }],
    root := some 0, ITEM_NOT_FOUND := 0 }

/-- The shape of `tree9534`. -/
def shape9534 : Tree :=
  .node (.node (.node .nil 2 3 (.node .nil 3 4 .nil)) 1 5 .nil) 0 9 .nil

/-- The tree `tree9534` after `rotate` on the node holding 3 (cell 2). -/
def tree9345 : SplayTree :=
  { heap := [some { element := 9, left := some 2, right := none, parent := none },
             some { element := 5, left := none, right := none, parent := some 3 },
             some { element := 3, left := none, right := some 3, parent := some 0 },
             some { element := 4, left := none, right := some 1, parent := some 2 }],
    root := some 0, ITEM_NOT_FOUND := 0 }

/-- The tree `tree53` with the node holding 3 rotated above the node holding 5, the way the
right-child branch of `rotate` does it in the mirror image. -/
def tree35 : SplayTree :=
  { heap := [some { element := 5, left := none, right := none, parent := some 1 },
             some { element := 3, left := none, right := some 0, parent := some 0 }],
    root := some 1, ITEM_NOT_FOUND := 0 }

/-- The tree after `insert(5); insert(3); insert(8)` on the empty tree. -/
def tree538 : SplayTree :=
  { heap := [some { element := 5, left := some 1, right := some 2, parent := none },
             some { element := 3, left := none, right := none, parent := some 0 },
             some { element := 8, left := none, right := none, parent := some 0 }],
    root := some 0, ITEM_NOT_FOUND := 0 }

/-- The shape of `tree538`. -/
def shape538 : Tree :=
  .node (.node .nil 1 3 .nil) 0 5 (.node .nil 2 8 .nil)

/-- The addresses of the nodes the search for `x` visits, the root first. -/
def Tree.pathAddrs (x : Int) : Tree → List Nat
  | .nil => []
  | .node l a key r =>
    a :: (if x < key then l.pathAddrs x else if key < x then r.pathAddrs x else [])

/-- Every node the search for `x` visits below the root of `T` has as parent link the node
it was reached from (nothing is said about the parent link of the root of `T`). -/
def BelowOK (h : Heap) (x : Int) : Tree → Prop
  | .nil => True
  | .node l a key r =>
    if x < key then PathOK h x (some a) l
    else if key < x then PathOK h x (some a) r else True

/-! # Theorems -/

/-! ## Reading and writing cells -/

theorem deref_cell {h : Heap} {a : Nat} {n : SplayNode} (hc : h[a]? = some (some n)) :
    deref h (some a) = .ok n := by
  simp [deref, hc]

theorem getElement_cell {s : SplayTree} {a : Nat} {n : SplayNode}
    (hc : s.heap[a]? = some (some n)) : getElement s (some a) = .ok n.element := by
  simp [getElement, deref_cell hc, Except.map]

theorem getLeft_cell {s : SplayTree} {a : Nat} {n : SplayNode}
    (hc : s.heap[a]? = some (some n)) : getLeft s (some a) = .ok n.left := by
  simp [getLeft, deref_cell hc, Except.map]

theorem getRight_cell {s : SplayTree} {a : Nat} {n : SplayNode}
    (hc : s.heap[a]? = some (some n)) : getRight s (some a) = .ok n.right := by
  simp [getRight, deref_cell hc, Except.map]

theorem getParent_cell {s : SplayTree} {a : Nat} {n : SplayNode}
    (hc : s.heap[a]? = some (some n)) : getParent s (some a) = .ok n.parent := by
  simp [getParent, deref_cell hc, Except.map]

theorem modify_cell {s : SplayTree} {a : Nat} {n : SplayNode} (f : SplayNode → SplayNode)
    (hc : s.heap[a]? = some (some n)) :
    modify s (some a) f = .ok { s with heap := s.heap.set a (some (f n)) } := by
  simp [modify, hc]

theorem free_cell {s : SplayTree} {a : Nat} {n : SplayNode}
    (hc : s.heap[a]? = some (some n)) :
    free s (some a) = .ok { s with heap := s.heap.set a none } := by
  simp [free, hc]

/-! ## Facts about shapes -/

theorem Rep.ptr_eq {h : Heap} {p : Ptr} {T : Tree} (hr : Rep h p T) : p = T.ptr := by
  cases hr <;> rfl

theorem Rep.nil_iff {h : Heap} {T : Tree} : Rep h none T ↔ T = .nil := by
  constructor
  · intro hr; cases hr; rfl
  · rintro rfl; exact Rep.nil

theorem Rep.lt_length {h : Heap} {p : Ptr} {T : Tree} (hr : Rep h p T) :
    ∀ b ∈ T.addrs, b < h.length := by
  induction hr with
  | nil => intro b hb; simp [Tree.addrs] at hb
  | node hc _ _ _ ihl ihr =>
    intro b hb
    simp only [Tree.addrs, List.mem_append, List.mem_cons] at hb
    rcases hb with hb | rfl | hb
    · exact ihl b hb
    · by_contra hlt
      rw [List.getElem?_eq_none (by omega)] at hc
      cases hc
    · exact ihr b hb

theorem Agree.of_eq {h h' : Heap} {b : Nat} (he : h'[b]? = h[b]?) : Agree h h' b := by
  intro n hn
  exact ⟨n, by rw [he, hn], rfl, rfl, rfl⟩

theorem Rep.congr {h h' : Heap} {p : Ptr} {T : Tree} (hr : Rep h p T)
    (hag : ∀ b ∈ T.addrs, Agree h h' b) : Rep h' p T := by
  induction hr with
  | nil => exact Rep.nil
  | @node a n l r k hc hk _ _ ihl ihr =>
    obtain ⟨n', hc', he, hl, hrr⟩ := hag a (by simp [Tree.addrs]) n hc
    refine Rep.node hc' (he.trans hk) ?_ ?_
    · rw [hl]; exact ihl (fun b hb => hag b (by simp [Tree.addrs, hb]))
    · rw [hrr]; exact ihr (fun b hb => hag b (by simp [Tree.addrs, hb]))

/-! ## The read-only operations on a represented tree -/

theorem inorderAt_rep {st : SplayTree} {p : Ptr} {T : Tree} (hr : Rep st.heap p T) :
    ∀ fuel, T.height < fuel → inorderAt fuel st p = .ok T.keys := by
  induction hr with
  | nil =>
    intro fuel hf
    cases fuel with
    | zero => simp [Tree.height] at hf
    | succ f => simp [inorderAt, Tree.keys, pure, Except.pure]
  | @node a n l r k hc hk _ _ ihl ihr =>
    intro fuel hf
    cases fuel with
    | zero => simp at hf
    | succ f =>
      simp only [Tree.height] at hf
      have h1 := ihl f (by omega)
      have h2 := ihr f (by omega)
      simp [inorderAt, getLeft_cell hc, getRight_cell hc, getElement_cell hc, h1, h2,
        bind, Except.bind, pure, Except.pure, Tree.keys, hk]

theorem bst_node {l r : Tree} {a : Nat} {k : Int}
    (hb : (Tree.node l a k r).keys.Pairwise (· < ·)) :
    l.keys.Pairwise (· < ·) ∧ r.keys.Pairwise (· < ·) ∧
      (∀ y ∈ l.keys, y < k) ∧ (∀ y ∈ r.keys, k < y) := by
  simp only [Tree.keys, List.pairwise_append, List.pairwise_cons, List.mem_cons] at hb
  obtain ⟨h1, ⟨h2, h3⟩, h4⟩ := hb
  exact ⟨h1, h3, fun y hy => h4 y hy k (Or.inl rfl), h2⟩

theorem bst_node_iff {l r : Tree} {a : Nat} {k : Int} :
    (Tree.node l a k r).keys.Pairwise (· < ·) ↔
    l.keys.Pairwise (· < ·) ∧ r.keys.Pairwise (· < ·) ∧
      (∀ y ∈ l.keys, y < k) ∧ (∀ y ∈ r.keys, k < y) := by
  constructor
  · exact bst_node
  · rintro ⟨h1, h2, h3, h4⟩
    simp only [Tree.keys, List.pairwise_append, List.pairwise_cons, List.mem_cons]
    refine ⟨h1, ⟨h4, h2⟩, ?_⟩
    rintro y hy z (rfl | hz)
    · exact h3 y hy
    · exact lt_trans (h3 y hy) (h4 z hz)

theorem findAt_rep {st : SplayTree} {p : Ptr} {T : Tree} (x : Int) (hr : Rep st.heap p T)
    (hb : T.keys.Pairwise (· < ·)) :
    ∀ fuel, T.height < fuel →
      ∃ q, findAt fuel st x p = .ok q ∧
        elementAt st q = .ok (if x ∈ T.keys then x else st.ITEM_NOT_FOUND) := by
  induction hr with
  | nil =>
    intro fuel hf
    cases fuel with
    | zero => simp at hf
    | succ f => exact ⟨none, by simp [findAt, pure, Except.pure], by simp [elementAt, Tree.keys]⟩
  | @node a n l r k hc hk _ _ ihl ihr =>
    intro fuel hf
    obtain ⟨hbl, hbr, hlt, hgt⟩ := bst_node hb
    cases fuel with
    | zero => simp at hf
    | succ f =>
      simp only [Tree.height] at hf
      obtain ⟨ql, hql, hel⟩ := ihl hbl f (by omega)
      obtain ⟨qr, hqr, her⟩ := ihr hbr f (by omega)
      by_cases h1 : x < k
      · refine ⟨ql, ?_, ?_⟩
        · simp [findAt, getLeft_cell hc, getElement_cell hc, hk, h1, hql, bind, Except.bind]
        · rw [hel]
          have hx : x ≠ k := ne_of_lt h1
          have hxr : x ∉ r.keys := fun hm => by have := hgt x hm; omega
          simp [Tree.keys, hx, hxr]
      · by_cases h2 : k < x
        · refine ⟨qr, ?_, ?_⟩
          · simp [findAt, getRight_cell hc, getElement_cell hc, hk, h1, h2, hqr, bind,
              Except.bind]
          · rw [her]
            have hx : x ≠ k := (ne_of_lt h2).symm
            have hxl : x ∉ l.keys := fun hm => by have := hlt x hm; omega
            simp [Tree.keys, hx, hxl]
        · have hx : x = k := by omega
          refine ⟨some a, ?_, ?_⟩
          · simp [findAt, getElement_cell hc, hk, h1, h2, bind, Except.bind, pure, Except.pure]
          · simp [elementAt, getElement_cell hc, hk, Tree.keys, hx]

theorem findMinAt_rep {st : SplayTree} {a : Nat} {T : Tree} (hr : Rep st.heap (some a) T) :
    ∀ fuel, T.height < fuel →
      ∃ q, findMinAt fuel st (some a) = .ok (some q) ∧
        getElement st (some q) = .ok (T.minKey 0) ∧ q ∈ T.addrs := by
  generalize hp : some a = p at hr
  induction hr generalizing a with
  | nil => cases hp
  | @node a' n l r k hc hk hl _ ihl _ =>
    cases hp
    intro fuel hf
    cases fuel with
    | zero => simp at hf
    | succ f =>
      simp only [Tree.height] at hf
      cases hnl : n.left with
      | none =>
        rw [hnl] at hl
        have : l = .nil := Rep.nil_iff.mp hl
        subst this
        exact ⟨a', by simp [findMinAt, getLeft_cell hc, hnl, bind, Except.bind, pure, Except.pure],
          by simp [getElement_cell hc, hk, Tree.minKey], by simp [Tree.addrs]⟩
      | some b =>
        obtain ⟨q, hq, he, hm⟩ := ihl hnl.symm f (by omega)
        rw [hnl] at hq
        refine ⟨q, ?_, ?_, ?_⟩
        · simp [findMinAt, getLeft_cell hc, hnl, bind, Except.bind, hq]
        · rw [he]
          rw [hnl] at hl
          cases hl
          simp [Tree.minKey]
        · simp [Tree.addrs, hm]

theorem findMaxLoop_rep {st : SplayTree} {a : Nat} {T : Tree} (hr : Rep st.heap (some a) T) :
    ∀ fuel, T.height < fuel →
      ∃ q, findMaxLoop fuel st (some a) = .ok (some q) ∧
        getElement st (some q) = .ok (T.maxKey 0) ∧ q ∈ T.addrs := by
  generalize hp : some a = p at hr
  induction hr generalizing a with
  | nil => cases hp
  | @node a' n l r k hc hk _ hrr _ ihr =>
    cases hp
    intro fuel hf
    cases fuel with
    | zero => simp at hf
    | succ f =>
      simp only [Tree.height] at hf
      cases hnr : n.right with
      | none =>
        rw [hnr] at hrr
        have : r = .nil := Rep.nil_iff.mp hrr
        subst this
        exact ⟨a', by simp [findMaxLoop, getRight_cell hc, hnr, bind, Except.bind, pure,
          Except.pure], by simp [getElement_cell hc, hk, Tree.maxKey], by simp [Tree.addrs]⟩
      | some b =>
        obtain ⟨q, hq, he, hm⟩ := ihr hnr.symm f (by omega)
        rw [hnr] at hq
        refine ⟨q, ?_, ?_, ?_⟩
        · simp [findMaxLoop, getRight_cell hc, hnr, bind, Except.bind, hq]
        · rw [he]
          rw [hnr] at hrr
          cases hrr
          simp [Tree.maxKey]
        · simp [Tree.addrs, hm]

theorem minKey_mem {l r : Tree} {a : Nat} {k : Int} :
    (Tree.node l a k r).minKey 0 ∈ (Tree.node l a k r).keys := by
  induction l generalizing a k r with
  | nil => simp [Tree.minKey, Tree.keys]
  | node ll la lk lr ihl _ =>
    have := @ihl lr la lk
    simp only [Tree.minKey, Tree.keys] at this ⊢
    simp only [List.mem_append, List.mem_cons] at this ⊢
    tauto

theorem minKey_default {T : Tree} (d d' : Int) (h : T ≠ .nil) : T.minKey d = T.minKey d' := by
  cases T with
  | nil => exact absurd rfl h
  | node l a k r => simp [Tree.minKey]

theorem maxKey_default {T : Tree} (d d' : Int) (h : T ≠ .nil) : T.maxKey d = T.maxKey d' := by
  cases T with
  | nil => exact absurd rfl h
  | node l a k r => simp [Tree.maxKey]

theorem minKey_le {T : Tree} (hb : T.keys.Pairwise (· < ·)) (d : Int) :
    ∀ y ∈ T.keys, T.minKey d ≤ y := by
  induction T generalizing d with
  | nil => simp [Tree.keys]
  | node l a k r ihl _ =>
    obtain ⟨hbl, hbr, hlt, hgt⟩ := bst_node hb
    intro y hy
    have hk : l.minKey k ≤ k := by
      cases l with
      | nil => simp [Tree.minKey]
      | node ll la lk lr =>
        have h1 : (Tree.node ll la lk lr).minKey k = (Tree.node ll la lk lr).minKey 0 := rfl
        rw [h1]
        exact le_of_lt (hlt _ minKey_mem)
    simp only [Tree.keys, List.mem_append, List.mem_cons] at hy
    simp only [Tree.minKey]
    rcases hy with hy | rfl | hy
    · exact ihl hbl k y hy
    · exact hk
    · exact le_trans hk (le_of_lt (hgt y hy))

theorem maxKey_mem {l r : Tree} {a : Nat} {k : Int} :
    (Tree.node l a k r).maxKey 0 ∈ (Tree.node l a k r).keys := by
  induction r generalizing a k l with
  | nil => simp [Tree.maxKey, Tree.keys]
  | node rl ra rk rr _ ihr =>
    have := @ihr rl ra rk
    simp only [Tree.maxKey, Tree.keys] at this ⊢
    simp only [List.mem_append, List.mem_cons] at this ⊢
    tauto

theorem le_maxKey {T : Tree} (hb : T.keys.Pairwise (· < ·)) (d : Int) :
    ∀ y ∈ T.keys, y ≤ T.maxKey d := by
  induction T generalizing d with
  | nil => simp [Tree.keys]
  | node l a k r _ ihr =>
    obtain ⟨hbl, hbr, hlt, hgt⟩ := bst_node hb
    intro y hy
    have hk : k ≤ r.maxKey k := by
      cases r with
      | nil => simp [Tree.maxKey]
      | node rl ra rk rr =>
        have h1 : (Tree.node rl ra rk rr).maxKey k = (Tree.node rl ra rk rr).maxKey 0 := rfl
        rw [h1]
        exact le_of_lt (hgt _ maxKey_mem)
    simp only [Tree.keys, List.mem_append, List.mem_cons] at hy
    simp only [Tree.maxKey]
    rcases hy with hy | rfl | hy
    · exact le_trans (le_of_lt (hlt y hy)) hk
    · exact hk
    · exact ihr hbr k y hy

/-! ## Distinct addresses -/

theorem Rep.key_mem {h : Heap} {p : Ptr} {T : Tree} (hr : Rep h p T) :
    ∀ b ∈ T.addrs, ∃ n, h[b]? = some (some n) ∧ n.element ∈ T.keys := by
  induction hr with
  | nil => intro b hb; simp [Tree.addrs] at hb
  | @node a n l r k hc hk _ _ ihl ihr =>
    intro b hb
    simp only [Tree.addrs, List.mem_append, List.mem_cons] at hb
    rcases hb with hb | rfl | hb
    · obtain ⟨m, hm, hmk⟩ := ihl b hb
      exact ⟨m, hm, by simp [Tree.keys, hmk]⟩
    · exact ⟨n, hc, by simp [Tree.keys, hk]⟩
    · obtain ⟨m, hm, hmk⟩ := ihr b hb
      exact ⟨m, hm, by simp [Tree.keys, hmk]⟩

theorem Rep.nodup {h : Heap} {p : Ptr} {T : Tree} (hr : Rep h p T)
    (hb : T.keys.Pairwise (· < ·)) : T.addrs.Nodup := by
  induction hr with
  | nil => simp [Tree.addrs]
  | @node a n l r k hc hk hl hrr ihl ihr =>
    obtain ⟨hbl, hbr, hlt, hgt⟩ := bst_node hb
    simp only [Tree.addrs]
    rw [List.nodup_append]
    refine ⟨ihl hbl, ?_, ?_⟩
    · rw [List.nodup_cons]
      refine ⟨?_, ihr hbr⟩
      intro ha
      obtain ⟨m, hm, hmk⟩ := hrr.key_mem a ha
      rw [hc] at hm
      cases hm
      have := hgt _ hmk
      omega
    · intro b hbl' hbr'
      obtain ⟨m, hm, hmk⟩ := hl.key_mem b hbl'
      rcases List.mem_cons.mp hbr' with rfl | hbr'
      · rw [hc] at hm
        cases hm
        have := hlt _ hmk
        omega
      · obtain ⟨m', hm', hmk'⟩ := hrr.key_mem b hbr'
        rw [hm] at hm'
        cases hm'
        have h1 := hlt _ hmk
        have h2 := hgt _ hmk'
        omega

theorem nodup_node {l r : Tree} {a : Nat} {k : Int} (hn : (Tree.node l a k r).addrs.Nodup) :
    l.addrs.Nodup ∧ r.addrs.Nodup ∧ a ∉ l.addrs ∧ a ∉ r.addrs ∧
      (∀ b ∈ l.addrs, b ∉ r.addrs) := by
  simp only [Tree.addrs] at hn
  rw [List.nodup_append, List.nodup_cons] at hn
  obtain ⟨h1, ⟨h2, h3⟩, h4⟩ := hn
  refine ⟨h1, h3, ?_, h2, ?_⟩
  · intro ha; exact h4 ha (List.mem_cons_self _ _)
  · intro b hb hb'; exact h4 hb (List.mem_cons_of_mem _ hb')

/-! ## References -/

theorem getLeft_ok {st : SplayTree} {c : Nat} {p : Ptr} (h : getLeft st (some c) = .ok p) :
    ∃ n, st.heap[c]? = some (some n) ∧ n.left = p := by
  cases hc : st.heap[c]? with
  | none => simp [getLeft, deref, hc, Except.map] at h
  | some o =>
    cases o with
    | none => simp [getLeft, deref, hc, Except.map] at h
    | some n =>
      simp only [getLeft, deref, hc, Except.map, Except.ok.injEq] at h
      exact ⟨n, rfl, h⟩

theorem getRight_ok {st : SplayTree} {c : Nat} {p : Ptr} (h : getRight st (some c) = .ok p) :
    ∃ n, st.heap[c]? = some (some n) ∧ n.right = p := by
  cases hc : st.heap[c]? with
  | none => simp [getRight, deref, hc, Except.map] at h
  | some o =>
    cases o with
    | none => simp [getRight, deref, hc, Except.map] at h
    | some n =>
      simp only [getRight, deref, hc, Except.map, Except.ok.injEq] at h
      exact ⟨n, rfl, h⟩

theorem readRef_owner {st : SplayTree} {t : Ref} {p : Ptr} (h : readRef st t = .ok p) :
    ∀ c, t.owner = some c → ∃ n, st.heap[c]? = some (some n) ∧ t.put p n = n := by
  intro c hc
  cases t with
  | root => simp [Ref.owner] at hc
  | left a =>
    simp only [Ref.owner, Option.some.injEq] at hc
    subst hc
    obtain ⟨n, hn, hl⟩ := getLeft_ok h
    exact ⟨n, hn, by simp [Ref.put, ← hl]⟩
  | right a =>
    simp only [Ref.owner, Option.some.injEq] at hc
    subst hc
    obtain ⟨n, hn, hl⟩ := getRight_ok h
    exact ⟨n, hn, by simp [Ref.put, ← hl]⟩

theorem readRef_root_eq {st : SplayTree} {p : Ptr} (h : readRef st .root = .ok p) :
    st.root = p := by
  simpa [readRef] using h

theorem readRef_congr {st st' : SplayTree} {t : Ref} (hroot : t = .root → st'.root = st.root)
    (hown : ∀ c, t.owner = some c → st'.heap[c]? = st.heap[c]?) :
    readRef st' t = readRef st t := by
  cases t with
  | root => simp [readRef, hroot rfl]
  | left a => simp [readRef, getLeft, deref, hown a rfl]
  | right a => simp [readRef, getRight, deref, hown a rfl]

theorem agree_set_parent {h : Heap} {a : Nat} {n : SplayNode} (v : Ptr)
    (hc : h[a]? = some (some n)) (b : Nat) :
    Agree h (h.set a (some { n with parent := v })) b := by
  intro m hm
  have hlt : a < h.length := by
    by_contra hlt
    rw [List.getElem?_eq_none (by omega)] at hc
    cases hc
  by_cases hab : a = b
  · subst hab
    rw [hc] at hm
    cases hm
    exact ⟨_, List.getElem?_set_self hlt, rfl, rfl, rfl⟩
  · exact ⟨m, by rw [List.getElem?_set_ne hab, hm], rfl, rfl, rfl⟩

theorem cell_lt {h : Heap} {a : Nat} {n : SplayNode} (hc : h[a]? = some (some n)) :
    a < h.length := by
  by_contra hlt
  rw [List.getElem?_eq_none (by omega)] at hc
  cases hc

/-! ## Composing effects -/

theorem Post.left {st st1 : SplayTree} {t : Ref} {l r l' : Tree} {a : Nat} {k : Int}
    {n : SplayNode} (hread : readRef st t = .ok (some a))
    (hc : st.heap[a]? = some (some n)) (hk : n.element = k) (hr : Rep st.heap n.right r)
    (hnd : (Tree.node l a k r).addrs.Nodup)
    (hown : ∀ c, t.owner = some c → c ∉ (Tree.node l a k r).addrs)
    (hp : Post st st1 (.left a) l l') :
    Post st st1 t (.node l a k r) (.node l' a k r) ∧ readRef st1 t = .ok (some a) ∧
      st1.heap[a]? = some (some { n with left := l'.ptr }) := by
  obtain ⟨hinf, hrep, hsub, hlen, hroot, hframe⟩ := hp
  obtain ⟨_, _, hal, har, hdis⟩ := nodup_node hnd
  have halt := cell_lt hc
  have hca : st1.heap[a]? = some (some { n with left := l'.ptr }) := by
    rw [hframe a halt hal]
    simp [Ref.owner, hc, Ref.put]
  have hframe' : ∀ b, b < st.heap.length → b ∉ l.addrs → b ≠ a →
      st1.heap[b]? = st.heap[b]? := by
    intro b hb hbl hba
    rw [hframe b hb hbl]
    have : ¬ (Ref.left a).owner = some b := by
      simp only [Ref.owner, Option.some.injEq]
      exact fun h => hba h.symm
    simp [this]
  have hroot' : st1.root = st.root := by simpa using hroot
  have hread1 : readRef st1 t = .ok (some a) := by
    rw [← hread]
    apply readRef_congr
    · intro _; exact hroot'
    · intro c hc'
      obtain ⟨m, hm, _⟩ := readRef_owner hread c hc'
      have hcn := hown c hc'
      simp only [Tree.addrs, List.mem_append, List.mem_cons, not_or] at hcn
      exact hframe' c (cell_lt hm) hcn.1 hcn.2.1
  refine ⟨⟨hinf, ?_, ?_, hlen, ?_, ?_⟩, hread1, hca⟩
  · refine Rep.node hca hk hrep ?_
    apply hr.congr
    intro b hb
    apply Agree.of_eq
    exact hframe' b (hr.lt_length b hb) (fun h => hdis b h hb) (fun h => har (h ▸ hb))
  · intro b hb
    simp only [Tree.addrs, List.mem_append, List.mem_cons] at hb ⊢
    rcases hb with hb | hb | hb
    · rcases hsub b hb with h | h
      · exact Or.inl (Or.inl h)
      · exact Or.inr h
    · exact Or.inl (Or.inr (Or.inl hb))
    · exact Or.inl (Or.inr (Or.inr hb))
  · rw [hroot']
    by_cases ht : t = .root
    · subst ht
      simp [readRef_root_eq hread, Tree.ptr]
    · simp [ht]
  · intro b hb hbn
    simp only [Tree.addrs, List.mem_append, List.mem_cons, not_or] at hbn
    rw [hframe' b hb hbn.1 hbn.2.1]
    by_cases ho : t.owner = some b
    · obtain ⟨m, hm, hput⟩ := readRef_owner hread b ho
      simp [ho, hm, Tree.ptr, hput]
    · simp [ho]

theorem Post.right {st st1 : SplayTree} {t : Ref} {l r r' : Tree} {a : Nat} {k : Int}
    {n : SplayNode} (hread : readRef st t = .ok (some a))
    (hc : st.heap[a]? = some (some n)) (hk : n.element = k) (hl : Rep st.heap n.left l)
    (hnd : (Tree.node l a k r).addrs.Nodup)
    (hown : ∀ c, t.owner = some c → c ∉ (Tree.node l a k r).addrs)
    (hp : Post st st1 (.right a) r r') :
    Post st st1 t (.node l a k r) (.node l a k r') ∧ readRef st1 t = .ok (some a) ∧
      st1.heap[a]? = some (some { n with right := r'.ptr }) := by
  obtain ⟨hinf, hrep, hsub, hlen, hroot, hframe⟩ := hp
  obtain ⟨_, _, hal, har, hdis⟩ := nodup_node hnd
  have halt := cell_lt hc
  have hca : st1.heap[a]? = some (some { n with right := r'.ptr }) := by
    rw [hframe a halt har]
    simp [Ref.owner, hc, Ref.put]
  have hframe' : ∀ b, b < st.heap.length → b ∉ r.addrs → b ≠ a →
      st1.heap[b]? = st.heap[b]? := by
    intro b hb hbl hba
    rw [hframe b hb hbl]
    have : ¬ (Ref.right a).owner = some b := by
      simp only [Ref.owner, Option.some.injEq]
      exact fun h => hba h.symm
    simp [this]
  have hroot' : st1.root = st.root := by simpa using hroot
  have hread1 : readRef st1 t = .ok (some a) := by
    rw [← hread]
    apply readRef_congr
    · intro _; exact hroot'
    · intro c hc'
      obtain ⟨m, hm, _⟩ := readRef_owner hread c hc'
      have hcn := hown c hc'
      simp only [Tree.addrs, List.mem_append, List.mem_cons, not_or] at hcn
      exact hframe' c (cell_lt hm) hcn.2.2 hcn.2.1
  refine ⟨⟨hinf, ?_, ?_, hlen, ?_, ?_⟩, hread1, hca⟩
  · refine Rep.node hca hk ?_ hrep
    apply hl.congr
    intro b hb
    apply Agree.of_eq
    exact hframe' b (hl.lt_length b hb) (fun h => hdis b hb h) (fun h => hal (h ▸ hb))
  · intro b hb
    simp only [Tree.addrs, List.mem_append, List.mem_cons] at hb ⊢
    rcases hb with hb | hb | hb
    · exact Or.inl (Or.inl hb)
    · exact Or.inl (Or.inr (Or.inl hb))
    · rcases hsub b hb with h | h
      · exact Or.inl (Or.inr (Or.inr h))
      · exact Or.inr h
  · rw [hroot']
    by_cases ht : t = .root
    · subst ht
      simp [readRef_root_eq hread, Tree.ptr]
    · simp [ht]
  · intro b hb hbn
    simp only [Tree.addrs, List.mem_append, List.mem_cons, not_or] at hbn
    rw [hframe' b hb hbn.2.2 hbn.2.1]
    by_cases ho : t.owner = some b
    · obtain ⟨m, hm, hput⟩ := readRef_owner hread b ho
      simp [ho, hm, Tree.ptr, hput]
    · simp [ho]

theorem Post.set_parent {st st1 : SplayTree} {t : Ref} {T T' : Tree} {a1 : Nat}
    {n1 : SplayNode} (v : Ptr) (hp : Post st st1 t T T') (hmem : a1 ∈ T'.addrs)
    (hc : st1.heap[a1]? = some (some n1)) :
    Post st { st1 with heap := st1.heap.set a1 (some { n1 with parent := v }) } t T T' := by
  obtain ⟨hinf, hrep, hsub, hlen, hroot, hframe⟩ := hp
  refine ⟨hinf, ?_, hsub, by simpa using hlen, hroot, ?_⟩
  · exact hrep.congr (fun b _ => agree_set_parent v hc b)
  · intro b hb hbn
    have hne : a1 ≠ b := by
      rintro rfl
      rcases hsub a1 hmem with h | h
      · exact hbn h
      · omega
    show (st1.heap.set a1 _)[b]? = _
    rw [List.getElem?_set_ne hne]
    exact hframe b hb hbn

/-! ## The effect of `insert( x, t )` -/

theorem ins_ptr (n : Nat) (x : Int) (T : Tree) : ∃ a, (T.ins n x).ptr = some a ∧
    a ∈ (T.ins n x).addrs := by
  cases T with
  | nil => exact ⟨n, rfl, by simp [Tree.ins, Tree.addrs]⟩
  | node l a k r =>
    refine ⟨a, ?_, ?_⟩
    · simp only [Tree.ins]; split_ifs <;> rfl
    · simp only [Tree.ins]; split_ifs <;> simp [Tree.addrs]

theorem Rep.cell {h : Heap} {a : Nat} {T : Tree} (hr : Rep h (some a) T) :
    ∃ n l r, T = .node l a n.element r ∧ h[a]? = some (some n) ∧ Rep h n.left l ∧
      Rep h n.right r := by
  cases hr with
  | node hc hk hl hrr => subst hk; exact ⟨_, _, _, rfl, hc, hl, hrr⟩

theorem insertAt_nil (x : Int) (fuel : Nat) (st : SplayTree) (t : Ref)
    (hread : readRef st t = .ok none) :
    ∃ st', insertAt (fuel + 1) x t st = .ok st' ∧
      Post st st' t .nil (.node .nil st.heap.length x .nil) ∧
      st'.heap[st.heap.length]? = some (some (SplayNode.mk x none none none)) := by
  have hnew : ∀ (h : Heap) (c : SplayNode), (h ++ [some c])[h.length]? = some (some c) :=
    fun h c => List.getElem?_concat_length h (some c)
  cases t with
  | root =>
    refine ⟨_, by simp [insertAt, hread, alloc, writeRef, bind, Except.bind]; rfl, ?_,
      hnew _ _⟩
    refine ⟨rfl, ?_, ?_, by simp, by simp [Tree.ptr], ?_⟩
    · exact Rep.node (hnew _ _) rfl Rep.nil Rep.nil
    · intro b hb
      simp only [Tree.addrs, List.nil_append, List.mem_singleton] at hb
      exact Or.inr (le_of_eq hb.symm)
    · intro b hb _
      simp [Ref.owner, List.getElem?_append_left hb]
  | left c =>
    obtain ⟨m, hm, hml⟩ := getLeft_ok hread
    have hclt := cell_lt hm
    have hm1 : (st.heap ++ [some (SplayNode.mk x none none none)])[c]? = some (some m) := by
      rw [List.getElem?_append_left hclt, hm]
    refine ⟨{ st with heap := ((st.heap ++ [some (SplayNode.mk x none none none)]).set c
        (some { m with left := some st.heap.length })) }, ?_, ?_, ?_⟩
    · simp only [insertAt, hread, alloc, writeRef, bind, Except.bind, setLeft]
      rw [modify_cell _ hm1]
    rotate_left
    · show ((st.heap ++ [_]).set c _)[st.heap.length]? = _
      rw [List.getElem?_set_ne (by omega)]
      exact hnew _ _
    refine ⟨rfl, ?_, ?_, by simp, by simp, ?_⟩
    · refine Rep.node (n := SplayNode.mk x none none none) ?_ rfl Rep.nil Rep.nil
      show ((st.heap ++ [_]).set c _)[st.heap.length]? = _
      rw [List.getElem?_set_ne (by omega)]
      exact hnew _ _
    · intro b hb
      simp only [Tree.addrs, List.nil_append, List.mem_singleton] at hb
      exact Or.inr (le_of_eq hb.symm)
    · intro b hb _
      show ((st.heap ++ [_]).set c _)[b]? = _
      by_cases hcb : c = b
      · subst hcb
        rw [List.getElem?_set_self (by simp; omega)]
        simp [Ref.owner, hm, Ref.put, Tree.ptr]
      · rw [List.getElem?_set_ne hcb, List.getElem?_append_left hb]
        simp [Ref.owner, hcb]
  | right c =>
    obtain ⟨m, hm, hml⟩ := getRight_ok hread
    have hclt := cell_lt hm
    have hm1 : (st.heap ++ [some (SplayNode.mk x none none none)])[c]? = some (some m) := by
      rw [List.getElem?_append_left hclt, hm]
    refine ⟨{ st with heap := ((st.heap ++ [some (SplayNode.mk x none none none)]).set c
        (some { m with right := some st.heap.length })) }, ?_, ?_, ?_⟩
    · simp only [insertAt, hread, alloc, writeRef, bind, Except.bind, setRight]
      rw [modify_cell _ hm1]
    rotate_left
    · show ((st.heap ++ [_]).set c _)[st.heap.length]? = _
      rw [List.getElem?_set_ne (by omega)]
      exact hnew _ _
    refine ⟨rfl, ?_, ?_, by simp, by simp, ?_⟩
    · refine Rep.node (n := SplayNode.mk x none none none) ?_ rfl Rep.nil Rep.nil
      show ((st.heap ++ [_]).set c _)[st.heap.length]? = _
      rw [List.getElem?_set_ne (by omega)]
      exact hnew _ _
    · intro b hb
      simp only [Tree.addrs, List.nil_append, List.mem_singleton] at hb
      exact Or.inr (le_of_eq hb.symm)
    · intro b hb _
      show ((st.heap ++ [_]).set c _)[b]? = _
      by_cases hcb : c = b
      · subst hcb
        rw [List.getElem?_set_self (by simp; omega)]
        simp [Ref.owner, hm, Ref.put, Tree.ptr]
      · rw [List.getElem?_set_ne hcb, List.getElem?_append_left hb]
        simp [Ref.owner, hcb]

theorem insertAt_post (x : Int) : ∀ (T : Tree) (fuel : Nat) (st : SplayTree) (t : Ref),
    readRef st t = .ok T.ptr → Rep st.heap T.ptr T → T.addrs.Nodup →
    (∀ c, t.owner = some c → c ∉ T.addrs) → T.height < fuel →
    ∃ st', insertAt fuel x t st = .ok st' ∧ Post st st' t T (T.ins st.heap.length x) := by
  intro T
  induction T with
  | nil =>
    intro fuel st t hread _ _ _ hf
    cases fuel with
    | zero => simp at hf
    | succ f =>
      obtain ⟨st', h1, h2, _⟩ := insertAt_nil x f st t hread
      exact ⟨st', h1, h2⟩
  | node l a k r ihl ihr =>
    intro fuel st t hread hrep hnd hown hf
    cases fuel with
    | zero => simp at hf
    | succ f =>
      simp only [Tree.height] at hf
      simp only [Tree.ptr] at hread hrep
      obtain ⟨n, l0, r0, hT, hc, hl, hr⟩ := hrep.cell
      cases hT
      obtain ⟨hndl, hndr, hal, har, hdis⟩ := nodup_node hnd
      by_cases h1 : x < n.element
      · have hrl : readRef st (.left a) = .ok l.ptr := by
          simp [readRef, getLeft_cell hc, hl.ptr_eq]
        obtain ⟨st1, hst1, hp1⟩ := ihl f st (.left a) hrl (hl.ptr_eq ▸ hl) hndl
          (by intro c hc'; simp only [Ref.owner, Option.some.injEq] at hc'; exact hc' ▸ hal)
          (by omega)
        obtain ⟨hp, hread1, hca⟩ := Post.left hread hc rfl hr hnd hown hp1
        obtain ⟨a1, ha1, ha1m⟩ := ins_ptr st.heap.length x l
        obtain ⟨_, hrep1, _⟩ := hp1
        rw [ha1] at hrep1
        obtain ⟨n1, _, _, _, hc1, _, _⟩ := hrep1.cell
        refine ⟨{ st1 with heap := st1.heap.set a1 (some { n1 with parent := some a }) }, ?_, ?_⟩
        · simp only [insertAt, hread, getElement_cell hc, h1, if_true, hst1, hread1,
            getLeft_cell hca, ha1, bind, Except.bind, setParent]
          rw [modify_cell _ hc1]
        · have : (Tree.node l a n.element r).ins st.heap.length x =
              .node (l.ins st.heap.length x) a n.element r := by simp [Tree.ins, h1]
          rw [this]
          exact Post.set_parent (some a) hp (by simp [Tree.addrs, ha1m]) hc1
      · by_cases h2 : n.element < x
        · have hrr : readRef st (.right a) = .ok r.ptr := by
            simp [readRef, getRight_cell hc, hr.ptr_eq]
          obtain ⟨st1, hst1, hp1⟩ := ihr f st (.right a) hrr (hr.ptr_eq ▸ hr) hndr
            (by intro c hc'; simp only [Ref.owner, Option.some.injEq] at hc'; exact hc' ▸ har)
            (by omega)
          obtain ⟨hp, hread1, hca⟩ := Post.right hread hc rfl hl hnd hown hp1
          obtain ⟨a1, ha1, ha1m⟩ := ins_ptr st.heap.length x r
          obtain ⟨_, hrep1, _⟩ := hp1
          rw [ha1] at hrep1
          obtain ⟨n1, _, _, _, hc1, _, _⟩ := hrep1.cell
          refine ⟨{ st1 with heap := st1.heap.set a1 (some { n1 with parent := some a }) },
            ?_, ?_⟩
          · simp only [insertAt, hread, getElement_cell hc, h1, h2, if_true, if_false, hst1,
              hread1, getRight_cell hca, ha1, bind, Except.bind, setParent]
            rw [modify_cell _ hc1]
          · have : (Tree.node l a n.element r).ins st.heap.length x =
                .node l a n.element (r.ins st.heap.length x) := by simp [Tree.ins, h1, h2]
            rw [this]
            exact Post.set_parent (some a) hp (by simp [Tree.addrs, ha1m]) hc1
        · refine ⟨st, ?_, ?_⟩
          · simp [insertAt, hread, getElement_cell hc, h1, h2, bind, Except.bind, pure,
              Except.pure]
          · have : (Tree.node l a n.element r).ins st.heap.length x =
                .node l a n.element r := by simp [Tree.ins, h1, h2]
            rw [this]
            refine ⟨rfl, Rep.node hc rfl hl hr, fun b hb => Or.inl hb, le_refl _, ?_, ?_⟩
            · by_cases ht : t = .root
              · subst ht; simp [readRef_root_eq hread, Tree.ptr]
              · simp [ht]
            · intro b hb _
              by_cases ho : t.owner = some b
              · obtain ⟨m, hm, hput⟩ := readRef_owner hread b ho
                simp [ho, hm, Tree.ptr, hput]
              · simp [ho]

/-! ## The effect of `remove( x, t )` -/

theorem Post.refl {st : SplayTree} {t : Ref} {T : Tree} (hread : readRef st t = .ok T.ptr)
    (hrep : Rep st.heap T.ptr T) : Post st st t T T := by
  refine ⟨rfl, hrep, fun b hb => Or.inl hb, le_refl _, ?_, ?_⟩
  · by_cases ht : t = .root
    · subst ht; simp [readRef_root_eq hread]
    · simp [ht]
  · intro b _ _
    by_cases ho : t.owner = some b
    · obtain ⟨m, hm, hput⟩ := readRef_owner hread b ho
      simp [ho, hm, hput]
    · simp [ho]

theorem ptr_eq_none {T : Tree} : T.ptr = none ↔ T = .nil := by
  cases T <;> simp [Tree.ptr]

/-- Changing the key of a cell inside the old subtree beforehand does not matter for the
effect outside. -/
theorem Post.pre {st st1 st2 : SplayTree} {t : Ref} {T T1 T' : Tree}
    (hp : Post st1 st2 t T1 T') (haddr : T1.addrs = T.addrs)
    (hinf : st1.ITEM_NOT_FOUND = st.ITEM_NOT_FOUND) (hroot : st1.root = st.root)
    (hlen : st1.heap.length = st.heap.length)
    (hout : ∀ b, b ∉ T.addrs → st1.heap[b]? = st.heap[b]?) :
    Post st st2 t T T' := by
  obtain ⟨h1, h2, h3, h4, h5, h6⟩ := hp
  refine ⟨h1.trans hinf, h2, ?_, by omega, by rw [h5, hroot], ?_⟩
  · intro b hb; rw [← haddr, ← hlen]; exact h3 b hb
  · intro b hb hbn
    rw [h6 b (by omega) (by rw [haddr]; exact hbn), hout b hbn]

theorem removeAt_leaf {st : SplayTree} {t : Ref} {l r U : Tree} {a : Nat} {n : SplayNode}
    {c : Ptr} (hread : readRef st t = .ok (some a)) (hc : st.heap[a]? = some (some n))
    (hown : ∀ c, t.owner = some c → c ∉ (Tree.node l a n.element r).addrs)
    (hT : Rep st.heap c U) (hsub : ∀ b ∈ U.addrs, b ∈ l.addrs ∨ b ∈ r.addrs)
    (hnd : (Tree.node l a n.element r).addrs.Nodup) :
    ∃ st', (do let st1 ← writeRef st t c; free st1 (some a)) = .ok st' ∧
      Post st st' t (.node l a n.element r) U := by
  obtain ⟨_, _, hal, har, _⟩ := nodup_node hnd
  have hcT : c = U.ptr := hT.ptr_eq
  have hane : ∀ b ∈ U.addrs, a ≠ b := by
    intro b hb hab
    subst hab
    rcases hsub a hb with h | h
    · exact hal h
    · exact har h
  have hsub' : ∀ b ∈ U.addrs, b ∈ (Tree.node l a n.element r).addrs := by
    intro b hb
    simp only [Tree.addrs, List.mem_append, List.mem_cons]
    rcases hsub b hb with h | h
    · exact Or.inl h
    · exact Or.inr (Or.inr h)
  have halt := cell_lt hc
  cases t with
  | root =>
    refine ⟨{ st with root := c, heap := st.heap.set a none }, ?_, ?_⟩
    · simp only [writeRef, bind, Except.bind]
      exact free_cell (s := { st with root := c }) hc
    · refine ⟨rfl, ?_, fun b hb => Or.inl (hsub' b hb), by simp, by simp [hcT], ?_⟩
      · rw [← hcT]
        apply hT.congr
        intro b hb
        apply Agree.of_eq
        show (st.heap.set a none)[b]? = _
        rw [List.getElem?_set_ne (hane b hb)]
      · intro b hb hbn
        have : a ≠ b := by
          rintro rfl; exact hbn (by simp [Tree.addrs])
        show (st.heap.set a none)[b]? = _
        rw [List.getElem?_set_ne this]
        simp [Ref.owner]
  | left c0 =>
    obtain ⟨m, hm, _⟩ := getLeft_ok hread
    have hc0 : c0 ∉ (Tree.node l a n.element r).addrs := hown c0 rfl
    have hc0a : c0 ≠ a := by rintro rfl; exact hc0 (by simp [Tree.addrs])
    have hc1 : (st.heap.set c0 (some { m with left := c }))[a]? = some (some n) := by
      rw [List.getElem?_set_ne hc0a, hc]
    refine ⟨{ st with heap := ((st.heap.set c0 (some { m with left := c })).set a none) },
      ?_, ?_⟩
    · simp only [writeRef, setLeft, modify_cell _ hm, bind, Except.bind]
      exact free_cell (s := { st with heap := st.heap.set c0 (some { m with left := c }) }) hc1
    · refine ⟨rfl, ?_, fun b hb => Or.inl (hsub' b hb), by simp, by simp, ?_⟩
      · rw [← hcT]
        apply hT.congr
        intro b hb
        apply Agree.of_eq
        show ((st.heap.set c0 _).set a none)[b]? = _
        rw [List.getElem?_set_ne (hane b hb), List.getElem?_set_ne]
        rintro rfl
        exact hc0 (hsub' _ hb)
      · intro b hb hbn
        have : a ≠ b := by
          rintro rfl; exact hbn (by simp [Tree.addrs])
        show ((st.heap.set c0 _).set a none)[b]? = _
        rw [List.getElem?_set_ne this]
        by_cases hcb : c0 = b
        · subst hcb
          rw [List.getElem?_set_self (cell_lt hm)]
          simp [Ref.owner, hm, Ref.put, hcT]
        · rw [List.getElem?_set_ne hcb]
          simp [Ref.owner, hcb]
  | right c0 =>
    obtain ⟨m, hm, _⟩ := getRight_ok hread
    have hc0 : c0 ∉ (Tree.node l a n.element r).addrs := hown c0 rfl
    have hc0a : c0 ≠ a := by rintro rfl; exact hc0 (by simp [Tree.addrs])
    have hc1 : (st.heap.set c0 (some { m with right := c }))[a]? = some (some n) := by
      rw [List.getElem?_set_ne hc0a, hc]
    refine ⟨{ st with heap := ((st.heap.set c0 (some { m with right := c })).set a none) },
      ?_, ?_⟩
    · simp only [writeRef, setRight, modify_cell _ hm, bind, Except.bind]
      exact free_cell (s := { st with heap := st.heap.set c0 (some { m with right := c }) })
        hc1
    · refine ⟨rfl, ?_, fun b hb => Or.inl (hsub' b hb), by simp, by simp, ?_⟩
      · rw [← hcT]
        apply hT.congr
        intro b hb
        apply Agree.of_eq
        show ((st.heap.set c0 _).set a none)[b]? = _
        rw [List.getElem?_set_ne (hane b hb), List.getElem?_set_ne]
        rintro rfl
        exact hc0 (hsub' _ hb)
      · intro b hb hbn
        have : a ≠ b := by
          rintro rfl; exact hbn (by simp [Tree.addrs])
        show ((st.heap.set c0 _).set a none)[b]? = _
        rw [List.getElem?_set_ne this]
        by_cases hcb : c0 = b
        · subst hcb
          rw [List.getElem?_set_self (cell_lt hm)]
          simp [Ref.owner, hm, Ref.put, hcT]
        · rw [List.getElem?_set_ne hcb]
          simp [Ref.owner, hcb]

theorem removeAt_post : ∀ (T : Tree) (x : Int) (fuel : Nat) (st : SplayTree) (t : Ref),
    readRef st t = .ok T.ptr → Rep st.heap T.ptr T → T.addrs.Nodup →
    (∀ c, t.owner = some c → c ∉ T.addrs) → T.height < fuel →
    ∃ st', removeAt fuel x t st = .ok st' ∧ Post st st' t T (T.rem x) := by
  intro T
  induction T with
  | nil =>
    intro x fuel st t hread hrep _ _ hf
    cases fuel with
    | zero => simp at hf
    | succ f =>
      simp only [Tree.ptr] at hread
      exact ⟨st, by simp [removeAt, hread, bind, Except.bind, pure, Except.pure],
        Post.refl hread hrep⟩
  | node l a k r ihl ihr =>
    intro x fuel st t hread hrep hnd hown hf
    cases fuel with
    | zero => simp at hf
    | succ f =>
      simp only [Tree.height] at hf
      simp only [Tree.ptr] at hread hrep
      obtain ⟨n, l0, r0, hT, hc, hl, hr⟩ := hrep.cell
      cases hT
      obtain ⟨hndl, hndr, hal, har, hdis⟩ := nodup_node hnd
      by_cases h1 : x < n.element
      · have hrl : readRef st (.left a) = .ok l.ptr := by
          simp [readRef, getLeft_cell hc, hl.ptr_eq]
        obtain ⟨st1, hst1, hp1⟩ := ihl x f st (.left a) hrl (hl.ptr_eq ▸ hl) hndl
          (by intro c hc'; simp only [Ref.owner, Option.some.injEq] at hc'; exact hc' ▸ hal)
          (by omega)
        obtain ⟨hp, _, _⟩ := Post.left hread hc rfl hr hnd hown hp1
        refine ⟨st1, ?_, ?_⟩
        · simp only [removeAt, hread, getElement_cell hc, h1, if_true, hst1, bind, Except.bind]
        · have : (Tree.node l a n.element r).rem x = .node (l.rem x) a n.element r := by
            simp [Tree.rem, h1]
          rw [this]; exact hp
      · by_cases h2 : n.element < x
        · have hrr : readRef st (.right a) = .ok r.ptr := by
            simp [readRef, getRight_cell hc, hr.ptr_eq]
          obtain ⟨st1, hst1, hp1⟩ := ihr x f st (.right a) hrr (hr.ptr_eq ▸ hr) hndr
            (by intro c hc'; simp only [Ref.owner, Option.some.injEq] at hc'; exact hc' ▸ har)
            (by omega)
          obtain ⟨hp, _, _⟩ := Post.right hread hc rfl hl hnd hown hp1
          refine ⟨st1, ?_, ?_⟩
          · simp only [removeAt, hread, getElement_cell hc, h1, h2, if_true, if_false, hst1,
              bind, Except.bind]
          · have : (Tree.node l a n.element r).rem x = .node l a n.element (r.rem x) := by
              simp [Tree.rem, h1, h2]
            rw [this]; exact hp
        · by_cases h3 : l ≠ .nil ∧ r ≠ .nil
          · -- two children
            have hl3 : n.left ≠ none := by
              rw [hl.ptr_eq]; exact fun h => h3.1 (ptr_eq_none.mp h)
            have hr3 : n.right ≠ none := by
              rw [hr.ptr_eq]; exact fun h => h3.2 (ptr_eq_none.mp h)
            obtain ⟨b, hb⟩ := Option.ne_none_iff_exists'.mp hr3
            have hr' := hr
            rw [hb] at hr'
            obtain ⟨q, hq, hqe, hqm⟩ := findMinAt_rep hr' f (by omega)
            have hmk : r.minKey 0 = r.minKey n.element := minKey_default _ _ h3.2
            rw [hmk] at hqe
            -- the state after `t->element = ...`
            have hc1 : (st.heap.set a (some { n with element := r.minKey n.element }))[a]? =
                some (some { n with element := r.minKey n.element }) :=
              List.getElem?_set_self (cell_lt hc)
            have hout : ∀ b, b ≠ a →
                (st.heap.set a (some { n with element := r.minKey n.element }))[b]? =
                  st.heap[b]? := fun b hb => List.getElem?_set_ne (Ne.symm hb)
            have hread1 : readRef { st with heap := (st.heap.set a
                (some { n with element := r.minKey n.element })) } t = .ok (some a) := by
              rw [← hread]
              apply readRef_congr
              · intro _; rfl
              · intro c hc'
                apply hout
                rintro rfl
                exact hown _ hc' (by simp [Tree.addrs])
            have hrr : readRef { st with heap := (st.heap.set a
                (some { n with element := r.minKey n.element })) } (.right a) = .ok r.ptr := by
              simp only [readRef]
              rw [getRight_cell hc1]
              simp [hr.ptr_eq]
            have hrep1 : Rep (st.heap.set a (some { n with element := r.minKey n.element }))
                r.ptr r := by
              rw [← hr.ptr_eq]
              apply hr.congr
              intro b hb
              exact Agree.of_eq (hout b (fun h => har (h ▸ hb)))
            have hrepl : Rep (st.heap.set a (some { n with element := r.minKey n.element }))
                n.left l := by
              apply hl.congr
              intro b hb
              exact Agree.of_eq (hout b (fun h => hal (h ▸ hb)))
            obtain ⟨st2, hst2, hp2⟩ := ihr (r.minKey n.element) f _ (.right a) hrr hrep1 hndr
              (by intro c hc'; simp only [Ref.owner, Option.some.injEq] at hc'; exact hc' ▸ har)
              (by omega)
            have hnd' : (Tree.node l a (r.minKey n.element) r).addrs.Nodup := by
              simpa [Tree.addrs] using hnd
            obtain ⟨hp, _, _⟩ := Post.right (k := r.minKey n.element) hread1 hc1 rfl hrepl
              hnd' (by simpa [Tree.addrs] using hown) hp2
            refine ⟨st2, ?_, ?_⟩
            · simp only [removeAt, hread, getElement_cell hc, h1, h2, if_false,
                getLeft_cell hc, getRight_cell hc, hl3, hr3, bind, Except.bind]
              rw [if_pos ⟨hl3, hr3⟩, hb, hq]
              simp only [hqe, setElement, modify_cell _ hc, hread1]
              rw [getElement_cell (s := { st with heap := (st.heap.set a
                (some { n with element := r.minKey n.element })) }) hc1]
              exact hst2
            · have : (Tree.node l a n.element r).rem x =
                  .node l a (r.minKey n.element) (r.rem (r.minKey n.element)) := by
                simp [Tree.rem, h1, h2, h3]
              rw [this]
              refine Post.pre hp (by simp [Tree.addrs]) rfl rfl (by simp) ?_
              intro b hb
              apply hout
              rintro rfl
              exact hb (by simp [Tree.addrs])
          · -- at most one child
            have hT' : Rep st.heap (if n.left ≠ none then n.left else n.right)
                (if l ≠ .nil then l else r) := by
              by_cases hln : l = .nil
              · subst hln
                have : n.left = none := by rw [hl.ptr_eq]; rfl
                simpa [this] using hr
              · have : n.left ≠ none := by
                  rw [hl.ptr_eq]; exact fun h => hln (ptr_eq_none.mp h)
                simpa [this, hln] using hl
            have hsub : ∀ b ∈ (if l ≠ .nil then l else r).addrs, b ∈ l.addrs ∨ b ∈ r.addrs := by
              intro b hb
              by_cases hln : l = .nil
              · simp only [hln, ne_eq, not_true_eq_false, if_false] at hb
                exact Or.inr hb
              · simp only [hln, ne_eq, not_false_eq_true, if_true] at hb
                exact Or.inl hb
            obtain ⟨st', hst', hp⟩ := removeAt_leaf hread hc hown hT' hsub hnd
            refine ⟨st', ?_, ?_⟩
            · have hcond : ¬ (n.left ≠ none ∧ n.right ≠ none) := by
                rintro ⟨ha, hb⟩
                apply h3
                constructor
                · rintro rfl; exact ha (by rw [hl.ptr_eq]; rfl)
                · rintro rfl; exact hb (by rw [hr.ptr_eq]; rfl)
              simp only [removeAt, hread, getElement_cell hc, h1, h2, if_false,
                getLeft_cell hc, getRight_cell hc, hcond, bind, Except.bind]
              exact hst'
            · have : (Tree.node l a n.element r).rem x = if l ≠ .nil then l else r := by
                simp [Tree.rem, h1, h2, h3]
              rw [this]; exact hp

/-! ## Keys after `insert` and `remove` -/

theorem ins_keys_mem (n : Nat) (x : Int) (T : Tree) (y : Int) :
    y ∈ (T.ins n x).keys ↔ y ∈ T.keys ∨ y = x := by
  induction T with
  | nil => simp [Tree.ins, Tree.keys]
  | node l a k r ihl ihr =>
    simp only [Tree.ins]
    split_ifs with h1 h2
    · simp only [Tree.keys, List.mem_append, List.mem_cons, ihl]; tauto
    · simp only [Tree.keys, List.mem_append, List.mem_cons, ihr]; tauto
    · have : x = k := by omega
      subst this
      simp only [Tree.keys, List.mem_append, List.mem_cons]; tauto

theorem ins_sorted (n : Nat) (x : Int) (T : Tree) (hb : T.keys.Pairwise (· < ·)) :
    (T.ins n x).keys.Pairwise (· < ·) := by
  induction T with
  | nil => simp [Tree.ins, Tree.keys]
  | node l a k r ihl ihr =>
    obtain ⟨hbl, hbr, hlt, hgt⟩ := bst_node hb
    simp only [Tree.ins]
    split_ifs with h1 h2
    · rw [bst_node_iff]
      refine ⟨ihl hbl, hbr, ?_, hgt⟩
      intro y hy
      rcases (ins_keys_mem n x l y).mp hy with h | h
      · exact hlt y h
      · rw [h]; exact h1
    · rw [bst_node_iff]
      refine ⟨hbl, ihr hbr, hlt, ?_⟩
      intro y hy
      rcases (ins_keys_mem n x r y).mp hy with h | h
      · exact hgt y h
      · rw [h]; exact h2
    · exact hb

theorem ins_height (n : Nat) (x : Int) (T : Tree) : (T.ins n x).height ≤ T.height + 1 := by
  induction T with
  | nil => simp [Tree.ins, Tree.height]
  | node l a k r ihl ihr =>
    simp only [Tree.ins]
    split_ifs <;> simp only [Tree.height] <;> omega

theorem rem_height (x : Int) (T : Tree) : (T.rem x).height ≤ T.height := by
  induction T generalizing x with
  | nil => simp [Tree.rem]
  | node l a k r ihl ihr =>
    simp only [Tree.rem]
    have h1 := ihl x
    have h2 := ihr x
    have h3 := ihr (r.minKey k)
    split_ifs <;> simp only [Tree.height] <;> omega

theorem keys_eq_minKey_cons {T : Tree} (d : Int) (h : T ≠ .nil) :
    ∃ rest, T.keys = T.minKey d :: rest := by
  induction T generalizing d with
  | nil => exact absurd rfl h
  | node l a k r ihl _ =>
    by_cases hl : l = .nil
    · subst hl
      exact ⟨r.keys, by simp [Tree.keys, Tree.minKey]⟩
    · obtain ⟨rest, hrest⟩ := ihl k hl
      exact ⟨rest ++ k :: r.keys, by simp [Tree.keys, Tree.minKey, hrest]⟩

theorem filter_ne_of_not_mem {x : Int} {L : List Int} (h : x ∉ L) :
    L.filter (fun y => !decide (y = x)) = L := by
  rw [List.filter_eq_self]
  intro y hy
  simp only [Bool.not_eq_eq_eq_not, Bool.not_true, decide_eq_false_iff_not]
  rintro rfl
  exact h hy

theorem rem_keys (x : Int) (T : Tree) (hb : T.keys.Pairwise (· < ·)) :
    (T.rem x).keys = T.keys.filter (fun y => !decide (y = x)) := by
  induction T generalizing x with
  | nil => simp [Tree.rem, Tree.keys]
  | node l a k r ihl ihr =>
    obtain ⟨hbl, hbr, hlt, hgt⟩ := bst_node hb
    have hkl : k ∉ l.keys := fun h => by have := hlt k h; omega
    have hkr : k ∉ r.keys := fun h => by have := hgt k h; omega
    simp only [Tree.rem]
    split_ifs with h1 h2 h3 h4
    · have hxr : x ∉ r.keys := fun h => by have := hgt x h; omega
      have hxk : ¬ k = x := by omega
      simp [Tree.keys, ihl x hbl, List.filter_append, List.filter_cons, hxk,
        filter_ne_of_not_mem hxr]
    · have hxl : x ∉ l.keys := fun h => by have := hlt x h; omega
      have hxk : ¬ k = x := by omega
      simp [Tree.keys, ihr x hbr, List.filter_append, List.filter_cons, hxk,
        filter_ne_of_not_mem hxl]
    · have hx : x = k := by omega
      subst hx
      obtain ⟨rest, hrest⟩ := keys_eq_minKey_cons x h3.2
      have hrs : (r.minKey x :: rest).Pairwise (· < ·) := hrest ▸ hbr
      have hm : r.minKey x ∉ rest := by
        intro h
        have := (List.pairwise_cons.mp hrs).1 _ h
        omega
      have hmx : ¬ r.minKey x = x := by
        intro h
        apply hkr
        rw [hrest, h]
        exact List.mem_cons_self _ _
      have hxrest : x ∉ rest := by
        intro h
        apply hkr
        rw [hrest]
        exact List.mem_cons_of_mem _ h
      simp [Tree.keys, ihr (r.minKey x) hbr, List.filter_append, List.filter_cons,
        filter_ne_of_not_mem hkl, hrest, hmx, filter_ne_of_not_mem hm,
        filter_ne_of_not_mem hxrest]
    · have hx : x = k := by omega
      subst hx
      have hr : r = .nil := by
        by_contra hr; exact h3 ⟨h4, hr⟩
      subst hr
      simp [Tree.keys, List.filter_append, filter_ne_of_not_mem hkl]
    · have hx : x = k := by omega
      subst hx
      have hl : l = .nil := by simpa using h4
      subst hl
      simp [Tree.keys, filter_ne_of_not_mem hkr]

theorem rem_sorted (x : Int) (T : Tree) (hb : T.keys.Pairwise (· < ·)) :
    (T.rem x).keys.Pairwise (· < ·) := by
  rw [rem_keys x T hb]
  exact hb.filter _

/-! ## The public operations on a binary search tree -/

theorem insert_bst {st : SplayTree} {T : Tree} (x : Int) {fuel : Nat} (h : IsBST st T)
    (hf : T.height < fuel) :
    ∃ st', insert fuel x st = .ok st' ∧ IsBST st' (T.ins st.heap.length x) ∧
      st'.ITEM_NOT_FOUND = st.ITEM_NOT_FOUND := by
  obtain ⟨hrep, hb⟩ := h
  have hp := hrep.ptr_eq
  obtain ⟨st', hst', hinf, hrep', _, _, hroot, _⟩ :=
    insertAt_post x T fuel st .root (by simp [readRef, hp]) (hp ▸ hrep) (hrep.nodup hb)
      (by simp [Ref.owner]) hf
  refine ⟨st', hst', ⟨?_, ins_sorted _ x T hb⟩, hinf⟩
  simp only [if_true] at hroot
  rw [hroot]; exact hrep'

theorem remove_bst {st : SplayTree} {T : Tree} (x : Int) {fuel : Nat} (h : IsBST st T)
    (hf : T.height < fuel) :
    ∃ st', remove fuel x st = .ok st' ∧ IsBST st' (T.rem x) ∧
      st'.ITEM_NOT_FOUND = st.ITEM_NOT_FOUND := by
  obtain ⟨hrep, hb⟩ := h
  have hp := hrep.ptr_eq
  obtain ⟨st', hst', hinf, hrep', _, _, hroot, _⟩ :=
    removeAt_post T x fuel st .root (by simp [readRef, hp]) (hp ▸ hrep) (hrep.nodup hb)
      (by simp [Ref.owner]) hf
  refine ⟨st', hst', ⟨?_, rem_sorted x T hb⟩, hinf⟩
  simp only [if_true] at hroot
  rw [hroot]; exact hrep'

theorem inorder_rep {st : SplayTree} {T : Tree} {fuel : Nat} (h : Rep st.heap st.root T)
    (hf : T.height < fuel) : inorder fuel st = .ok T.keys := by
  unfold inorder
  split_ifs with h1
  · exact inorderAt_rep h fuel hf
  · have : st.root = none := by simpa using h1
    rw [this] at h
    rw [Rep.nil_iff.mp h]
    rfl

theorem empty_bst (nf : Int) : IsBST (empty nf) .nil :=
  ⟨Rep.nil, List.Pairwise.nil⟩

theorem runOps_bst : ∀ (ops : List Op) (st : SplayTree) (T : Tree) (fuel : Nat),
    IsBST st T → T.height + ops.length < fuel →
    ∃ st' T', runOps fuel ops st = .ok st' ∧ IsBST st' T' ∧
      T'.height ≤ T.height + ops.length ∧
      T'.keys.toFinset = ops.foldl Op.spec T.keys.toFinset := by
  intro ops
  induction ops with
  | nil =>
    intro st T fuel h _
    exact ⟨st, T, rfl, h, by simp, rfl⟩
  | cons op ops ih =>
    intro st T fuel h hf
    simp only [List.length_cons] at hf
    cases op with
    | insert x =>
      obtain ⟨st1, hst1, h1, _⟩ := insert_bst x h (by omega : T.height < fuel)
      have hh := ins_height st.heap.length x T
      obtain ⟨st', T', hrun, h', hht, hk⟩ := ih st1 _ fuel h1 (by omega)
      refine ⟨st', T', ?_, h', by simp only [List.length_cons]; omega, ?_⟩
      · simp [runOps, Op.run, hst1, hrun, bind, Except.bind]
      · rw [hk, List.foldl_cons]
        congr 1
        ext y
        simp [Op.spec, ins_keys_mem]
    | remove x =>
      obtain ⟨st1, hst1, h1, _⟩ := remove_bst x h (by omega : T.height < fuel)
      have hh := rem_height x T
      obtain ⟨st', T', hrun, h', hht, hk⟩ := ih st1 _ fuel h1 (by omega)
      refine ⟨st', T', ?_, h', by simp only [List.length_cons]; omega, ?_⟩
      · simp [runOps, Op.run, hst1, hrun, bind, Except.bind]
      · rw [hk, List.foldl_cons]
        congr 1
        ext y
        simp [Op.spec, rem_keys x T h.2]
        tauto

theorem sorted_nodup {L : List Int} (h : L.Pairwise (· < ·)) : L.Nodup :=
  h.imp (fun hab => ne_of_lt hab)

theorem find_bst {st : SplayTree} {T : Tree} (x : Int) {fuel : Nat} (h : IsBST st T)
    (hf : T.height < fuel) :
    find fuel x st = .ok (if x ∈ T.keys then x else st.ITEM_NOT_FOUND) := by
  obtain ⟨q, hq, he⟩ := findAt_rep x h.1 h.2 fuel hf
  simp [find, hq, he, bind, Except.bind]

theorem findMin_bst {st : SplayTree} {T : Tree} {fuel : Nat} (h : IsBST st T)
    (hf : T.height < fuel) :
    findMin fuel st = .ok (T.minKey st.ITEM_NOT_FOUND) := by
  obtain ⟨hrep, _⟩ := h
  cases hT : T with
  | nil =>
    subst hT
    have hroot : st.root = none := hrep.ptr_eq
    cases fuel with
    | zero => simp at hf
    | succ f =>
      simp [findMin, hroot, findMinAt, elementAt, bind, Except.bind, pure, Except.pure,
        Tree.minKey]
  | node l a k r =>
    subst hT
    have hroot : st.root = some a := hrep.ptr_eq
    rw [hroot] at hrep
    obtain ⟨q, hq, he, _⟩ := findMinAt_rep hrep fuel hf
    simp only [findMin, hroot, hq, elementAt, bind, Except.bind]
    simp only [reduceCtorEq, if_false, he]
    rfl

theorem findMax_bst {st : SplayTree} {T : Tree} {fuel : Nat} (h : IsBST st T)
    (hf : T.height < fuel) :
    findMax fuel st = .ok (T.maxKey st.ITEM_NOT_FOUND) := by
  obtain ⟨hrep, _⟩ := h
  cases hT : T with
  | nil =>
    subst hT
    have hroot : st.root = none := hrep.ptr_eq
    simp [findMax, hroot, findMaxAt, elementAt, bind, Except.bind, pure, Except.pure,
      Tree.maxKey]
  | node l a k r =>
    subst hT
    have hroot : st.root = some a := hrep.ptr_eq
    rw [hroot] at hrep
    obtain ⟨q, hq, he, _⟩ := findMaxLoop_rep hrep fuel hf
    simp only [findMax, hroot, findMaxAt, hq, elementAt, bind, Except.bind]
    simp only [ne_eq, reduceCtorEq, not_false_eq_true, if_true, if_false, hq, he]
    rfl

theorem removeAt_absent (x : Int) : ∀ (T : Tree) (fuel : Nat) (st : SplayTree) (t : Ref),
    readRef st t = .ok T.ptr → Rep st.heap T.ptr T → T.keys.Pairwise (· < ·) → x ∉ T.keys →
    T.height < fuel → removeAt fuel x t st = .ok st := by
  intro T
  induction T with
  | nil =>
    intro fuel st t hread _ _ _ hf
    cases fuel with
    | zero => simp at hf
    | succ f =>
      simp only [Tree.ptr] at hread
      simp [removeAt, hread, bind, Except.bind, pure, Except.pure]
  | node l a k r ihl ihr =>
    intro fuel st t hread hrep hb hx hf
    cases fuel with
    | zero => simp at hf
    | succ f =>
      simp only [Tree.height] at hf
      simp only [Tree.ptr] at hread hrep
      obtain ⟨n, l0, r0, hT, hc, hl, hr⟩ := hrep.cell
      cases hT
      obtain ⟨hbl, hbr, _, _⟩ := bst_node hb
      simp only [Tree.keys, List.mem_append, List.mem_cons, not_or] at hx
      by_cases h1 : x < n.element
      · have hrl : readRef st (.left a) = .ok l.ptr := by
          simp [readRef, getLeft_cell hc, hl.ptr_eq]
        have := ihl f st (.left a) hrl (hl.ptr_eq ▸ hl) hbl hx.1 (by omega)
        simp only [removeAt, hread, getElement_cell hc, h1, if_true, this, bind, Except.bind]
      · have h2 : n.element < x := by
          have := hx.2.1
          omega
        have hrr : readRef st (.right a) = .ok r.ptr := by
          simp [readRef, getRight_cell hc, hr.ptr_eq]
        have := ihr f st (.right a) hrr (hr.ptr_eq ▸ hr) hbr hx.2.2 (by omega)
        simp only [removeAt, hread, getElement_cell hc, h1, h2, if_true, if_false, this, bind,
          Except.bind]

theorem remove_absent {st : SplayTree} {T : Tree} {x : Int} {fuel : Nat} (h : IsBST st T)
    (hx : x ∉ T.keys) (hf : T.height < fuel) : remove fuel x st = .ok st := by
  obtain ⟨hrep, hb⟩ := h
  have hp := hrep.ptr_eq
  exact removeAt_absent x T fuel st .root (by simp [readRef, hp]) (hp ▸ hrep) hb hx hf

/-! ## Inserting a key that is already stored -/

theorem set_self_of_getElem? {α : Type} {l : List α} {i : Nat} {a : α} (h : l[i]? = some a) :
    l.set i a = l := by
  apply List.ext_getElem?
  intro j
  by_cases hij : i = j
  · subst hij
    have hlt : i < l.length := by
      by_contra hlt
      rw [List.getElem?_eq_none (by omega)] at h
      cases h
    rw [List.getElem?_set_self hlt, h]
  · rw [List.getElem?_set_ne hij]

theorem agree_of_erase {h h1 : Heap}
    (he : h1.map (Option.map fun n => { n with parent := none }) =
      h.map (Option.map fun n => { n with parent := none })) (b : Nat) : Agree h h1 b := by
  intro n hn
  have h2 := congrArg (fun l => l[b]?) he
  simp only [List.getElem?_map, hn, Option.map_some'] at h2
  cases h1b : h1[b]? with
  | none => simp [h1b] at h2
  | some o =>
    cases o with
    | none => simp [h1b] at h2
    | some n1 =>
      simp only [h1b, Option.map_some', Option.some.injEq, SplayNode.mk.injEq, and_true] at h2
      exact ⟨n1, rfl, h2.1, h2.2.1, h2.2.2⟩

theorem readRef_agree {st st1 : SplayTree} {t : Ref} {p : Ptr} (hroot : st1.root = st.root)
    (hag : ∀ b, Agree st.heap st1.heap b) (h : readRef st t = .ok p) :
    readRef st1 t = .ok p := by
  cases t with
  | root => simpa [readRef, hroot] using h
  | left c =>
    obtain ⟨m, hm, hml⟩ := getLeft_ok h
    obtain ⟨m1, hm1, _, hl1, _⟩ := hag c m hm
    simp [readRef, getLeft_cell hm1, hl1, hml]
  | right c =>
    obtain ⟨m, hm, hml⟩ := getRight_ok h
    obtain ⟨m1, hm1, _, _, hr1⟩ := hag c m hm
    simp [readRef, getRight_cell hm1, hr1, hml]

theorem insertAt_present (x : Int) : ∀ (T : Tree) (fuel : Nat) (st : SplayTree) (t : Ref),
    readRef st t = .ok T.ptr → Rep st.heap T.ptr T → T.keys.Pairwise (· < ·) → x ∈ T.keys →
    T.height < fuel →
    ∃ st', insertAt fuel x t st = .ok st' ∧ eraseParents st' = eraseParents st ∧
      (∀ par, ParentsOK st.heap par T → st' = st) := by
  intro T
  induction T with
  | nil => intro fuel st t _ _ _ hx; simp [Tree.keys] at hx
  | node l a k r ihl ihr =>
    intro fuel st t hread hrep hb hx hf
    cases fuel with
    | zero => simp at hf
    | succ f =>
      simp only [Tree.height] at hf
      simp only [Tree.ptr] at hread hrep
      obtain ⟨n, l0, r0, hT, hc, hl, hr⟩ := hrep.cell
      cases hT
      obtain ⟨hbl, hbr, hlt, hgt⟩ := bst_node hb
      simp only [Tree.keys, List.mem_append, List.mem_cons] at hx
      by_cases h1 : x < n.element
      · have hxl : x ∈ l.keys := by
          rcases hx with h | h | h
          · exact h
          · omega
          · have := hgt x h; omega
        have hrl : readRef st (.left a) = .ok l.ptr := by
          simp [readRef, getLeft_cell hc, hl.ptr_eq]
        obtain ⟨st1, hst1, her, hpar⟩ := ihl f st (.left a) hrl (hl.ptr_eq ▸ hl) hbl hxl
          (by omega)
        have hroot : st1.root = st.root := congrArg (fun s => s.root) her
        have hheap := congrArg (fun s => s.heap) her
        simp only [eraseParents] at hheap
        have hag := agree_of_erase hheap
        have hread1 := readRef_agree hroot hag hread
        obtain ⟨na, hca, _, hla, _⟩ := hag a n hc
        cases l with
        | nil => simp [Tree.keys] at hxl
        | node ll a1 lk lr =>
          have hl' := hl
          rw [hl.ptr_eq] at hl'
          obtain ⟨n0, _, _, _, hc0, _, _⟩ := hl'.cell
          obtain ⟨n1, hc1, _, _, _⟩ := hag a1 n0 hc0
          have hla' : na.left = some a1 := by rw [hla, hl.ptr_eq]; rfl
          refine ⟨{ st1 with heap := st1.heap.set a1 (some { n1 with parent := some a }) },
            ?_, ?_, ?_⟩
          · simp only [insertAt, hread, getElement_cell hc, h1, if_true, hst1, hread1,
              getLeft_cell hca, hla', bind, Except.bind, setParent]
            rw [modify_cell _ hc1]
          · rw [← her]
            simp only [eraseParents, List.map_set, Option.map_some']
            congr 1
            apply set_self_of_getElem?
            rw [List.getElem?_map, hc1]
            rfl
          · intro par hpo
            simp only [ParentsOK] at hpo
            obtain ⟨_, hpl, _⟩ := hpo
            have hst1eq := hpar (some a) hpl
            subst hst1eq
            obtain ⟨⟨m, hm, hmp⟩, _⟩ := hpl
            rw [hc1] at hm
            cases hm
            have : st1.heap.set a1 (some { n1 with parent := some a }) = st1.heap := by
              apply set_self_of_getElem?
              rw [hc1, ← hmp]
            rw [this]
      · by_cases h2 : n.element < x
        · have hxr : x ∈ r.keys := by
            rcases hx with h | h | h
            · have := hlt x h; omega
            · omega
            · exact h
          have hrr : readRef st (.right a) = .ok r.ptr := by
            simp [readRef, getRight_cell hc, hr.ptr_eq]
          obtain ⟨st1, hst1, her, hpar⟩ := ihr f st (.right a) hrr (hr.ptr_eq ▸ hr) hbr hxr
            (by omega)
          have hroot : st1.root = st.root := congrArg (fun s => s.root) her
          have hheap := congrArg (fun s => s.heap) her
          simp only [eraseParents] at hheap
          have hag := agree_of_erase hheap
          have hread1 := readRef_agree hroot hag hread
          obtain ⟨na, hca, _, _, hra⟩ := hag a n hc
          cases r with
          | nil => simp [Tree.keys] at hxr
          | node rl a1 rk rr =>
            have hr' := hr
            rw [hr.ptr_eq] at hr'
            obtain ⟨n0, _, _, _, hc0, _, _⟩ := hr'.cell
            obtain ⟨n1, hc1, _, _, _⟩ := hag a1 n0 hc0
            have hra' : na.right = some a1 := by rw [hra, hr.ptr_eq]; rfl
            refine ⟨{ st1 with heap := st1.heap.set a1 (some { n1 with parent := some a }) },
              ?_, ?_, ?_⟩
            · simp only [insertAt, hread, getElement_cell hc, h1, h2, if_true, if_false, hst1,
                hread1, getRight_cell hca, hra', bind, Except.bind, setParent]
              rw [modify_cell _ hc1]
            · rw [← her]
              simp only [eraseParents, List.map_set, Option.map_some']
              congr 1
              apply set_self_of_getElem?
              rw [List.getElem?_map, hc1]
              rfl
            · intro par hpo
              simp only [ParentsOK] at hpo
              obtain ⟨_, _, hpr⟩ := hpo
              have hst1eq := hpar (some a) hpr
              subst hst1eq
              obtain ⟨⟨m, hm, hmp⟩, _⟩ := hpr
              rw [hc1] at hm
              cases hm
              have : st1.heap.set a1 (some { n1 with parent := some a }) = st1.heap := by
                apply set_self_of_getElem?
                rw [hc1, ← hmp]
              rw [this]
        · exact ⟨st, by simp [insertAt, hread, getElement_cell hc, h1, h2, bind, Except.bind,
            pure, Except.pure], rfl, fun _ _ => rfl⟩

/-! ## The effect of `makeEmpty( t )` -/

theorem Post.trans {st st1 st2 : SplayTree} {t : Ref} {T T1 T2 : Tree}
    (h1 : Post st st1 t T T1) (h2 : Post st1 st2 t T1 T2) : Post st st2 t T T2 := by
  obtain ⟨a1, _, a3, a4, a5, a6⟩ := h1
  obtain ⟨b1, b2, b3, b4, b5, b6⟩ := h2
  refine ⟨b1.trans a1, b2, ?_, by omega, ?_, ?_⟩
  · intro b hb
    rcases b3 b hb with h | h
    · exact a3 b h
    · exact Or.inr (by omega)
  · rw [b5, a5]
    by_cases ht : t = .root <;> simp [ht]
  · intro b hb hbn
    have hbn1 : b ∉ T1.addrs := by
      intro h
      rcases a3 b h with h | h
      · exact hbn h
      · omega
    rw [b6 b (by omega) hbn1, a6 b hb hbn]
    by_cases ho : t.owner = some b
    · simp only [ho, if_true, Option.map_map]
      congr 1
      funext o
      cases o with
      | none => rfl
      | some n => cases t <;> simp [Ref.put]
    · simp [ho]

theorem free_write_comm {st : SplayTree} {t : Ref} {a : Nat} {n : SplayNode} {p : Ptr}
    (hc : st.heap[a]? = some (some n)) (hread : readRef st t = .ok p)
    (hown : ∀ c, t.owner = some c → c ≠ a) (v : Ptr) :
    (do let st1 ← free st (some a); writeRef st1 t v) =
      (do let st1 ← writeRef st t v; free st1 (some a)) := by
  cases t with
  | root =>
    simp only [free_cell hc, writeRef, bind, Except.bind]
    rw [free_cell (s := { st with root := v }) hc]
  | left c =>
    obtain ⟨m, hm, _⟩ := getLeft_ok hread
    have hca : c ≠ a := hown c rfl
    have h1 : (st.heap.set a none)[c]? = some (some m) := by
      rw [List.getElem?_set_ne (Ne.symm hca), hm]
    have h2 : (st.heap.set c (some { m with left := v }))[a]? = some (some n) := by
      rw [List.getElem?_set_ne hca, hc]
    simp only [free_cell hc, writeRef, setLeft, bind, Except.bind, modify_cell _ hm]
    rw [modify_cell (s := { st with heap := st.heap.set a none }) _ h1,
      free_cell (s := { st with heap := st.heap.set c (some { m with left := v }) }) h2]
    simp only [Except.ok.injEq, SplayTree.mk.injEq, and_true, true_and]
    exact List.set_comm _ _ _ (Ne.symm hca)
  | right c =>
    obtain ⟨m, hm, _⟩ := getRight_ok hread
    have hca : c ≠ a := hown c rfl
    have h1 : (st.heap.set a none)[c]? = some (some m) := by
      rw [List.getElem?_set_ne (Ne.symm hca), hm]
    have h2 : (st.heap.set c (some { m with right := v }))[a]? = some (some n) := by
      rw [List.getElem?_set_ne hca, hc]
    simp only [free_cell hc, writeRef, setRight, bind, Except.bind, modify_cell _ hm]
    rw [modify_cell (s := { st with heap := st.heap.set a none }) _ h1,
      free_cell (s := { st with heap := st.heap.set c (some { m with right := v }) }) h2]
    simp only [Except.ok.injEq, SplayTree.mk.injEq, and_true, true_and]
    exact List.set_comm _ _ _ (Ne.symm hca)

theorem writeRef_none_post {st : SplayTree} {t : Ref} (hread : readRef st t = .ok none) :
    ∃ st', writeRef st t none = .ok st' ∧ Post st st' t .nil .nil := by
  cases t with
  | root =>
    refine ⟨_, rfl, rfl, Rep.nil, by simp [Tree.addrs], le_refl _, by simp [Tree.ptr], ?_⟩
    intro b _ _
    simp [Ref.owner]
  | left c =>
    obtain ⟨m, hm, hml⟩ := getLeft_ok hread
    refine ⟨{ st with heap := st.heap.set c (some { m with left := none }) },
      by simp only [writeRef, setLeft]; exact modify_cell _ hm, rfl, Rep.nil,
      by simp [Tree.addrs], by simp, by simp, ?_⟩
    intro b _ _
    show (st.heap.set c _)[b]? = _
    by_cases hcb : c = b
    · subst hcb
      rw [List.getElem?_set_self (cell_lt hm)]
      simp [Ref.owner, hm, Ref.put, Tree.ptr]
    · rw [List.getElem?_set_ne hcb]
      simp [Ref.owner, hcb]
  | right c =>
    obtain ⟨m, hm, hml⟩ := getRight_ok hread
    refine ⟨{ st with heap := st.heap.set c (some { m with right := none }) },
      by simp only [writeRef, setRight]; exact modify_cell _ hm, rfl, Rep.nil,
      by simp [Tree.addrs], by simp, by simp, ?_⟩
    intro b _ _
    show (st.heap.set c _)[b]? = _
    by_cases hcb : c = b
    · subst hcb
      rw [List.getElem?_set_self (cell_lt hm)]
      simp [Ref.owner, hm, Ref.put, Tree.ptr]
    · rw [List.getElem?_set_ne hcb]
      simp [Ref.owner, hcb]

theorem makeEmptyAt_post : ∀ (T : Tree) (fuel : Nat) (st : SplayTree) (t : Ref),
    readRef st t = .ok T.ptr → Rep st.heap T.ptr T → T.addrs.Nodup →
    (∀ c, t.owner = some c → c ∉ T.addrs) → T.height < fuel →
    ∃ st', makeEmptyAt fuel t st = .ok st' ∧ Post st st' t T .nil := by
  intro T
  induction T with
  | nil =>
    intro fuel st t hread _ _ _ hf
    cases fuel with
    | zero => simp at hf
    | succ f =>
      simp only [Tree.ptr] at hread
      obtain ⟨st', hst', hp⟩ := writeRef_none_post hread
      exact ⟨st', by simp [makeEmptyAt, hread, bind, Except.bind, pure, Except.pure, hst'], hp⟩
  | node l a k r ihl ihr =>
    intro fuel st t hread hrep hnd hown hf
    cases fuel with
    | zero => simp at hf
    | succ f =>
      simp only [Tree.height] at hf
      simp only [Tree.ptr] at hread hrep
      obtain ⟨n, l0, r0, hT, hc, hl, hr⟩ := hrep.cell
      cases hT
      obtain ⟨hndl, hndr, hal, har, hdis⟩ := nodup_node hnd
      have hrl : readRef st (.left a) = .ok l.ptr := by
        simp [readRef, getLeft_cell hc, hl.ptr_eq]
      obtain ⟨st1, hst1, hp1⟩ := ihl f st (.left a) hrl (hl.ptr_eq ▸ hl) hndl
        (by intro c hc'; simp only [Ref.owner, Option.some.injEq] at hc'; exact hc' ▸ hal)
        (by omega)
      obtain ⟨P1, hread1, hca1⟩ := Post.left hread hc rfl hr hnd hown hp1
      have hrep1 := P1.2.1
      simp only [Tree.ptr] at hrep1
      obtain ⟨n1, l1, r1, hT1, hc1, hl1, hr1⟩ := hrep1.cell
      rw [hca1] at hc1
      cases hc1
      have hrr : readRef st1 (.right a) = .ok r.ptr := by
        simp only [readRef]
        rw [getRight_cell hca1]
        simp [hr.ptr_eq]
      have hr1' : Rep st1.heap r.ptr r := by
        cases hT1
        rw [← hr.ptr_eq]
        exact hr1
      have hnd1 : (Tree.node .nil a n.element r).addrs.Nodup := by
        simp only [Tree.addrs, List.nil_append, List.nodup_cons]
        exact ⟨har, hndr⟩
      have hown1 : ∀ c, t.owner = some c → c ∉ (Tree.node .nil a n.element r).addrs := by
        intro c hc' hmem
        apply hown c hc'
        simp only [Tree.addrs, List.nil_append, List.mem_cons] at hmem
        simp only [Tree.addrs, List.mem_append, List.mem_cons]
        tauto
      obtain ⟨st2, hst2, hp2⟩ := ihr f st1 (.right a) hrr hr1' hndr
        (by intro c hc'; simp only [Ref.owner, Option.some.injEq] at hc'; exact hc' ▸ har)
        (by omega)
      obtain ⟨P2, hread2, hca2⟩ := Post.right (l := .nil) hread1 hca1 rfl Rep.nil hnd1 hown1 hp2
      have hnd2 : (Tree.node .nil a n.element .nil).addrs.Nodup := by simp [Tree.addrs]
      have hown2 : ∀ c, t.owner = some c → c ∉ (Tree.node .nil a n.element .nil).addrs := by
        intro c hc' hmem
        apply hown c hc'
        simp only [Tree.addrs, List.nil_append, List.mem_cons, List.mem_singleton,
          List.not_mem_nil, or_false] at hmem
        simp only [Tree.addrs, List.mem_append, List.mem_cons]
        tauto
      obtain ⟨st4, hst4, P3⟩ := removeAt_leaf (l := .nil) (r := .nil) (U := .nil) (c := none)
        hread2 hca2 hown2 Rep.nil (by simp [Tree.addrs]) hnd2
      refine ⟨st4, ?_, (P1.trans P2).trans P3⟩
      have hcomm := free_write_comm hca2 hread2
        (by intro c hc' hca; exact hown c hc' (by simp [Tree.addrs, hca])) none
      simp only [makeEmptyAt, hread, hst1, hst2, hread2, bind, Except.bind]
      simp only [bind, Except.bind] at hcomm hst4
      rw [hcomm]
      exact hst4

theorem makeEmpty_bst {st : SplayTree} {T : Tree} {fuel : Nat} (h : IsBST st T)
    (hf : T.height < fuel) :
    ∃ st', makeEmpty fuel st = .ok st' ∧ st'.root = none ∧
      st'.ITEM_NOT_FOUND = st.ITEM_NOT_FOUND := by
  obtain ⟨hrep, hb⟩ := h
  have hp := hrep.ptr_eq
  obtain ⟨st', hst', hinf, _, _, _, hroot, _⟩ :=
    makeEmptyAt_post T fuel st .root (by simp [readRef, hp]) (hp ▸ hrep) (hrep.nodup hb)
      (by simp [Ref.owner]) hf
  exact ⟨st', hst', by simpa [Tree.ptr] using hroot, hinf⟩

/-! ## Parent links after `insert` -/

theorem ParentsOK.of_same_cells {h h' : Heap} {par : Ptr} {T : Tree} (hp : ParentsOK h par T)
    (he : ∀ b ∈ T.addrs, h'[b]? = h[b]?) : ParentsOK h' par T := by
  induction T generalizing par with
  | nil => trivial
  | node l a k r ihl ihr =>
    obtain ⟨⟨n, hn, hnp⟩, hl, hr⟩ := hp
    refine ⟨⟨n, ?_, hnp⟩, ihl hl ?_, ihr hr ?_⟩
    · rw [he a (by simp [Tree.addrs]), hn]
    · intro b hb; exact he b (by simp [Tree.addrs, hb])
    · intro b hb; exact he b (by simp [Tree.addrs, hb])

theorem insertAt_parents (x : Int) : ∀ (T : Tree) (fuel : Nat) (st st' : SplayTree) (t : Ref),
    readRef st t = .ok T.ptr → Rep st.heap T.ptr T → T.keys.Pairwise (· < ·) →
    (∀ c, t.owner = some c → c ∉ T.addrs) → T.height < fuel →
    insertAt fuel x t st = .ok st' → ∀ par, ParentsOK st.heap par T →
    ParentsOK st'.heap (if T = .nil then none else par) (T.ins st.heap.length x) := by
  intro T
  induction T with
  | nil =>
    intro fuel st st' t hread _ _ _ hf heq par _
    cases fuel with
    | zero => simp at hf
    | succ f =>
      obtain ⟨st'', h1, _, h3⟩ := insertAt_nil x f st t hread
      rw [h1] at heq
      cases heq
      exact ⟨⟨_, h3, rfl⟩, trivial, trivial⟩
  | node l a k r ihl ihr =>
    intro fuel st st' t hread hrep hb hown hf heq par hpar
    cases fuel with
    | zero => simp at hf
    | succ f =>
      simp only [Tree.height] at hf
      simp only [Tree.ptr] at hread hrep
      have hnd := hrep.nodup hb
      obtain ⟨n, l0, r0, hT, hc, hl, hr⟩ := hrep.cell
      cases hT
      obtain ⟨hndl, hndr, hal, har, hdis⟩ := nodup_node hnd
      obtain ⟨hbl, hbr, _, _⟩ := bst_node hb
      obtain ⟨⟨n', hn', hnp⟩, hpl, hpr⟩ := hpar
      rw [hc] at hn'
      cases hn'
      simp only [reduceCtorEq, if_false]
      by_cases h1 : x < n.element
      · have hrl : readRef st (.left a) = .ok l.ptr := by
          simp [readRef, getLeft_cell hc, hl.ptr_eq]
        have hownl : ∀ c, (Ref.left a).owner = some c → c ∉ l.addrs := by
          intro c hc'; simp only [Ref.owner, Option.some.injEq] at hc'; exact hc' ▸ hal
        obtain ⟨st1, hst1, hp1⟩ := insertAt_post x l f st (.left a) hrl (hl.ptr_eq ▸ hl) hndl
          hownl (by omega)
        have ih := ihl f st st1 (.left a) hrl (hl.ptr_eq ▸ hl) hbl hownl (by omega) hst1
          (some a) hpl
        obtain ⟨hp, hread1, hca⟩ := Post.left hread hc rfl hr hnd hown hp1
        obtain ⟨a1, ha1, ha1m⟩ := ins_ptr st.heap.length x l
        obtain ⟨_, hrep1, hsub1, _, _, hframe1⟩ := hp1
        have hnd1 := hrep1.nodup (ins_sorted _ x l hbl)
        rw [ha1] at hrep1
        obtain ⟨n1, l1, r1, hT1, hc1, _, _⟩ := hrep1.cell
        simp only [insertAt, hread, getElement_cell hc, h1, if_true, hst1, hread1,
          getLeft_cell hca, ha1, bind, Except.bind, setParent, modify_cell _ hc1] at heq
        cases heq
        have : (Tree.node l a n.element r).ins st.heap.length x =
            .node (l.ins st.heap.length x) a n.element r := by simp [Tree.ins, h1]
        rw [this]
        have ha1a : a1 ≠ a := by
          rintro rfl
          rcases hsub1 a1 ha1m with h | h
          · exact hal h
          · have := cell_lt hc; omega
        refine ⟨⟨{ n with left := (l.ins st.heap.length x).ptr }, ?_, hnp⟩, ?_, ?_⟩
        · show (st1.heap.set a1 _)[a]? = _
          rw [List.getElem?_set_ne ha1a, hca]
        · rw [hT1] at ih hnd1 ⊢
          obtain ⟨_, ihl1, ihr1⟩ := ih
          obtain ⟨_, _, h1l, h1r, _⟩ := nodup_node hnd1
          refine ⟨⟨_, List.getElem?_set_self (cell_lt hc1), rfl⟩, ?_, ?_⟩
          · apply ihl1.of_same_cells
            intro b hb'
            exact List.getElem?_set_ne (fun h => h1l (by rw [h]; exact hb'))
          · apply ihr1.of_same_cells
            intro b hb'
            exact List.getElem?_set_ne (fun h => h1r (by rw [h]; exact hb'))
        · apply hpr.of_same_cells
          intro b hb'
          have hblt := hr.lt_length b hb'
          have hbl' : b ∉ l.addrs := fun h => hdis b h hb'
          have hba : b ≠ a := fun h => har (h ▸ hb')
          have hba1 : a1 ≠ b := by
            rintro rfl
            rcases hsub1 a1 ha1m with h | h
            · exact hbl' h
            · omega
          show (st1.heap.set a1 _)[b]? = _
          rw [List.getElem?_set_ne hba1, hframe1 b hblt hbl']
          have : ¬ (Ref.left a).owner = some b := by
            simp only [Ref.owner, Option.some.injEq]; exact fun h => hba h.symm
          simp [this]
      · by_cases h2 : n.element < x
        · have hrr : readRef st (.right a) = .ok r.ptr := by
            simp [readRef, getRight_cell hc, hr.ptr_eq]
          have hownr : ∀ c, (Ref.right a).owner = some c → c ∉ r.addrs := by
            intro c hc'; simp only [Ref.owner, Option.some.injEq] at hc'; exact hc' ▸ har
          obtain ⟨st1, hst1, hp1⟩ := insertAt_post x r f st (.right a) hrr (hr.ptr_eq ▸ hr)
            hndr hownr (by omega)
          have ih := ihr f st st1 (.right a) hrr (hr.ptr_eq ▸ hr) hbr hownr (by omega) hst1
            (some a) hpr
          obtain ⟨hp, hread1, hca⟩ := Post.right hread hc rfl hl hnd hown hp1
          obtain ⟨a1, ha1, ha1m⟩ := ins_ptr st.heap.length x r
          obtain ⟨_, hrep1, hsub1, _, _, hframe1⟩ := hp1
          have hnd1 := hrep1.nodup (ins_sorted _ x r hbr)
          rw [ha1] at hrep1
          obtain ⟨n1, l1, r1, hT1, hc1, _, _⟩ := hrep1.cell
          simp only [insertAt, hread, getElement_cell hc, h1, h2, if_true, if_false, hst1,
            hread1, getRight_cell hca, ha1, bind, Except.bind, setParent,
            modify_cell _ hc1] at heq
          cases heq
          have : (Tree.node l a n.element r).ins st.heap.length x =
              .node l a n.element (r.ins st.heap.length x) := by simp [Tree.ins, h1, h2]
          rw [this]
          have ha1a : a1 ≠ a := by
            rintro rfl
            rcases hsub1 a1 ha1m with h | h
            · exact har h
            · have := cell_lt hc; omega
          refine ⟨⟨{ n with right := (r.ins st.heap.length x).ptr }, ?_, hnp⟩, ?_, ?_⟩
          · show (st1.heap.set a1 _)[a]? = _
            rw [List.getElem?_set_ne ha1a, hca]
          · apply hpl.of_same_cells
            intro b hb'
            have hblt := hl.lt_length b hb'
            have hbr' : b ∉ r.addrs := fun h => hdis b hb' h
            have hba : b ≠ a := fun h => hal (h ▸ hb')
            have hba1 : a1 ≠ b := by
              rintro rfl
              rcases hsub1 a1 ha1m with h | h
              · exact hbr' h
              · omega
            show (st1.heap.set a1 _)[b]? = _
            rw [List.getElem?_set_ne hba1, hframe1 b hblt hbr']
            have : ¬ (Ref.right a).owner = some b := by
              simp only [Ref.owner, Option.some.injEq]; exact fun h => hba h.symm
            simp [this]
          · rw [hT1] at ih hnd1 ⊢
            obtain ⟨_, ihl1, ihr1⟩ := ih
            obtain ⟨_, _, h1l, h1r, _⟩ := nodup_node hnd1
            refine ⟨⟨_, List.getElem?_set_self (cell_lt hc1), rfl⟩, ?_, ?_⟩
            · apply ihl1.of_same_cells
              intro b hb'
              exact List.getElem?_set_ne (fun h => h1l (by rw [h]; exact hb'))
            · apply ihr1.of_same_cells
              intro b hb'
              exact List.getElem?_set_ne (fun h => h1r (by rw [h]; exact hb'))
        · simp only [insertAt, hread, getElement_cell hc, h1, h2, if_false, bind, Except.bind,
            pure, Except.pure] at heq
          cases heq
          have : (Tree.node l a n.element r).ins st.heap.length x =
              .node l a n.element r := by simp [Tree.ins, h1, h2]
          rw [this]
          exact ⟨⟨n, hc, hnp⟩, hpl, hpr⟩

/-! ## The search path and `insertNode` -/

theorem findAt_addrOf {st : SplayTree} {p : Ptr} {T : Tree} (k : Int) (hr : Rep st.heap p T) :
    ∀ fuel q, findAt fuel st k p = .ok q → q = T.addrOf k := by
  induction hr with
  | nil =>
    intro fuel q h
    cases fuel with
    | zero => simp [findAt] at h
    | succ f =>
      simp only [findAt, if_true, pure, Except.pure, Except.ok.injEq] at h
      simp [Tree.addrOf, ← h]
  | @node a n l r key hc hk _ _ ihl ihr =>
    intro fuel q h
    cases fuel with
    | zero => simp [findAt] at h
    | succ f =>
      simp only [findAt, reduceCtorEq, if_false, getElement_cell hc, getLeft_cell hc,
        getRight_cell hc, hk, bind, Except.bind, pure, Except.pure] at h
      simp only [Tree.addrOf]
      split_ifs at h ⊢ with h1 h2
      · exact ihl f q h
      · exact ihr f q h
      · cases h; rfl

theorem attachR_keys (B S : Tree) : (B.attachR S).keys = B.keys ++ S.keys := by
  induction B with
  | nil => simp [Tree.attachR, Tree.keys]
  | node l a k r _ ihr => simp [Tree.attachR, Tree.keys, ihr]

theorem attachL_keys (B S : Tree) : (B.attachL S).keys = S.keys ++ B.keys := by
  induction B with
  | nil => simp [Tree.attachL, Tree.keys]
  | node l a k r ihl _ => simp [Tree.attachL, Tree.keys, ihl]

theorem attachR_addrs (B S : Tree) : (B.attachR S).addrs = B.addrs ++ S.addrs := by
  induction B with
  | nil => simp [Tree.attachR, Tree.addrs]
  | node l a k r _ ihr => simp [Tree.attachR, Tree.addrs, ihr]

theorem attachL_addrs (B S : Tree) : (B.attachL S).addrs = S.addrs ++ B.addrs := by
  induction B with
  | nil => simp [Tree.attachL, Tree.addrs]
  | node l a k r ihl _ => simp [Tree.attachL, Tree.addrs, ihl]

theorem insertNode_attachR : ∀ (B : Tree) (fuel : Nat) (st st' : SplayTree) (b y : Nat)
    (ny : SplayNode), Rep st.heap (some b) B → B.addrs.Nodup →
    (∀ κ ∈ B.keys, κ < ny.element) → st.heap[y]? = some (some ny) → y ∉ B.addrs →
    insertNode fuel st (some y) (some b) = .ok st' →
    st'.root = st.root ∧ st'.ITEM_NOT_FOUND = st.ITEM_NOT_FOUND ∧
      st'.heap.length = st.heap.length ∧
      (∀ a, a ∉ B.addrs → a ≠ y → st'.heap[a]? = st.heap[a]?) ∧
      (∃ m, st'.heap[y]? = some (some { ny with parent := m })) ∧
      (∀ S, Rep st.heap (some y) S → (∀ a ∈ S.addrs, a ∉ B.addrs) →
        Rep st'.heap (some b) (B.attachR S)) := by
  intro B
  induction B with
  | nil => intro fuel st st' b y ny hrep; cases hrep
  | node Bl b0 bk Br _ ihr =>
    intro fuel st st' b y ny hrep hnd hlt hy hyB hins
    obtain ⟨nb, l0, r0, hT, hb, hl, hr⟩ := hrep.cell
    cases hT
    obtain ⟨_, hndr, hbl, hbr, hdis⟩ := nodup_node hnd
    have hyb : y ≠ b0 := fun h => hyB (by simp [Tree.addrs, h])
    have hlt0 : nb.element < ny.element := hlt _ (by simp [Tree.keys])
    have hnlt : ¬ ny.element < nb.element := by omega
    cases fuel with
    | zero => simp [insertNode] at hins
    | succ f =>
      simp only [insertNode, reduceCtorEq, if_false, getElement_cell hy, getElement_cell hb,
        hnlt, hlt0, if_true, getRight_cell hb, bind, Except.bind] at hins
      cases hnr : nb.right with
      | some b1 =>
        rw [hnr] at hr
        simp only [hnr, ne_eq, reduceCtorEq, not_false_eq_true, if_true] at hins
        obtain ⟨h1, h2, h3, h4, h5, h6⟩ := ihr f st st' b1 y ny hr hndr
          (fun κ hκ => hlt κ (by simp [Tree.keys, hκ])) hy
          (fun h => hyB (by simp [Tree.addrs, h])) hins
        refine ⟨h1, h2, h3, ?_, h5, ?_⟩
        · intro a ha hay
          exact h4 a (fun h => ha (by simp [Tree.addrs, h])) hay
        · intro S hS hSB
          have hb' : st'.heap[b0]? = some (some nb) := by
            rw [h4 b0 hbr (Ne.symm hyb), hb]
          refine Rep.node hb' rfl ?_ ?_
          · apply hl.congr
            intro a ha
            apply Agree.of_eq
            exact h4 a (hdis a ha) (fun h => hyB (by simp [Tree.addrs, ← h, ha]))
          · rw [hnr]
            exact h6 S hS (fun a ha h => hSB a ha (by simp [Tree.addrs, h]))
      | none =>
        rw [hnr] at hr
        have hBr : Br = .nil := Rep.nil_iff.mp hr
        subst hBr
        have hy1 : (st.heap.set b0 (some { nb with right := some y }))[y]? = some (some ny) := by
          rw [List.getElem?_set_ne (Ne.symm hyb), hy]
        have hb1 : (st.heap.set b0 (some { nb with right := some y }))[b0]? =
            some (some { nb with right := some y }) := List.getElem?_set_self (cell_lt hb)
        simp only [hnr, ne_eq, not_true_eq_false, if_false, setRight, modify_cell _ hb,
          setParent] at hins
        rw [getRight_cell (s := { st with heap := (st.heap.set b0
          (some { nb with right := some y })) }) hb1] at hins
        simp only at hins
        rw [modify_cell (s := { st with heap := (st.heap.set b0
          (some { nb with right := some y })) }) _ hy1] at hins
        cases hins
        refine ⟨rfl, rfl, by simp, ?_, ⟨some b0, ?_⟩, ?_⟩
        · intro a ha hay
          have hab : a ≠ b0 := fun h => ha (by simp [Tree.addrs, h])
          show ((st.heap.set b0 _).set y _)[a]? = _
          rw [List.getElem?_set_ne (Ne.symm hay), List.getElem?_set_ne (Ne.symm hab)]
        · show ((st.heap.set b0 _).set y _)[y]? = _
          rw [List.getElem?_set_self (by simpa using cell_lt hy)]
        · intro S hS hSB
          have hbS : b0 ∉ S.addrs := fun h => hSB b0 h (by simp [Tree.addrs])
          refine Rep.node (n := { nb with right := some y }) ?_ rfl ?_ ?_
          · show ((st.heap.set b0 _).set y _)[b0]? = _
            rw [List.getElem?_set_ne hyb, hb1]
          · apply hl.congr
            intro a ha
            apply Agree.of_eq
            show ((st.heap.set b0 _).set y _)[a]? = _
            rw [List.getElem?_set_ne (fun h => hyB (by simp [Tree.addrs, h, ha])),
              List.getElem?_set_ne (fun h => hbl (by rw [h]; exact ha))]
          · show Rep _ (some y) (Tree.attachR .nil S)
            simp only [Tree.attachR]
            have h1 : Rep (st.heap.set b0 (some { nb with right := some y })) (some y) S := by
              apply hS.congr
              intro a ha
              apply Agree.of_eq
              rw [List.getElem?_set_ne (fun h => hbS (by rw [h]; exact ha))]
            apply h1.congr
            intro a _
            exact agree_set_parent (some b0) hy1 a

theorem insertNode_attachL : ∀ (B : Tree) (fuel : Nat) (st st' : SplayTree) (b y : Nat)
    (ny : SplayNode), Rep st.heap (some b) B → B.addrs.Nodup →
    (∀ κ ∈ B.keys, ny.element < κ) → st.heap[y]? = some (some ny) → y ∉ B.addrs →
    insertNode fuel st (some y) (some b) = .ok st' →
    st'.root = st.root ∧ st'.ITEM_NOT_FOUND = st.ITEM_NOT_FOUND ∧
      st'.heap.length = st.heap.length ∧
      (∀ a, a ∉ B.addrs → a ≠ y → st'.heap[a]? = st.heap[a]?) ∧
      (∃ m, st'.heap[y]? = some (some { ny with parent := m })) ∧
      (∀ S, Rep st.heap (some y) S → (∀ a ∈ S.addrs, a ∉ B.addrs) →
        Rep st'.heap (some b) (B.attachL S)) := by
  intro B
  induction B with
  | nil => intro fuel st st' b y ny hrep; cases hrep
  | node Bl b0 bk Br ihl _ =>
    intro fuel st st' b y ny hrep hnd hlt hy hyB hins
    obtain ⟨nb, l0, r0, hT, hb, hl, hr⟩ := hrep.cell
    cases hT
    obtain ⟨hndl, _, hbl, hbr, hdis⟩ := nodup_node hnd
    have hyb : y ≠ b0 := fun h => hyB (by simp [Tree.addrs, h])
    have hlt0 : ny.element < nb.element := hlt _ (by simp [Tree.keys])
    cases fuel with
    | zero => simp [insertNode] at hins
    | succ f =>
      simp only [insertNode, reduceCtorEq, if_false, getElement_cell hy, getElement_cell hb,
        hlt0, if_true, getLeft_cell hb, bind, Except.bind] at hins
      cases hnl : nb.left with
      | some b1 =>
        rw [hnl] at hl
        simp only [hnl, ne_eq, reduceCtorEq, not_false_eq_true, if_true] at hins
        obtain ⟨h1, h2, h3, h4, h5, h6⟩ := ihl f st st' b1 y ny hl hndl
          (fun κ hκ => hlt κ (by simp [Tree.keys, hκ])) hy
          (fun h => hyB (by simp [Tree.addrs, h])) hins
        refine ⟨h1, h2, h3, ?_, h5, ?_⟩
        · intro a ha hay
          exact h4 a (fun h => ha (by simp [Tree.addrs, h])) hay
        · intro S hS hSB
          have hb' : st'.heap[b0]? = some (some nb) := by
            rw [h4 b0 hbl (Ne.symm hyb), hb]
          refine Rep.node hb' rfl ?_ ?_
          · rw [hnl]
            exact h6 S hS (fun a ha h => hSB a ha (by simp [Tree.addrs, h]))
          · apply hr.congr
            intro a ha
            apply Agree.of_eq
            exact h4 a (fun h => hdis a h ha) (fun h => hyB (by simp [Tree.addrs, ← h, ha]))
      | none =>
        rw [hnl] at hl
        have hBl : Bl = .nil := Rep.nil_iff.mp hl
        subst hBl
        have hy1 : (st.heap.set b0 (some { nb with left := some y }))[y]? = some (some ny) := by
          rw [List.getElem?_set_ne (Ne.symm hyb), hy]
        have hb1 : (st.heap.set b0 (some { nb with left := some y }))[b0]? =
            some (some { nb with left := some y }) := List.getElem?_set_self (cell_lt hb)
        simp only [hnl, ne_eq, not_true_eq_false, if_false, setLeft, modify_cell _ hb,
          setParent] at hins
        rw [getLeft_cell (s := { st with heap := (st.heap.set b0
          (some { nb with left := some y })) }) hb1] at hins
        simp only at hins
        rw [modify_cell (s := { st with heap := (st.heap.set b0
          (some { nb with left := some y })) }) _ hy1] at hins
        cases hins
        refine ⟨rfl, rfl, by simp, ?_, ⟨some b0, ?_⟩, ?_⟩
        · intro a ha hay
          have hab : a ≠ b0 := fun h => ha (by simp [Tree.addrs, h])
          show ((st.heap.set b0 _).set y _)[a]? = _
          rw [List.getElem?_set_ne (Ne.symm hay), List.getElem?_set_ne (Ne.symm hab)]
        · show ((st.heap.set b0 _).set y _)[y]? = _
          rw [List.getElem?_set_self (by simpa using cell_lt hy)]
        · intro S hS hSB
          have hbS : b0 ∉ S.addrs := fun h => hSB b0 h (by simp [Tree.addrs])
          refine Rep.node (n := { nb with left := some y }) ?_ rfl ?_ ?_
          · show ((st.heap.set b0 _).set y _)[b0]? = _
            rw [List.getElem?_set_ne hyb, hb1]
          · show Rep _ (some y) (Tree.attachL .nil S)
            simp only [Tree.attachL]
            have h1 : Rep (st.heap.set b0 (some { nb with left := some y })) (some y) S := by
              apply hS.congr
              intro a ha
              apply Agree.of_eq
              rw [List.getElem?_set_ne (fun h => hbS (by rw [h]; exact ha))]
            apply h1.congr
            intro a _
            exact agree_set_parent (some b0) hy1 a
          · apply hr.congr
            intro a ha
            apply Agree.of_eq
            show ((st.heap.set b0 _).set y _)[a]? = _
            rw [List.getElem?_set_ne (fun h => hyB (by simp [Tree.addrs, h, ha])),
              List.getElem?_set_ne (fun h => hbr (by rw [h]; exact ha))]

/-! ## A single rotation of a left child -/

theorem Rep.mem_addrs {h : Heap} {a : Nat} {T : Tree} (hr : Rep h (some a) T) :
    a ∈ T.addrs := by
  obtain ⟨n, l, r, hT, _⟩ := hr.cell
  subst hT
  simp [Tree.addrs]

theorem rotL_assemble {st st' : SplayTree} {s : Ref} {x y : Nat} {A B C R : Tree}
    {nx ny nx' : SplayNode} (hA : Rep st.heap nx.left A)
    (hnd : (Tree.node (.node A x nx.element B) y ny.element C).addrs.Nodup)
    (hown : ∀ c, s.owner = some c → c ∉ (Tree.node (.node A x nx.element B) y ny.element C).addrs)
    (hinf : st'.ITEM_NOT_FOUND = st.ITEM_NOT_FOUND) (hlen : st'.heap.length = st.heap.length)
    (hroot : st'.root = if s = .root then some x else st.root)
    (hother : ∀ b, b ≠ x → b ≠ y → b ∉ B.addrs →
      st'.heap[b]? = if s.owner = some b then (st.heap[b]?).map (Option.map (s.put (some x)))
        else st.heap[b]?)
    (hx' : st'.heap[x]? = some (some nx')) (hxe : nx'.element = nx.element)
    (hxl : nx'.left = nx.left) (hR : Rep st'.heap nx'.right R)
    (hRk : R.keys = B.keys ++ ny.element :: C.keys)
    (hRa : R.addrs.Perm (B.addrs ++ y :: C.addrs)) :
    Post st st' s (.node (.node A x nx.element B) y ny.element C) (.node A x nx.element R) ∧
      (Tree.node A x nx.element R).keys =
        (Tree.node (.node A x nx.element B) y ny.element C).keys ∧
      (Tree.node A x nx.element R).addrs.Perm
        (Tree.node (.node A x nx.element B) y ny.element C).addrs ∧
      (∀ b ∈ A.addrs, st'.heap[b]? = st.heap[b]?) := by
  obtain ⟨hndX, hndC, hyX, hyC, hXC⟩ := nodup_node hnd
  obtain ⟨hndA, hndB, hxA, hxB, hAB⟩ := nodup_node hndX
  have hxy : x ≠ y := fun h => hyX (by simp [Tree.addrs, ← h])
  have hAfr : ∀ b ∈ A.addrs, st'.heap[b]? = st.heap[b]? := by
    intro b hb
    have hbY : b ∈ (Tree.node (.node A x nx.element B) y ny.element C).addrs := by
      simp [Tree.addrs, hb]
    rw [hother b (fun h => hxA (h ▸ hb)) (fun h => hyX (by simp [Tree.addrs, ← h, hb]))
      (hAB b hb)]
    have : ¬ s.owner = some b := fun h => hown b h hbY
    simp [this]
  have hperm : (Tree.node A x nx.element R).addrs.Perm
      (Tree.node (.node A x nx.element B) y ny.element C).addrs := by
    simp only [Tree.addrs, List.append_assoc, List.cons_append]
    exact (List.Perm.refl _).append (List.Perm.cons _ hRa)
  refine ⟨⟨hinf, ?_, ?_, by omega, ?_, ?_⟩, ?_, hperm, hAfr⟩
  · refine Rep.node hx' hxe ?_ hR
    rw [hxl]
    exact hA.congr (fun b hb => Agree.of_eq (hAfr b hb))
  · intro b hb
    exact Or.inl (hperm.mem_iff.mp hb)
  · simpa [Tree.ptr] using hroot
  · intro b _ hbn
    simp only [Tree.addrs, List.mem_append, List.mem_cons, not_or] at hbn
    simpa [Tree.ptr] using hother b hbn.1.2.1 hbn.2.1 hbn.1.2.2
  · simp [Tree.keys, hRk]

theorem rotate_left_child {fuel : Nat} {st st' : SplayTree} {s : Ref} {x y : Nat}
    {A B C : Tree} {nx ny : SplayNode} (hread : readRef st s = .ok (some y))
    (hy : st.heap[y]? = some (some ny)) (hyl : ny.left = some x) (hC : Rep st.heap ny.right C)
    (hx : st.heap[x]? = some (some nx)) (hA : Rep st.heap nx.left A)
    (hB : Rep st.heap nx.right B)
    (hbst : (Tree.node (.node A x nx.element B) y ny.element C).keys.Pairwise (· < ·))
    (hown : ∀ c, s.owner = some c →
      c ∉ (Tree.node (.node A x nx.element B) y ny.element C).addrs)
    (hxp : nx.parent = some y) (hyp : ∀ z, s.owner = some z → ny.parent = some z)
    (hslot : SlotOK st s (.node (.node A x nx.element B) y ny.element C))
    (hrot : rotate fuel st (some x) = .ok st') :
    ∃ R', Post st st' s (.node (.node A x nx.element B) y ny.element C)
        (.node A x nx.element R') ∧
      (Tree.node A x nx.element R').keys =
        (Tree.node (.node A x nx.element B) y ny.element C).keys ∧
      (Tree.node A x nx.element R').addrs.Perm
        (Tree.node (.node A x nx.element B) y ny.element C).addrs ∧
      (∀ b ∈ A.addrs, st'.heap[b]? = st.heap[b]?) ∧
      ∃ nx', st'.heap[x]? = some (some nx') ∧
        nx'.parent = if s = .root then some y else s.owner := by
  have hrepX : Rep st.heap (some x) (.node A x nx.element B) := Rep.node hx rfl hA hB
  have hrepY : Rep st.heap (some y) (.node (.node A x nx.element B) y ny.element C) :=
    Rep.node hy rfl (hyl ▸ hrepX) hC
  have hnd := hrepY.nodup hbst
  obtain ⟨hndX, hndC, hyX, hyC, hXC⟩ := nodup_node hnd
  obtain ⟨hndA, hndB, hxA, hxB, hAB⟩ := nodup_node hndX
  have hxy : x ≠ y := fun h => hyX (by simp [Tree.addrs, ← h])
  have hyr : ny.right ≠ some x := by
    intro h
    rw [h] at hC
    exact hXC x (by simp [Tree.addrs]) hC.mem_addrs
  have hxl := cell_lt hx
  have hyl' := cell_lt hy
  have hCfr : ∀ (H : Heap), (∀ b ∈ C.addrs, b ≠ x → b ≠ y → b ∉ B.addrs → Agree st.heap H b) →
      Rep H ny.right C := by
    intro H hH
    apply hC.congr
    intro b hb
    exact hH b hb (fun h => hXC x (by simp [Tree.addrs]) (h ▸ hb)) (fun h => hyC (h ▸ hb))
      (fun h => hXC b (by simp [Tree.addrs, h]) hb)
  have hCY : ∀ b ∈ C.addrs, b ∈ (Tree.node (.node A x nx.element B) y ny.element C).addrs := by
    intro b hb; simp [Tree.addrs, hb]
  have hBY : ∀ b ∈ B.addrs, b ∈ (Tree.node (.node A x nx.element B) y ny.element C).addrs := by
    intro b hb; simp [Tree.addrs, hb]
  have hBlt : ∀ κ ∈ B.keys, κ < ny.element := by
    intro κ hκ
    exact (bst_node hbst).2.2.1 κ (by simp [Tree.keys, hκ])
  cases s with
  | root =>
    have hroot : st.root = some y := readRef_root_eq hread
    cases hxr : nx.right with
    | none =>
      exfalso
      cases fuel <;>
      simp [rotate, LRChild, isZigZag, getParent, getLeft, getRight, deref, modify, setLeft,
        setRight, setParent, Except.map, bind, Except.bind, pure, Except.pure, hx, hy,
        hxy, hxy.symm, hyl, hyr, hxr, hxp, hroot, insertNode, getElement,
        List.getElem?_set_self, List.getElem?_set_ne, hxl, hyl',
        -List.getElem?_eq_getElem] at hrot
    | some b =>
      rw [hxr] at hB
      have hbB := hB.mem_addrs
      obtain ⟨nb, Bl, Br, hBT, hb, hBl, hBr⟩ := hB.cell
      have hxb : x ≠ b := fun h => hxB (h ▸ hbB)
      have hyb : y ≠ b := fun h => hyX (by simp [Tree.addrs, h, hbB])
      have hbl' := cell_lt hb
      simp [rotate, LRChild, isZigZag, getParent, getLeft, getRight, deref, modify, setLeft,
        setRight, setParent, Except.map, bind, Except.bind, pure, Except.pure, hx, hy, hb,
        hxy, hxy.symm, hxb, hxb.symm, hyb, hyb.symm, hyl, hyr, hxr, hxp, hroot,
        List.getElem?_set_self, List.getElem?_set_ne, hxl, hyl', hbl',
        -List.getElem?_eq_getElem] at hrot
      have hk : ∀ c, c ≠ x → c ≠ y → c ≠ b → st'.heap[c]? = st.heap[c]? := by
        intro c h1 h2 h3
        rw [← hrot]
        simp [List.getElem?_set_ne, Ne.symm h1, Ne.symm h2, Ne.symm h3]
      have hx' : st'.heap[x]? = some (some { nx with right := some y, parent := some y }) := by
        rw [← hrot]
        simp [List.getElem?_set_ne, List.getElem?_set_self, hxy, hxy.symm, hxb, hxb.symm, hxl]
      have hy' : st'.heap[y]? = some (some { ny with left := some b, parent := some x }) := by
        rw [← hrot]
        simp [List.getElem?_set_ne, List.getElem?_set_self, hxy, hxy.symm, hyb, hyb.symm,
          hyl']
      have hb' : st'.heap[b]? = some (some { nb with parent := nx.left }) := by
        rw [← hrot]
        simp [List.getElem?_set_self, hbl']
      have hroot' : st'.root = some x := by rw [← hrot]
      have hinf : st'.ITEM_NOT_FOUND = st.ITEM_NOT_FOUND := by rw [← hrot]
      have hlen : st'.heap.length = st.heap.length := by rw [← hrot]; simp
      have hag : ∀ c, c ≠ x → c ≠ y → Agree st.heap st'.heap c := by
        intro c hcx hcy n hn
        by_cases hcb : c = b
        · subst hcb
          rw [hb] at hn
          cases hn
          exact ⟨_, hb', rfl, rfl, rfl⟩
        · exact ⟨n, by rw [hk c hcx hcy hcb, hn], rfl, rfl, rfl⟩
      obtain ⟨h1, h2, h3, h4⟩ := rotL_assemble (R := .node B y ny.element C)
        hA hnd hown hinf hlen (by simp [hroot'])
        (by
          intro c hcx hcy hcB
          have hcb : c ≠ b := fun h => hcB (h ▸ hbB)
          simp only [Ref.owner, reduceCtorEq, if_false]
          exact hk c hcx hcy hcb)
        hx' rfl rfl
        (by
          refine Rep.node hy' rfl ?_ ?_
          · apply hB.congr
            intro c hc
            exact hag c (fun h => hxB (h ▸ hc)) (fun h => hyX (by simp [Tree.addrs, ← h, hc]))
          · exact hCfr _ (fun c _ hcx hcy _ => hag c hcx hcy))
        (by simp [Tree.keys]) (by simp [Tree.addrs])
      exact ⟨_, h1, h2, h3, h4, _, hx', by simp⟩
  | left z =>
    obtain ⟨nz, hz, hzl⟩ := getLeft_ok hread
    obtain ⟨hrootY, nz', hz', hzr'⟩ := hslot
    rw [hz] at hz'
    cases hz'
    have hzY := hown z rfl
    have hzx : z ≠ x := fun h => hzY (by simp [Tree.addrs, h])
    have hzy : z ≠ y := fun h => hzY (by simp [Tree.addrs, h])
    have hyp' := hyp z rfl
    have hrx := hrootY x (by simp [Tree.addrs])
    have hry := hrootY y (by simp [Tree.addrs])
    have hzr := hzr' y (by simp [Tree.addrs])
    have hzl' := cell_lt hz
    cases hxr : nx.right with
    | none =>
      rw [hxr] at hB
      have hBn : B = .nil := Rep.nil_iff.mp hB
      subst hBn
      simp [rotate, LRChild, isZigZag, getParent, getLeft, getRight, deref, modify, setLeft,
        setRight, setParent, Except.map, bind, Except.bind, pure, Except.pure, hx, hy, hz,
        hxy, hzx, hzy, hxy.symm, hzx.symm, hzy.symm, hyl, hyr, hxr, hxp, hyp', hzl, hzr,
        Ne.symm hrx, Ne.symm hry, hrx, hry,
        List.getElem?_set_self, List.getElem?_set_ne, hxl, hyl', hzl',
        -List.getElem?_eq_getElem] at hrot
      have hk : ∀ c, c ≠ x → c ≠ y → c ≠ z → st'.heap[c]? = st.heap[c]? := by
        intro c h1 h2 h3
        rw [← hrot]
        simp [List.getElem?_set_ne, Ne.symm h1, Ne.symm h2, Ne.symm h3]
      have hx' : st'.heap[x]? = some (some { nx with right := some y, parent := some z }) := by
        rw [← hrot]
        simp [List.getElem?_set_ne, List.getElem?_set_self, hxy, hxy.symm, hzx, hzx.symm, hxl]
      have hy' : st'.heap[y]? = some (some { ny with left := none, parent := some x }) := by
        rw [← hrot]
        simp [List.getElem?_set_ne, List.getElem?_set_self, hxy, hxy.symm, hzy, hzy.symm,
          hyl']
      have hz' : st'.heap[z]? = some (some { nz with left := some x }) := by
        rw [← hrot]
        simp [List.getElem?_set_ne, List.getElem?_set_self, hzx, hzx.symm, hzy, hzy.symm,
          hzl']
      have hroot' : st'.root = st.root := by rw [← hrot]
      have hinf : st'.ITEM_NOT_FOUND = st.ITEM_NOT_FOUND := by rw [← hrot]
      have hlen : st'.heap.length = st.heap.length := by rw [← hrot]; simp
      obtain ⟨h1, h2, h3, h4⟩ := rotL_assemble (R := .node .nil y ny.element C)
        hA hnd hown hinf hlen (by simp [hroot'])
        (by
          intro c hcx hcy _
          by_cases hcz : c = z
          · subst hcz
            rw [hz']
            simp [Ref.owner, hz, Ref.put]
          · have : ¬ z = c := fun h => hcz h.symm
            simp only [Ref.owner, Option.some.injEq, this, if_false]
            exact hk c hcx hcy hcz)
        hx' rfl rfl
        (by
          refine Rep.node hy' rfl Rep.nil ?_
          apply hCfr
          intro c hc hcx hcy _
          exact Agree.of_eq (hk c hcx hcy (fun h => hzY (h ▸ hCY c hc))))
        (by simp [Tree.keys]) (by simp [Tree.addrs])
      exact ⟨_, h1, h2, h3, h4, _, hx', by simp [Ref.owner]⟩
    | some b =>
      rw [hxr] at hB
      have hbB := hB.mem_addrs
      have hxb : x ≠ b := fun h => hxB (h ▸ hbB)
      have hyb : y ≠ b := fun h => hyX (by simp [Tree.addrs, h, hbB])
      simp [rotate, LRChild, isZigZag, getParent, getLeft, getRight, deref, modify, setLeft,
        setRight, setParent, Except.map, bind, Except.bind, pure, Except.pure, hx, hy, hz,
        hxy, hzx, hzy, hxy.symm, hzx.symm, hzy.symm, hyl, hyr, hxr, hxp, hyp', hzl, hzr,
        Ne.symm hrx, Ne.symm hry, hrx, hry,
        List.getElem?_set_self, List.getElem?_set_ne, hxl, hyl', hzl',
        -List.getElem?_eq_getElem] at hrot
      split at hrot
      · cases hrot
      · rename_i v hins
        generalize hst2 : SplayTree.mk _ _ _ = st2 at hins
        have h2k : ∀ c, c ≠ y → c ≠ z → st2.heap[c]? = st.heap[c]? := by
          intro c h1 h2
          rw [← hst2]
          simp [List.getElem?_set_ne, Ne.symm h1, Ne.symm h2]
        have h2y : st2.heap[y]? = some (some { ny with left := none, parent := some z }) := by
          rw [← hst2]
          simp [List.getElem?_set_ne, List.getElem?_set_self, hzy, hzy.symm, hyl']
        have h2z : st2.heap[z]? = some (some { nz with left := some x }) := by
          rw [← hst2]
          simp [List.getElem?_set_self, hzl']
        have h2root : st2.root = st.root := by rw [← hst2]
        have h2inf : st2.ITEM_NOT_FOUND = st.ITEM_NOT_FOUND := by rw [← hst2]
        have h2len : st2.heap.length = st.heap.length := by rw [← hst2]; simp
        have h2ag : ∀ c ∈ (Tree.node (.node A x nx.element B) y ny.element C).addrs, c ≠ y →
            st2.heap[c]? = st.heap[c]? :=
          fun c hc hcy => h2k c hcy (fun h => hzY (h ▸ hc))
        have hB2 : Rep st2.heap (some b) B := by
          apply hB.congr
          intro c hc
          exact Agree.of_eq (h2ag c (hBY c hc) (fun h => hyX (by simp [Tree.addrs, ← h, hc])))
        have hS2 : Rep st2.heap (some y) (.node .nil y ny.element C) := by
          refine Rep.node h2y rfl Rep.nil ?_
          apply hC.congr
          intro c hc
          exact Agree.of_eq (h2ag c (hCY c hc) (fun h => hyC (h ▸ hc)))
        obtain ⟨v1, v2, v3, v4, _, v6⟩ := insertNode_attachR B fuel st2 v b y
          { ny with left := none, parent := some z } hB2 hndB hBlt h2y (fun h => hyX (by simp [Tree.addrs, h])) hins
        have hvx : v.heap[x]? = some (some nx) := by
          rw [v4 x hxB hxy, h2k x hxy (Ne.symm hzx), hx]
        rw [hvx] at hrot
        simp only [Except.ok.injEq] at hrot
        have hxv : x < v.heap.length := cell_lt hvx
        have hk : ∀ c, c ≠ x → c ≠ y → c ∉ B.addrs → st'.heap[c]? = st2.heap[c]? := by
          intro c h1 h2 h3
          rw [← hrot]
          show (v.heap.set x _)[c]? = _
          rw [List.getElem?_set_ne (Ne.symm h1), v4 c h3 h2]
        have hx' : st'.heap[x]? = some (some { nx with parent := some z }) := by
          rw [← hrot]
          exact List.getElem?_set_self hxv
        have hroot' : st'.root = st.root := by rw [← hrot]; exact v1.trans h2root
        have hinf : st'.ITEM_NOT_FOUND = st.ITEM_NOT_FOUND := by
          rw [← hrot]; exact v2.trans h2inf
        have hlen : st'.heap.length = st.heap.length := by
          rw [← hrot]; simp [v3, h2len]
        have hRv := v6 _ hS2 (by
          intro c hc hcB
          simp only [Tree.addrs, List.nil_append, List.mem_cons] at hc
          rcases hc with rfl | hc
          · exact hyX (by simp [Tree.addrs, hcB])
          · exact hXC c (by simp [Tree.addrs, hcB]) hc)
        obtain ⟨h1, h2, h3, h4⟩ := rotL_assemble
          (R := B.attachR (.node .nil y ny.element C))
          hA hnd hown hinf hlen (by simp [hroot'])
          (by
            intro c hcx hcy hcB
            rw [hk c hcx hcy hcB]
            by_cases hcz : c = z
            · subst hcz
              rw [h2z]
              simp [Ref.owner, hz, Ref.put]
            · have : ¬ z = c := fun h => hcz h.symm
              simp only [Ref.owner, Option.some.injEq, this, if_false]
              exact h2k c hcy hcz)
          hx' rfl rfl
          (by
            show Rep st'.heap nx.right _
            rw [hxr, ← hrot]
            exact hRv.congr (fun c _ => agree_set_parent (some z) hvx c))
          (by simp [attachR_keys, Tree.keys]) (by simp [attachR_addrs, Tree.addrs])
        exact ⟨_, h1, h2, h3, h4, _, hx', by simp [Ref.owner]⟩
  | right z =>
    obtain ⟨nz, hz, hzl⟩ := getRight_ok hread
    obtain ⟨hrootY, nz', hz', hzr'⟩ := hslot
    rw [hz] at hz'
    cases hz'
    have hzY := hown z rfl
    have hzx : z ≠ x := fun h => hzY (by simp [Tree.addrs, h])
    have hzy : z ≠ y := fun h => hzY (by simp [Tree.addrs, h])
    have hyp' := hyp z rfl
    have hrx := hrootY x (by simp [Tree.addrs])
    have hry := hrootY y (by simp [Tree.addrs])
    have hzr := hzr' y (by simp [Tree.addrs])
    have hzl' := cell_lt hz
    cases hxr : nx.right with
    | none =>
      rw [hxr] at hB
      have hBn : B = .nil := Rep.nil_iff.mp hB
      subst hBn
      simp [rotate, LRChild, isZigZag, getParent, getLeft, getRight, deref, modify, setLeft,
        setRight, setParent, Except.map, bind, Except.bind, pure, Except.pure, hx, hy, hz,
        hxy, hzx, hzy, hxy.symm, hzx.symm, hzy.symm, hyl, hyr, hxr, hxp, hyp', hzl, hzr,
        Ne.symm hrx, Ne.symm hry, hrx, hry,
        List.getElem?_set_self, List.getElem?_set_ne, hxl, hyl', hzl',
        -List.getElem?_eq_getElem] at hrot
      have hk : ∀ c, c ≠ x → c ≠ y → c ≠ z → st'.heap[c]? = st.heap[c]? := by
        intro c h1 h2 h3
        rw [← hrot]
        simp [List.getElem?_set_ne, Ne.symm h1, Ne.symm h2, Ne.symm h3]
      have hx' : st'.heap[x]? = some (some { nx with right := some y, parent := some z }) := by
        rw [← hrot]
        simp [List.getElem?_set_ne, List.getElem?_set_self, hxy, hxy.symm, hzx, hzx.symm, hxl]
      have hy' : st'.heap[y]? = some (some { ny with left := none, parent := some x }) := by
        rw [← hrot]
        simp [List.getElem?_set_ne, List.getElem?_set_self, hxy, hxy.symm, hzy, hzy.symm,
          hyl']
      have hz' : st'.heap[z]? = some (some { nz with right := some x }) := by
        rw [← hrot]
        simp [List.getElem?_set_ne, List.getElem?_set_self, hzx, hzx.symm, hzy, hzy.symm,
          hzl']
      have hroot' : st'.root = st.root := by rw [← hrot]
      have hinf : st'.ITEM_NOT_FOUND = st.ITEM_NOT_FOUND := by rw [← hrot]
      have hlen : st'.heap.length = st.heap.length := by rw [← hrot]; simp
      obtain ⟨h1, h2, h3, h4⟩ := rotL_assemble (R := .node .nil y ny.element C)
        hA hnd hown hinf hlen (by simp [hroot'])
        (by
          intro c hcx hcy _
          by_cases hcz : c = z
          · subst hcz
            rw [hz']
            simp [Ref.owner, hz, Ref.put]
          · have : ¬ z = c := fun h => hcz h.symm
            simp only [Ref.owner, Option.some.injEq, this, if_false]
            exact hk c hcx hcy hcz)
        hx' rfl rfl
        (by
          refine Rep.node hy' rfl Rep.nil ?_
          apply hCfr
          intro c hc hcx hcy _
          exact Agree.of_eq (hk c hcx hcy (fun h => hzY (h ▸ hCY c hc))))
        (by simp [Tree.keys]) (by simp [Tree.addrs])
      exact ⟨_, h1, h2, h3, h4, _, hx', by simp [Ref.owner]⟩
    | some b =>
      rw [hxr] at hB
      have hbB := hB.mem_addrs
      have hxb : x ≠ b := fun h => hxB (h ▸ hbB)
      have hyb : y ≠ b := fun h => hyX (by simp [Tree.addrs, h, hbB])
      simp [rotate, LRChild, isZigZag, getParent, getLeft, getRight, deref, modify, setLeft,
        setRight, setParent, Except.map, bind, Except.bind, pure, Except.pure, hx, hy, hz,
        hxy, hzx, hzy, hxy.symm, hzx.symm, hzy.symm, hyl, hyr, hxr, hxp, hyp', hzl, hzr,
        Ne.symm hrx, Ne.symm hry, hrx, hry,
        List.getElem?_set_self, List.getElem?_set_ne, hxl, hyl', hzl',
        -List.getElem?_eq_getElem] at hrot
      split at hrot
      · cases hrot
      · rename_i v hins
        generalize hst2 : SplayTree.mk _ _ _ = st2 at hins
        have h2k : ∀ c, c ≠ y → c ≠ z → st2.heap[c]? = st.heap[c]? := by
          intro c h1 h2
          rw [← hst2]
          simp [List.getElem?_set_ne, Ne.symm h1, Ne.symm h2]
        have h2y : st2.heap[y]? = some (some { ny with left := none, parent := some z }) := by
          rw [← hst2]
          simp [List.getElem?_set_ne, List.getElem?_set_self, hzy, hzy.symm, hyl']
        have h2z : st2.heap[z]? = some (some { nz with right := some x }) := by
          rw [← hst2]
          simp [List.getElem?_set_self, hzl']
        have h2root : st2.root = st.root := by rw [← hst2]
        have h2inf : st2.ITEM_NOT_FOUND = st.ITEM_NOT_FOUND := by rw [← hst2]
        have h2len : st2.heap.length = st.heap.length := by rw [← hst2]; simp
        have h2ag : ∀ c ∈ (Tree.node (.node A x nx.element B) y ny.element C).addrs, c ≠ y →
            st2.heap[c]? = st.heap[c]? :=
          fun c hc hcy => h2k c hcy (fun h => hzY (h ▸ hc))
        have hB2 : Rep st2.heap (some b) B := by
          apply hB.congr
          intro c hc
          exact Agree.of_eq (h2ag c (hBY c hc) (fun h => hyX (by simp [Tree.addrs, ← h, hc])))
        have hS2 : Rep st2.heap (some y) (.node .nil y ny.element C) := by
          refine Rep.node h2y rfl Rep.nil ?_
          apply hC.congr
          intro c hc
          exact Agree.of_eq (h2ag c (hCY c hc) (fun h => hyC (h ▸ hc)))
        obtain ⟨v1, v2, v3, v4, _, v6⟩ := insertNode_attachR B fuel st2 v b y
          { ny with left := none, parent := some z } hB2 hndB hBlt h2y (fun h => hyX (by simp [Tree.addrs, h])) hins
        have hvx : v.heap[x]? = some (some nx) := by
          rw [v4 x hxB hxy, h2k x hxy (Ne.symm hzx), hx]
        rw [hvx] at hrot
        simp only [Except.ok.injEq] at hrot
        have hxv : x < v.heap.length := cell_lt hvx
        have hk : ∀ c, c ≠ x → c ≠ y → c ∉ B.addrs → st'.heap[c]? = st2.heap[c]? := by
          intro c h1 h2 h3
          rw [← hrot]
          show (v.heap.set x _)[c]? = _
          rw [List.getElem?_set_ne (Ne.symm h1), v4 c h3 h2]
        have hx' : st'.heap[x]? = some (some { nx with parent := some z }) := by
          rw [← hrot]
          exact List.getElem?_set_self hxv
        have hroot' : st'.root = st.root := by rw [← hrot]; exact v1.trans h2root
        have hinf : st'.ITEM_NOT_FOUND = st.ITEM_NOT_FOUND := by
          rw [← hrot]; exact v2.trans h2inf
        have hlen : st'.heap.length = st.heap.length := by
          rw [← hrot]; simp [v3, h2len]
        have hRv := v6 _ hS2 (by
          intro c hc hcB
          simp only [Tree.addrs, List.nil_append, List.mem_cons] at hc
          rcases hc with rfl | hc
          · exact hyX (by simp [Tree.addrs, hcB])
          · exact hXC c (by simp [Tree.addrs, hcB]) hc)
        obtain ⟨h1, h2, h3, h4⟩ := rotL_assemble
          (R := B.attachR (.node .nil y ny.element C))
          hA hnd hown hinf hlen (by simp [hroot'])
          (by
            intro c hcx hcy hcB
            rw [hk c hcx hcy hcB]
            by_cases hcz : c = z
            · subst hcz
              rw [h2z]
              simp [Ref.owner, hz, Ref.put]
            · have : ¬ z = c := fun h => hcz h.symm
              simp only [Ref.owner, Option.some.injEq, this, if_false]
              exact h2k c hcy hcz)
          hx' rfl rfl
          (by
            show Rep st'.heap nx.right _
            rw [hxr, ← hrot]
            exact hRv.congr (fun c _ => agree_set_parent (some z) hvx c))
          (by simp [attachR_keys, Tree.keys]) (by simp [attachR_addrs, Tree.addrs])
        exact ⟨_, h1, h2, h3, h4, _, hx', by simp [Ref.owner]⟩

/-! ## A single rotation of a right child -/

theorem rotR_assemble {st st' : SplayTree} {s : Ref} {x y : Nat} {A B C R : Tree}
    {nx ny nx' : SplayNode} (hA : Rep st.heap nx.right A)
    (hnd : (Tree.node C y ny.element (.node B x nx.element A)).addrs.Nodup)
    (hown : ∀ c, s.owner = some c → c ∉ (Tree.node C y ny.element (.node B x nx.element A)).addrs)
    (hinf : st'.ITEM_NOT_FOUND = st.ITEM_NOT_FOUND) (hlen : st'.heap.length = st.heap.length)
    (hroot : st'.root = if s = .root then some x else st.root)
    (hother : ∀ b, b ≠ x → b ≠ y → b ∉ B.addrs →
      st'.heap[b]? = if s.owner = some b then (st.heap[b]?).map (Option.map (s.put (some x)))
        else st.heap[b]?)
    (hx' : st'.heap[x]? = some (some nx')) (hxe : nx'.element = nx.element)
    (hxl : nx'.right = nx.right) (hR : Rep st'.heap nx'.left R)
    (hRk : R.keys = C.keys ++ ny.element :: B.keys)
    (hRa : R.addrs.Perm (C.addrs ++ y :: B.addrs)) :
    Post st st' s (.node C y ny.element (.node B x nx.element A)) (.node R x nx.element A) ∧
      (Tree.node R x nx.element A).keys =
        (Tree.node C y ny.element (.node B x nx.element A)).keys ∧
      (Tree.node R x nx.element A).addrs.Perm
        (Tree.node C y ny.element (.node B x nx.element A)).addrs ∧
      (∀ b ∈ A.addrs, st'.heap[b]? = st.heap[b]?) := by
  obtain ⟨hndC, hndX, hyC, hyX, hCX⟩ := nodup_node hnd
  obtain ⟨hndB, hndA, hxB, hxA, hBA⟩ := nodup_node hndX
  have hXC : ∀ b ∈ (Tree.node B x nx.element A).addrs, b ∉ C.addrs := fun b hb hc => hCX b hc hb
  have hAB : ∀ b ∈ A.addrs, b ∉ B.addrs := fun b hb hc => hBA b hc hb
  have hxy : x ≠ y := fun h => hyX (by simp [Tree.addrs, ← h])
  have hAfr : ∀ b ∈ A.addrs, st'.heap[b]? = st.heap[b]? := by
    intro b hb
    have hbY : b ∈ (Tree.node C y ny.element (.node B x nx.element A)).addrs := by
      simp [Tree.addrs, hb]
    rw [hother b (fun h => hxA (h ▸ hb)) (fun h => hyX (by simp [Tree.addrs, ← h, hb]))
      (hAB b hb)]
    have : ¬ s.owner = some b := fun h => hown b h hbY
    simp [this]
  have hperm : (Tree.node R x nx.element A).addrs.Perm
      (Tree.node C y ny.element (.node B x nx.element A)).addrs := by
    simp only [Tree.addrs]
    have := hRa.append (List.Perm.refl (x :: A.addrs))
    simpa [List.append_assoc] using this
  refine ⟨⟨hinf, ?_, ?_, by omega, ?_, ?_⟩, ?_, hperm, hAfr⟩
  · refine Rep.node hx' hxe hR ?_
    rw [hxl]
    exact hA.congr (fun b hb => Agree.of_eq (hAfr b hb))
  · intro b hb
    exact Or.inl (hperm.mem_iff.mp hb)
  · simpa [Tree.ptr] using hroot
  · intro b _ hbn
    simp only [Tree.addrs, List.mem_append, List.mem_cons, not_or] at hbn
    simpa [Tree.ptr] using hother b hbn.2.2.2.1 hbn.2.1 hbn.2.2.1
  · simp [Tree.keys, hRk]

theorem rotate_right_child {fuel : Nat} {st st' : SplayTree} {s : Ref} {x y : Nat}
    {A B C : Tree} {nx ny : SplayNode} (hread : readRef st s = .ok (some y))
    (hy : st.heap[y]? = some (some ny)) (hyl : ny.right = some x) (hC : Rep st.heap ny.left C)
    (hx : st.heap[x]? = some (some nx)) (hA : Rep st.heap nx.right A)
    (hB : Rep st.heap nx.left B)
    (hbst : (Tree.node C y ny.element (.node B x nx.element A)).keys.Pairwise (· < ·))
    (hown : ∀ c, s.owner = some c →
      c ∉ (Tree.node C y ny.element (.node B x nx.element A)).addrs)
    (hxp : nx.parent = some y) (hyp : ∀ z, s.owner = some z → ny.parent = some z)
    (hslot : SlotOK st s (.node C y ny.element (.node B x nx.element A)))
    (hrot : rotate fuel st (some x) = .ok st') :
    ∃ R', Post st st' s (.node C y ny.element (.node B x nx.element A))
        (.node R' x nx.element A) ∧
      (Tree.node R' x nx.element A).keys =
        (Tree.node C y ny.element (.node B x nx.element A)).keys ∧
      (Tree.node R' x nx.element A).addrs.Perm
        (Tree.node C y ny.element (.node B x nx.element A)).addrs ∧
      (∀ b ∈ A.addrs, st'.heap[b]? = st.heap[b]?) ∧
      ∃ nx', st'.heap[x]? = some (some nx') ∧
        nx'.parent = if s = .root then some y else s.owner := by
  have hrepX : Rep st.heap (some x) (.node B x nx.element A) := Rep.node hx rfl hB hA
  have hrepY : Rep st.heap (some y) (.node C y ny.element (.node B x nx.element A)) :=
    Rep.node hy rfl hC (hyl ▸ hrepX)
  have hnd := hrepY.nodup hbst
  obtain ⟨hndC, hndX, hyC, hyX, hCX⟩ := nodup_node hnd
  obtain ⟨hndB, hndA, hxB, hxA, hBA⟩ := nodup_node hndX
  have hXC : ∀ b ∈ (Tree.node B x nx.element A).addrs, b ∉ C.addrs := fun b hb hc => hCX b hc hb
  have hAB : ∀ b ∈ A.addrs, b ∉ B.addrs := fun b hb hc => hBA b hc hb
  have hxy : x ≠ y := fun h => hyX (by simp [Tree.addrs, ← h])
  have hyr : ny.left ≠ some x := by
    intro h
    rw [h] at hC
    exact hXC x (by simp [Tree.addrs]) hC.mem_addrs
  have hxl := cell_lt hx
  have hyl' := cell_lt hy
  have hCfr : ∀ (H : Heap), (∀ b ∈ C.addrs, b ≠ x → b ≠ y → b ∉ B.addrs → Agree st.heap H b) →
      Rep H ny.left C := by
    intro H hH
    apply hC.congr
    intro b hb
    exact hH b hb (fun h => hXC x (by simp [Tree.addrs]) (h ▸ hb)) (fun h => hyC (h ▸ hb))
      (fun h => hXC b (by simp [Tree.addrs, h]) hb)
  have hCY : ∀ b ∈ C.addrs, b ∈ (Tree.node C y ny.element (.node B x nx.element A)).addrs := by
    intro b hb; simp [Tree.addrs, hb]
  have hBY : ∀ b ∈ B.addrs, b ∈ (Tree.node C y ny.element (.node B x nx.element A)).addrs := by
    intro b hb; simp [Tree.addrs, hb]
  have hBlt : ∀ κ ∈ B.keys, ny.element < κ := by
    intro κ hκ
    exact (bst_node hbst).2.2.2 κ (by simp [Tree.keys, hκ])
  cases s with
  | root =>
    have hroot : st.root = some y := readRef_root_eq hread
    cases hxr : nx.left with
    | none =>
      rw [hxr] at hB
      have hBn : B = .nil := Rep.nil_iff.mp hB
      subst hBn
      simp [rotate, LRChild, isZigZag, getParent, getLeft, getRight, deref, modify, setLeft,
        setRight, setParent, Except.map, bind, Except.bind, pure, Except.pure, hx, hy,
        hxy, hxy.symm, hyl, hyr, hxr, hxp, hroot,
        List.getElem?_set_self, List.getElem?_set_ne, hxl, hyl',
        -List.getElem?_eq_getElem] at hrot
      have hk : ∀ c, c ≠ x → c ≠ y → st'.heap[c]? = st.heap[c]? := by
        intro c h1 h2
        rw [← hrot]
        simp [List.getElem?_set_ne, Ne.symm h1, Ne.symm h2]
      have hx' : st'.heap[x]? = some (some { nx with left := some y }) := by
        rw [← hrot]
        simp [List.getElem?_set_ne, List.getElem?_set_self, hxy, hxy.symm, hxl, hxp]
      have hy' : st'.heap[y]? = some (some { ny with right := none, parent := some x }) := by
        rw [← hrot]
        simp [List.getElem?_set_ne, List.getElem?_set_self, hxy, hxy.symm, hyl']
      have hroot' : st'.root = some x := by rw [← hrot]
      have hinf : st'.ITEM_NOT_FOUND = st.ITEM_NOT_FOUND := by rw [← hrot]
      have hlen : st'.heap.length = st.heap.length := by rw [← hrot]; simp
      obtain ⟨h1, h2, h3, h4⟩ := rotR_assemble (R := .node C y ny.element .nil)
        hA hnd hown hinf hlen (by simp [hroot'])
        (by
          intro c hcx hcy _
          simp only [Ref.owner, reduceCtorEq, if_false]
          exact hk c hcx hcy)
        hx' rfl rfl
        (by
          refine Rep.node hy' rfl ?_ Rep.nil
          apply hCfr
          intro c _ hcx hcy _
          exact Agree.of_eq (hk c hcx hcy))
        (by simp [Tree.keys]) (by simp [Tree.addrs])
      exact ⟨_, h1, h2, h3, h4, _, hx', by simp [hxp]⟩
    | some b =>
      rw [hxr] at hB
      have hbB := hB.mem_addrs
      obtain ⟨nb, Bl, Br, hBT, hb, hBl, hBr⟩ := hB.cell
      have hxb : x ≠ b := fun h => hxB (h ▸ hbB)
      have hyb : y ≠ b := fun h => hyX (by simp [Tree.addrs, h, hbB])
      have hbl' := cell_lt hb
      simp [rotate, LRChild, isZigZag, getParent, getLeft, getRight, deref, modify, setLeft,
        setRight, setParent, Except.map, bind, Except.bind, pure, Except.pure, hx, hy, hb,
        hxy, hxy.symm, hxb, hxb.symm, hyb, hyb.symm, hyl, hyr, hxr, hxp, hroot,
        List.getElem?_set_self, List.getElem?_set_ne, hxl, hyl', hbl',
        -List.getElem?_eq_getElem] at hrot
      have hk : ∀ c, c ≠ x → c ≠ y → c ≠ b → st'.heap[c]? = st.heap[c]? := by
        intro c h1 h2 h3
        rw [← hrot]
        simp [List.getElem?_set_ne, Ne.symm h1, Ne.symm h2, Ne.symm h3]
      have hx' : st'.heap[x]? = some (some { nx with left := some y, parent := some y }) := by
        rw [← hrot]
        simp [List.getElem?_set_ne, List.getElem?_set_self, hxy, hxy.symm, hxb, hxb.symm, hxl]
      have hy' : st'.heap[y]? = some (some { ny with right := some b, parent := some x }) := by
        rw [← hrot]
        simp [List.getElem?_set_ne, List.getElem?_set_self, hxy, hxy.symm, hyb, hyb.symm,
          hyl']
      have hb' : st'.heap[b]? = some (some { nb with parent := nx.right }) := by
        rw [← hrot]
        simp [List.getElem?_set_self, hbl']
      have hroot' : st'.root = some x := by rw [← hrot]
      have hinf : st'.ITEM_NOT_FOUND = st.ITEM_NOT_FOUND := by rw [← hrot]
      have hlen : st'.heap.length = st.heap.length := by rw [← hrot]; simp
      have hag : ∀ c, c ≠ x → c ≠ y → Agree st.heap st'.heap c := by
        intro c hcx hcy n hn
        by_cases hcb : c = b
        · subst hcb
          rw [hb] at hn
          cases hn
          exact ⟨_, hb', rfl, rfl, rfl⟩
        · exact ⟨n, by rw [hk c hcx hcy hcb, hn], rfl, rfl, rfl⟩
      obtain ⟨h1, h2, h3, h4⟩ := rotR_assemble (R := .node C y ny.element B)
        hA hnd hown hinf hlen (by simp [hroot'])
        (by
          intro c hcx hcy hcB
          have hcb : c ≠ b := fun h => hcB (h ▸ hbB)
          simp only [Ref.owner, reduceCtorEq, if_false]
          exact hk c hcx hcy hcb)
        hx' rfl rfl
        (by
          refine Rep.node hy' rfl ?_ ?_
          · exact hCfr _ (fun c _ hcx hcy _ => hag c hcx hcy)
          · apply hB.congr
            intro c hc
            exact hag c (fun h => hxB (h ▸ hc)) (fun h => hyX (by simp [Tree.addrs, ← h, hc])))
        (by simp [Tree.keys]) (by simp [Tree.addrs])
      exact ⟨_, h1, h2, h3, h4, _, hx', by simp⟩
  | left z =>
    obtain ⟨nz, hz, hzl⟩ := getLeft_ok hread
    obtain ⟨hrootY, nz', hz', hzr'⟩ := hslot
    rw [hz] at hz'
    cases hz'
    have hzY := hown z rfl
    have hzx : z ≠ x := fun h => hzY (by simp [Tree.addrs, h])
    have hzy : z ≠ y := fun h => hzY (by simp [Tree.addrs, h])
    have hyp' := hyp z rfl
    have hrx := hrootY x (by simp [Tree.addrs])
    have hry := hrootY y (by simp [Tree.addrs])
    have hzr := hzr' y (by simp [Tree.addrs])
    have hzl' := cell_lt hz
    cases hxr : nx.left with
    | none =>
      rw [hxr] at hB
      have hBn : B = .nil := Rep.nil_iff.mp hB
      subst hBn
      simp [rotate, LRChild, isZigZag, getParent, getLeft, getRight, deref, modify, setLeft,
        setRight, setParent, Except.map, bind, Except.bind, pure, Except.pure, hx, hy, hz,
        hxy, hzx, hzy, hxy.symm, hzx.symm, hzy.symm, hyl, hyr, hxr, hxp, hyp', hzl, hzr,
        Ne.symm hrx, Ne.symm hry, hrx, hry,
        List.getElem?_set_self, List.getElem?_set_ne, hxl, hyl', hzl',
        -List.getElem?_eq_getElem] at hrot
      have hk : ∀ c, c ≠ x → c ≠ y → c ≠ z → st'.heap[c]? = st.heap[c]? := by
        intro c h1 h2 h3
        rw [← hrot]
        simp [List.getElem?_set_ne, Ne.symm h1, Ne.symm h2, Ne.symm h3]
      have hx' : st'.heap[x]? = some (some { nx with left := some y, parent := some z }) := by
        rw [← hrot]
        simp [List.getElem?_set_ne, List.getElem?_set_self, hxy, hxy.symm, hzx, hzx.symm, hxl]
      have hy' : st'.heap[y]? = some (some { ny with right := none, parent := some x }) := by
        rw [← hrot]
        simp [List.getElem?_set_ne, List.getElem?_set_self, hxy, hxy.symm, hzy, hzy.symm,
          hyl']
      have hz' : st'.heap[z]? = some (some { nz with left := some x }) := by
        rw [← hrot]
        simp [List.getElem?_set_ne, List.getElem?_set_self, hzx, hzx.symm, hzy, hzy.symm,
          hzl']
      have hroot' : st'.root = st.root := by rw [← hrot]
      have hinf : st'.ITEM_NOT_FOUND = st.ITEM_NOT_FOUND := by rw [← hrot]
      have hlen : st'.heap.length = st.heap.length := by rw [← hrot]; simp
      obtain ⟨h1, h2, h3, h4⟩ := rotR_assemble (R := .node C y ny.element .nil)
        hA hnd hown hinf hlen (by simp [hroot'])
        (by
          intro c hcx hcy _
          by_cases hcz : c = z
          · subst hcz
            rw [hz']
            simp [Ref.owner, hz, Ref.put]
          · have : ¬ z = c := fun h => hcz h.symm
            simp only [Ref.owner, Option.some.injEq, this, if_false]
            exact hk c hcx hcy hcz)
        hx' rfl rfl
        (by
          refine Rep.node hy' rfl ?_ Rep.nil
          apply hCfr
          intro c hc hcx hcy _
          exact Agree.of_eq (hk c hcx hcy (fun h => hzY (h ▸ hCY c hc))))
        (by simp [Tree.keys]) (by simp [Tree.addrs])
      exact ⟨_, h1, h2, h3, h4, _, hx', by simp [Ref.owner]⟩
    | some b =>
      rw [hxr] at hB
      have hbB := hB.mem_addrs
      have hxb : x ≠ b := fun h => hxB (h ▸ hbB)
      have hyb : y ≠ b := fun h => hyX (by simp [Tree.addrs, h, hbB])
      simp [rotate, LRChild, isZigZag, getParent, getLeft, getRight, deref, modify, setLeft,
        setRight, setParent, Except.map, bind, Except.bind, pure, Except.pure, hx, hy, hz,
        hxy, hzx, hzy, hxy.symm, hzx.symm, hzy.symm, hyl, hyr, hxr, hxp, hyp', hzl, hzr,
        Ne.symm hrx, Ne.symm hry, hrx, hry,
        List.getElem?_set_self, List.getElem?_set_ne, hxl, hyl', hzl',
        -List.getElem?_eq_getElem] at hrot
      split at hrot
      · cases hrot
      · rename_i v hins
        generalize hst2 : SplayTree.mk _ _ _ = st2 at hins
        have h2k : ∀ c, c ≠ y → c ≠ z → st2.heap[c]? = st.heap[c]? := by
          intro c h1 h2
          rw [← hst2]
          simp [List.getElem?_set_ne, Ne.symm h1, Ne.symm h2]
        have h2y : st2.heap[y]? = some (some { ny with right := none, parent := some z }) := by
          rw [← hst2]
          simp [List.getElem?_set_ne, List.getElem?_set_self, hzy, hzy.symm, hyl']
        have h2z : st2.heap[z]? = some (some { nz with left := some x }) := by
          rw [← hst2]
          simp [List.getElem?_set_self, hzl']
        have h2root : st2.root = st.root := by rw [← hst2]
        have h2inf : st2.ITEM_NOT_FOUND = st.ITEM_NOT_FOUND := by rw [← hst2]
        have h2len : st2.heap.length = st.heap.length := by rw [← hst2]; simp
        have h2ag : ∀ c ∈ (Tree.node C y ny.element (.node B x nx.element A)).addrs, c ≠ y →
            st2.heap[c]? = st.heap[c]? :=
          fun c hc hcy => h2k c hcy (fun h => hzY (h ▸ hc))
        have hB2 : Rep st2.heap (some b) B := by
          apply hB.congr
          intro c hc
          exact Agree.of_eq (h2ag c (hBY c hc) (fun h => hyX (by simp [Tree.addrs, ← h, hc])))
        have hS2 : Rep st2.heap (some y) (.node C y ny.element .nil) := by
          refine Rep.node h2y rfl ?_ Rep.nil
          apply hC.congr
          intro c hc
          exact Agree.of_eq (h2ag c (hCY c hc) (fun h => hyC (h ▸ hc)))
        obtain ⟨v1, v2, v3, v4, _, v6⟩ := insertNode_attachL B fuel st2 v b y
          { ny with right := none, parent := some z } hB2 hndB hBlt h2y (fun h => hyX (by simp [Tree.addrs, h])) hins
        have hvx : v.heap[x]? = some (some nx) := by
          rw [v4 x hxB hxy, h2k x hxy (Ne.symm hzx), hx]
        rw [hvx] at hrot
        simp only [Except.ok.injEq] at hrot
        have hxv : x < v.heap.length := cell_lt hvx
        have hk : ∀ c, c ≠ x → c ≠ y → c ∉ B.addrs → st'.heap[c]? = st2.heap[c]? := by
          intro c h1 h2 h3
          rw [← hrot]
          show (v.heap.set x _)[c]? = _
          rw [List.getElem?_set_ne (Ne.symm h1), v4 c h3 h2]
        have hx' : st'.heap[x]? = some (some { nx with parent := some z }) := by
          rw [← hrot]
          exact List.getElem?_set_self hxv
        have hroot' : st'.root = st.root := by rw [← hrot]; exact v1.trans h2root
        have hinf : st'.ITEM_NOT_FOUND = st.ITEM_NOT_FOUND := by
          rw [← hrot]; exact v2.trans h2inf
        have hlen : st'.heap.length = st.heap.length := by
          rw [← hrot]; simp [v3, h2len]
        have hRv := v6 _ hS2 (by
          intro c hc hcB
          simp only [Tree.addrs, List.mem_append, List.mem_cons, List.not_mem_nil,
            or_false] at hc
          rcases hc with hc | rfl
          · exact hXC c (by simp [Tree.addrs, hcB]) hc
          · exact hyX (by simp [Tree.addrs, hcB]))
        obtain ⟨h1, h2, h3, h4⟩ := rotR_assemble
          (R := B.attachL (.node C y ny.element .nil))
          hA hnd hown hinf hlen (by simp [hroot'])
          (by
            intro c hcx hcy hcB
            rw [hk c hcx hcy hcB]
            by_cases hcz : c = z
            · subst hcz
              rw [h2z]
              simp [Ref.owner, hz, Ref.put]
            · have : ¬ z = c := fun h => hcz h.symm
              simp only [Ref.owner, Option.some.injEq, this, if_false]
              exact h2k c hcy hcz)
          hx' rfl rfl
          (by
            show Rep st'.heap nx.left _
            rw [hxr, ← hrot]
            exact hRv.congr (fun c _ => agree_set_parent (some z) hvx c))
          (by simp [attachL_keys, Tree.keys]) (by simp [attachL_addrs, Tree.addrs])
        exact ⟨_, h1, h2, h3, h4, _, hx', by simp [Ref.owner]⟩
  | right z =>
    obtain ⟨nz, hz, hzl⟩ := getRight_ok hread
    obtain ⟨hrootY, nz', hz', hzr'⟩ := hslot
    rw [hz] at hz'
    cases hz'
    have hzY := hown z rfl
    have hzx : z ≠ x := fun h => hzY (by simp [Tree.addrs, h])
    have hzy : z ≠ y := fun h => hzY (by simp [Tree.addrs, h])
    have hyp' := hyp z rfl
    have hrx := hrootY x (by simp [Tree.addrs])
    have hry := hrootY y (by simp [Tree.addrs])
    have hzr := hzr' y (by simp [Tree.addrs])
    have hzl' := cell_lt hz
    cases hxr : nx.left with
    | none =>
      rw [hxr] at hB
      have hBn : B = .nil := Rep.nil_iff.mp hB
      subst hBn
      simp [rotate, LRChild, isZigZag, getParent, getLeft, getRight, deref, modify, setLeft,
        setRight, setParent, Except.map, bind, Except.bind, pure, Except.pure, hx, hy, hz,
        hxy, hzx, hzy, hxy.symm, hzx.symm, hzy.symm, hyl, hyr, hxr, hxp, hyp', hzl, hzr,
        Ne.symm hrx, Ne.symm hry, hrx, hry,
        List.getElem?_set_self, List.getElem?_set_ne, hxl, hyl', hzl',
        -List.getElem?_eq_getElem] at hrot
      have hk : ∀ c, c ≠ x → c ≠ y → c ≠ z → st'.heap[c]? = st.heap[c]? := by
        intro c h1 h2 h3
        rw [← hrot]
        simp [List.getElem?_set_ne, Ne.symm h1, Ne.symm h2, Ne.symm h3]
      have hx' : st'.heap[x]? = some (some { nx with left := some y, parent := some z }) := by
        rw [← hrot]
        simp [List.getElem?_set_ne, List.getElem?_set_self, hxy, hxy.symm, hzx, hzx.symm, hxl]
      have hy' : st'.heap[y]? = some (some { ny with right := none, parent := some x }) := by
        rw [← hrot]
        simp [List.getElem?_set_ne, List.getElem?_set_self, hxy, hxy.symm, hzy, hzy.symm,
          hyl']
      have hz' : st'.heap[z]? = some (some { nz with right := some x }) := by
        rw [← hrot]
        simp [List.getElem?_set_ne, List.getElem?_set_self, hzx, hzx.symm, hzy, hzy.symm,
          hzl']
      have hroot' : st'.root = st.root := by rw [← hrot]
      have hinf : st'.ITEM_NOT_FOUND = st.ITEM_NOT_FOUND := by rw [← hrot]
      have hlen : st'.heap.length = st.heap.length := by rw [← hrot]; simp
      obtain ⟨h1, h2, h3, h4⟩ := rotR_assemble (R := .node C y ny.element .nil)
        hA hnd hown hinf hlen (by simp [hroot'])
        (by
          intro c hcx hcy _
          by_cases hcz : c = z
          · subst hcz
            rw [hz']
            simp [Ref.owner, hz, Ref.put]
          · have : ¬ z = c := fun h => hcz h.symm
            simp only [Ref.owner, Option.some.injEq, this, if_false]
            exact hk c hcx hcy hcz)
        hx' rfl rfl
        (by
          refine Rep.node hy' rfl ?_ Rep.nil
          apply hCfr
          intro c hc hcx hcy _
          exact Agree.of_eq (hk c hcx hcy (fun h => hzY (h ▸ hCY c hc))))
        (by simp [Tree.keys]) (by simp [Tree.addrs])
      exact ⟨_, h1, h2, h3, h4, _, hx', by simp [Ref.owner]⟩
    | some b =>
      rw [hxr] at hB
      have hbB := hB.mem_addrs
      have hxb : x ≠ b := fun h => hxB (h ▸ hbB)
      have hyb : y ≠ b := fun h => hyX (by simp [Tree.addrs, h, hbB])
      simp [rotate, LRChild, isZigZag, getParent, getLeft, getRight, deref, modify, setLeft,
        setRight, setParent, Except.map, bind, Except.bind, pure, Except.pure, hx, hy, hz,
        hxy, hzx, hzy, hxy.symm, hzx.symm, hzy.symm, hyl, hyr, hxr, hxp, hyp', hzl, hzr,
        Ne.symm hrx, Ne.symm hry, hrx, hry,
        List.getElem?_set_self, List.getElem?_set_ne, hxl, hyl', hzl',
        -List.getElem?_eq_getElem] at hrot
      split at hrot
      · cases hrot
      · rename_i v hins
        generalize hst2 : SplayTree.mk _ _ _ = st2 at hins
        have h2k : ∀ c, c ≠ y → c ≠ z → st2.heap[c]? = st.heap[c]? := by
          intro c h1 h2
          rw [← hst2]
          simp [List.getElem?_set_ne, Ne.symm h1, Ne.symm h2]
        have h2y : st2.heap[y]? = some (some { ny with right := none, parent := some z }) := by
          rw [← hst2]
          simp [List.getElem?_set_ne, List.getElem?_set_self, hzy, hzy.symm, hyl']
        have h2z : st2.heap[z]? = some (some { nz with right := some x }) := by
          rw [← hst2]
          simp [List.getElem?_set_self, hzl']
        have h2root : st2.root = st.root := by rw [← hst2]
        have h2inf : st2.ITEM_NOT_FOUND = st.ITEM_NOT_FOUND := by rw [← hst2]
        have h2len : st2.heap.length = st.heap.length := by rw [← hst2]; simp
        have h2ag : ∀ c ∈ (Tree.node C y ny.element (.node B x nx.element A)).addrs, c ≠ y →
            st2.heap[c]? = st.heap[c]? :=
          fun c hc hcy => h2k c hcy (fun h => hzY (h ▸ hc))
        have hB2 : Rep st2.heap (some b) B := by
          apply hB.congr
          intro c hc
          exact Agree.of_eq (h2ag c (hBY c hc) (fun h => hyX (by simp [Tree.addrs, ← h, hc])))
        have hS2 : Rep st2.heap (some y) (.node C y ny.element .nil) := by
          refine Rep.node h2y rfl ?_ Rep.nil
          apply hC.congr
          intro c hc
          exact Agree.of_eq (h2ag c (hCY c hc) (fun h => hyC (h ▸ hc)))
        obtain ⟨v1, v2, v3, v4, _, v6⟩ := insertNode_attachL B fuel st2 v b y
          { ny with right := none, parent := some z } hB2 hndB hBlt h2y (fun h => hyX (by simp [Tree.addrs, h])) hins
        have hvx : v.heap[x]? = some (some nx) := by
          rw [v4 x hxB hxy, h2k x hxy (Ne.symm hzx), hx]
        rw [hvx] at hrot
        simp only [Except.ok.injEq] at hrot
        have hxv : x < v.heap.length := cell_lt hvx
        have hk : ∀ c, c ≠ x → c ≠ y → c ∉ B.addrs → st'.heap[c]? = st2.heap[c]? := by
          intro c h1 h2 h3
          rw [← hrot]
          show (v.heap.set x _)[c]? = _
          rw [List.getElem?_set_ne (Ne.symm h1), v4 c h3 h2]
        have hx' : st'.heap[x]? = some (some { nx with parent := some z }) := by
          rw [← hrot]
          exact List.getElem?_set_self hxv
        have hroot' : st'.root = st.root := by rw [← hrot]; exact v1.trans h2root
        have hinf : st'.ITEM_NOT_FOUND = st.ITEM_NOT_FOUND := by
          rw [← hrot]; exact v2.trans h2inf
        have hlen : st'.heap.length = st.heap.length := by
          rw [← hrot]; simp [v3, h2len]
        have hRv := v6 _ hS2 (by
          intro c hc hcB
          simp only [Tree.addrs, List.mem_append, List.mem_cons, List.not_mem_nil,
            or_false] at hc
          rcases hc with hc | rfl
          · exact hXC c (by simp [Tree.addrs, hcB]) hc
          · exact hyX (by simp [Tree.addrs, hcB]))
        obtain ⟨h1, h2, h3, h4⟩ := rotR_assemble
          (R := B.attachL (.node C y ny.element .nil))
          hA hnd hown hinf hlen (by simp [hroot'])
          (by
            intro c hcx hcy hcB
            rw [hk c hcx hcy hcB]
            by_cases hcz : c = z
            · subst hcz
              rw [h2z]
              simp [Ref.owner, hz, Ref.put]
            · have : ¬ z = c := fun h => hcz h.symm
              simp only [Ref.owner, Option.some.injEq, this, if_false]
              exact h2k c hcy hcz)
          hx' rfl rfl
          (by
            show Rep st'.heap nx.left _
            rw [hxr, ← hrot]
            exact hRv.congr (fun c _ => agree_set_parent (some z) hvx c))
          (by simp [attachL_keys, Tree.keys]) (by simp [attachL_addrs, Tree.addrs])
        exact ⟨_, h1, h2, h3, h4, _, hx', by simp [Ref.owner]⟩

/-! ## Glue for the splay step -/

theorem Post.readRef {st st' : SplayTree} {s : Ref} {T T' : Tree} {p : Ptr}
    (hp : Post st st' s T T') (hread : readRef st s = .ok p)
    (hown : ∀ c, s.owner = some c → c ∉ T.addrs) : readRef st' s = .ok T'.ptr := by
  obtain ⟨_, _, _, _, hroot, hframe⟩ := hp
  cases s with
  | root => simp [Splay.readRef, hroot]
  | left z =>
    obtain ⟨nz, hz, _⟩ := getLeft_ok hread
    have := hframe z (cell_lt hz) (hown z rfl)
    simp only [Ref.owner, if_true, hz, Option.map_some', Ref.put] at this
    simp [Splay.readRef, getLeft_cell this]
  | right z =>
    obtain ⟨nz, hz, _⟩ := getRight_ok hread
    have := hframe z (cell_lt hz) (hown z rfl)
    simp only [Ref.owner, if_true, hz, Option.map_some', Ref.put] at this
    simp [Splay.readRef, getRight_cell this]

theorem SlotOK.post {st st' : SplayTree} {s : Ref} {T T' : Tree} (hp : Post st st' s T T')
    (hperm : T'.addrs.Perm T.addrs) (hown : ∀ c, s.owner = some c → c ∉ T.addrs)
    (hs : SlotOK st s T) : SlotOK st' s T' := by
  obtain ⟨_, _, _, _, hroot, hframe⟩ := hp
  cases s with
  | root => trivial
  | left z =>
    obtain ⟨hr, nz, hz, hzr⟩ := hs
    have := hframe z (cell_lt hz) (hown z rfl)
    simp only [Ref.owner, if_true, hz, Option.map_some', Ref.put] at this
    refine ⟨?_, _, this, ?_⟩
    · intro b hb
      simp only [reduceCtorEq, if_false] at hroot
      rw [hroot]
      exact hr b (hperm.mem_iff.mp hb)
    · intro b hb
      exact hzr b (hperm.mem_iff.mp hb)
  | right z =>
    obtain ⟨hr, nz, hz, hzr⟩ := hs
    have := hframe z (cell_lt hz) (hown z rfl)
    simp only [Ref.owner, if_true, hz, Option.map_some', Ref.put] at this
    refine ⟨?_, _, this, ?_⟩
    · intro b hb
      simp only [reduceCtorEq, if_false] at hroot
      rw [hroot]
      exact hr b (hperm.mem_iff.mp hb)
    · intro b hb
      exact hzr b (hperm.mem_iff.mp hb)

/-- The statement `root->parent = NULL` after a rotation below the reference `s`. -/
theorem setParent_root_post {st st1 st2 : SplayTree} {s : Ref} {T T1 : Tree}
    (hp : Post st st1 s T T1) (hroot : RootOK st) (hs : SlotOK st s T)
    (hown : ∀ c, s.owner = some c → c ∉ T.addrs)
    (hset : setParent st1 st1.root none = .ok st2) :
    Post st st2 s T T1 ∧ st2.root = st1.root ∧ RootOK st2 ∧
      (∀ b, st1.root ≠ some b → st2.heap[b]? = st1.heap[b]?) ∧
      (s ≠ .root → st2 = st1) ∧
      (∀ b n, st1.heap[b]? = some (some n) → st1.root = some b →
        st2.heap[b]? = some (some { n with parent := none })) := by
  have hex : ∃ ρ n, st1.root = some ρ ∧ st1.heap[ρ]? = some (some n) := by
    cases hr1 : st1.root with
    | none => simp [setParent, modify, hr1] at hset
    | some ρ =>
      rw [hr1] at hset
      cases hc : st1.heap[ρ]? with
      | none => simp [setParent, modify, hc] at hset
      | some o =>
        cases o with
        | none => simp [setParent, modify, hc] at hset
        | some n => exact ⟨ρ, n, rfl, hc⟩
  obtain ⟨ρ, n, hr1, hc⟩ := hex
  have hst2 : st2 = { st1 with heap := st1.heap.set ρ (some { n with parent := none }) } := by
    rw [hr1] at hset
    simp only [setParent, modify_cell _ hc, Except.ok.injEq] at hset
    exact hset.symm
  subst hst2
  have hrho : ρ < st1.heap.length := cell_lt hc
  have hcell : (st1.heap.set ρ (some { n with parent := none }))[ρ]? =
      some (some { n with parent := none }) := List.getElem?_set_self hrho
  have hne : ∀ b, st1.root ≠ some b → (st1.heap.set ρ (some { n with parent := none }))[b]? =
      st1.heap[b]? := by
    intro b hb
    exact List.getElem?_set_ne (fun h => hb (by rw [hr1, h]))
  have hRoot2 : RootOK { st1 with heap := st1.heap.set ρ (some { n with parent := none }) } :=
    ⟨ρ, _, hr1, hcell, rfl⟩
  have hcb : ∀ b n', st1.heap[b]? = some (some n') → st1.root = some b →
      (st1.heap.set ρ (some { n with parent := none }))[b]? =
        some (some { n' with parent := none }) := by
    intro b n' hb hρb
    rw [hr1] at hρb
    cases hρb
    rw [hc] at hb
    cases hb
    exact hcell
  by_cases hsr : s = .root
  · subst hsr
    have hρ : T1.ptr = some ρ := by
      have := hp.2.2.2.2.1
      simp only [if_true] at this
      rw [← this, hr1]
    have hmem : ρ ∈ T1.addrs := by
      have := hp.2.1
      rw [hρ] at this
      exact this.mem_addrs
    exact ⟨Post.set_parent none hp hmem hc, rfl, hRoot2, hne, fun h => absurd rfl h, hcb⟩
  · obtain ⟨ρ0, n0, hρ0, hn0, hn0p⟩ := hroot
    have hroot1 : st1.root = st.root := by
      have := hp.2.2.2.2.1
      simpa [hsr] using this
    have hρρ : ρ = ρ0 := by
      rw [hroot1, hρ0] at hr1
      exact (Option.some.inj hr1).symm
    subst hρρ
    have hρT : ρ ∉ T.addrs := by
      cases s with
      | root => exact absurd rfl hsr
      | left z => exact fun h => hs.1 ρ h hρ0
      | right z => exact fun h => hs.1 ρ h hρ0
    have hnp : n.parent = none := by
      have := hp.2.2.2.2.2 ρ (cell_lt hn0) hρT
      rw [hc, hn0] at this
      by_cases ho : s.owner = some ρ
      · simp only [ho, if_true, Option.map_some', Option.some.injEq] at this
        rw [this]
        cases s <;> simp [Ref.put, hn0p]
      · simp only [ho, if_false, Option.some.injEq] at this
        rw [this]; exact hn0p
    have hsame : st1.heap.set ρ (some { n with parent := none }) = st1.heap := by
      apply set_self_of_getElem?
      rw [hc, ← hnp]
    have hst : ({ st1 with heap := st1.heap.set ρ (some { n with parent := none }) } :
        SplayTree) = st1 := by
      rw [hsame]
    rw [hst]
    refine ⟨hp, rfl, ?_, fun _ _ => rfl, fun _ => rfl, ?_⟩
    · rw [← hst]; exact hRoot2
    · intro b n' hb hρb
      rw [← hsame]
      exact hcb b n' hb hρb

/-! ## Classifying and unfolding the splay step -/

theorem LRChild_left {st : SplayTree} {x y : Nat} {nx ny : SplayNode}
    (hroot : st.root ≠ some x) (hx : st.heap[x]? = some (some nx)) (hxp : nx.parent = some y)
    (hy : st.heap[y]? = some (some ny)) (hyr : ny.right ≠ some x) (hyl : ny.left = some x) :
    LRChild st (some x) = .ok 0 := by
  simp [LRChild, Ne.symm hroot, getParent_cell hx, hxp, getRight_cell hy, getLeft_cell hy, hyr,
    hyl, bind, Except.bind, pure, Except.pure]

theorem LRChild_right {st : SplayTree} {x y : Nat} {nx ny : SplayNode}
    (hroot : st.root ≠ some x) (hx : st.heap[x]? = some (some nx)) (hxp : nx.parent = some y)
    (hy : st.heap[y]? = some (some ny)) (hyr : ny.right = some x) :
    LRChild st (some x) = .ok 1 := by
  simp [LRChild, Ne.symm hroot, getParent_cell hx, hxp, getRight_cell hy, hyr,
    bind, Except.bind, pure, Except.pure]

theorem LRChild_root {st : SplayTree} {x : Nat} (hroot : st.root = some x) :
    LRChild st (some x) = .ok (-1) := by
  simp [LRChild, hroot, pure, Except.pure]

theorem isZigZag_eq {st : SplayTree} {t p : Nat} {nt : SplayNode} {tC tP : Int}
    (ht : st.heap[t]? = some (some nt)) (htp : nt.parent = some p)
    (hC : LRChild st (some t) = .ok tC) (hP : LRChild st (some p) = .ok tP) :
    isZigZag st (some t) = .ok (if tP = -1 then 2 else if tC ≠ tP then 1 else 0) := by
  simp only [isZigZag, ne_eq, reduceCtorEq, not_false_eq_true, if_true, hC, getParent_cell ht,
    htp, hP, bind, Except.bind, pure, Except.pure]
  split_ifs <;> rfl

theorem splayNode_zigzig {fuel : Nat} {st st' : SplayTree} {t p : Nat} {nt : SplayNode}
    {e : Int} (ht : st.heap[t]? = some (some nt)) (htp : nt.parent = some p)
    (hz : isZigZag st (some t) = .ok 0) (h : splayNode fuel st (some t) = .ok (e, st')) :
    ∃ st1 st1b st2, rotate fuel st (some p) = .ok st1 ∧
      setParent st1 st1.root none = .ok st1b ∧ rotate fuel st1b (some t) = .ok st2 ∧
      setParent st2 st2.root none = .ok st' := by
  simp only [splayNode, getParent_cell ht, htp, ne_eq, reduceCtorEq, not_false_eq_true,
    if_true, hz, bind, Except.bind, zero_ne_one, if_false] at h
  cases h1 : rotate fuel st (some p) with
  | error err => simp [h1] at h
  | ok st1 =>
    simp only [h1] at h
    cases h2 : setParent st1 st1.root none with
    | error err => simp [h2] at h
    | ok st1b =>
      simp only [h2] at h
      cases h3 : rotate fuel st1b (some t) with
      | error err => simp [h3] at h
      | ok st2 =>
        simp only [h3] at h
        cases h4 : setParent st2 st2.root none with
        | error err => simp [h4] at h
        | ok st2b =>
          simp only [h4] at h
          cases h5 : getElement st2b (some t) with
          | error err => simp [h5] at h
          | ok e' =>
            simp only [h5, pure, Except.pure, Except.ok.injEq, Prod.mk.injEq] at h
            exact ⟨st1, st1b, st2, rfl, h2, h3, h.2 ▸ h4⟩

theorem splayNode_zigzag {fuel : Nat} {st st' : SplayTree} {t p : Nat} {nt : SplayNode}
    {e : Int} (ht : st.heap[t]? = some (some nt)) (htp : nt.parent = some p)
    (hz : isZigZag st (some t) = .ok 1) (h : splayNode fuel st (some t) = .ok (e, st')) :
    ∃ st1 st1b st2, rotate fuel st (some t) = .ok st1 ∧
      setParent st1 st1.root none = .ok st1b ∧ rotate fuel st1b (some t) = .ok st2 ∧
      setParent st2 st2.root none = .ok st' := by
  simp only [splayNode, getParent_cell ht, htp, ne_eq, reduceCtorEq, not_false_eq_true,
    if_true, hz, bind, Except.bind] at h
  cases h1 : rotate fuel st (some t) with
  | error err => simp [h1] at h
  | ok st1 =>
    simp only [h1] at h
    cases h2 : setParent st1 st1.root none with
    | error err => simp [h2] at h
    | ok st1b =>
      simp only [h2] at h
      cases h3 : rotate fuel st1b (some t) with
      | error err => simp [h3] at h
      | ok st2 =>
        simp only [h3] at h
        cases h4 : setParent st2 st2.root none with
        | error err => simp [h4] at h
        | ok st2b =>
          simp only [h4] at h
          cases h5 : getElement st2b (some t) with
          | error err => simp [h5] at h
          | ok e' =>
            simp only [h5, pure, Except.pure, Except.ok.injEq, Prod.mk.injEq] at h
            exact ⟨st1, st1b, st2, rfl, h2, h3, h.2 ▸ h4⟩

theorem splayNode_zig {fuel : Nat} {st st' : SplayTree} {t p : Nat} {nt : SplayNode}
    {e : Int} (ht : st.heap[t]? = some (some nt)) (htp : nt.parent = some p)
    (hz : isZigZag st (some t) = .ok 2) (h : splayNode fuel st (some t) = .ok (e, st')) :
    rotate fuel st (some t) = .ok st' := by
  have h21 : ¬ (2 : Int) = 1 := by decide
  have h20 : ¬ (2 : Int) = 0 := by decide
  simp only [splayNode, getParent_cell ht, htp, ne_eq, reduceCtorEq, not_false_eq_true,
    if_true, hz, bind, Except.bind, h21, h20, if_false] at h
  cases h1 : rotate fuel st (some t) with
  | error err => simp [h1] at h
  | ok st1 =>
    simp only [h1] at h
    cases h5 : getElement st1 (some t) with
    | error err => simp [h5] at h
    | ok e' =>
      simp only [h5, pure, Except.pure, Except.ok.injEq, Prod.mk.injEq] at h
      rw [h.2]

theorem splayNode_no_parent {fuel : Nat} {st st' : SplayTree} {t : Nat} {nt : SplayNode}
    {e : Int} (ht : st.heap[t]? = some (some nt)) (htp : nt.parent = none)
    (h : splayNode fuel st (some t) = .ok (e, st')) : st' = st := by
  simp only [splayNode, getParent_cell ht, htp, ne_eq, not_true_eq_false, if_false,
    getElement_cell ht, bind, Except.bind, pure, Except.pure, Except.ok.injEq,
    Prod.mk.injEq] at h
  exact h.2.symm

/-! ## The second rotation of a double step -/

theorem finish_left {fuel : Nat} {st st1 st2 st' : SplayTree} {s : Ref} {G A B C : Tree}
    {t y : Nat} {k yk : Int} {p0 : Ptr}
    (hread : readRef st s = .ok p0) (hbst : G.keys.Pairwise (· < ·))
    (hown : ∀ c, s.owner = some c → c ∉ G.addrs) (hslot : SlotOK st s G) (hroot : RootOK st)
    (hP : Post st st1 s G (.node (.node A t k B) y yk C))
    (hkeys : (Tree.node (.node A t k B) y yk C).keys = G.keys)
    (hperm : (Tree.node (.node A t k B) y yk C).addrs.Perm G.addrs)
    (htp : ∃ nt, st1.heap[t]? = some (some nt) ∧ nt.parent = some y)
    (hyp : ∀ z, s.owner = some z → ∃ ny, st1.heap[y]? = some (some ny) ∧ ny.parent = some z)
    (h3 : rotate fuel st1 (some t) = .ok st2) (h4 : setParent st2 st2.root none = .ok st') :
    ∃ T', StepOK st st' s G T' k := by
  have hrep1 := hP.2.1
  simp only [Tree.ptr] at hrep1
  obtain ⟨ny, X, C0, hT, hy, hX, hC⟩ := hrep1.cell
  cases hT
  have hyl : ny.left = some t := hX.ptr_eq
  rw [hyl] at hX
  obtain ⟨nt, A0, B0, hT, ht, hA, hB⟩ := hX.cell
  cases hT
  obtain ⟨nt0, ht0, htp0⟩ := htp
  rw [ht] at ht0
  cases ht0
  have hown1 : ∀ c, s.owner = some c →
      c ∉ (Tree.node (.node A t nt.element B) y ny.element C).addrs :=
    fun c hc h => hown c hc (hperm.mem_iff.mp h)
  obtain ⟨R2, P2, keys2, perm2, _, nt', ht', htp'⟩ :=
    rotate_left_child (hP.readRef hread hown) hy hyl hC ht hA hB (hkeys ▸ hbst) hown1 htp0
      (by
        intro z hz
        obtain ⟨ny', hy', hyp'⟩ := hyp z hz
        rw [hy] at hy'
        cases hy'
        exact hyp')
      (SlotOK.post hP hperm hown hslot) h3
  have P12 := hP.trans P2
  obtain ⟨Pf, _, hRf, _, hsame, hrc⟩ := setParent_root_post P12 hroot hslot hown h4
  refine ⟨_, Pf, keys2.trans hkeys, perm2.trans hperm, ?_, hRf⟩
  simp only [PathOK, lt_irrefl, if_false, and_true]
  by_cases hsr : s = .root
  · subst hsr
    have hr2 : st2.root = some t := by
      have := P2.2.2.2.2.1
      simpa [Tree.ptr] using this
    exact ⟨_, hrc t nt' ht' hr2, rfl⟩
  · rw [hsame hsr]
    simp only [hsr, if_false] at htp'
    exact ⟨nt', ht', htp'⟩

theorem finish_right {fuel : Nat} {st st1 st2 st' : SplayTree} {s : Ref} {G A B C : Tree}
    {t y : Nat} {k yk : Int} {p0 : Ptr}
    (hread : readRef st s = .ok p0) (hbst : G.keys.Pairwise (· < ·))
    (hown : ∀ c, s.owner = some c → c ∉ G.addrs) (hslot : SlotOK st s G) (hroot : RootOK st)
    (hP : Post st st1 s G (.node C y yk (.node B t k A)))
    (hkeys : (Tree.node C y yk (.node B t k A)).keys = G.keys)
    (hperm : (Tree.node C y yk (.node B t k A)).addrs.Perm G.addrs)
    (htp : ∃ nt, st1.heap[t]? = some (some nt) ∧ nt.parent = some y)
    (hyp : ∀ z, s.owner = some z → ∃ ny, st1.heap[y]? = some (some ny) ∧ ny.parent = some z)
    (h3 : rotate fuel st1 (some t) = .ok st2) (h4 : setParent st2 st2.root none = .ok st') :
    ∃ T', StepOK st st' s G T' k := by
  have hrep1 := hP.2.1
  simp only [Tree.ptr] at hrep1
  obtain ⟨ny, C0, X, hT, hy, hC, hX⟩ := hrep1.cell
  cases hT
  have hyl : ny.right = some t := hX.ptr_eq
  rw [hyl] at hX
  obtain ⟨nt, B0, A0, hT, ht, hB, hA⟩ := hX.cell
  cases hT
  obtain ⟨nt0, ht0, htp0⟩ := htp
  rw [ht] at ht0
  cases ht0
  have hown1 : ∀ c, s.owner = some c →
      c ∉ (Tree.node C y ny.element (.node B t nt.element A)).addrs :=
    fun c hc h => hown c hc (hperm.mem_iff.mp h)
  obtain ⟨R2, P2, keys2, perm2, _, nt', ht', htp'⟩ :=
    rotate_right_child (hP.readRef hread hown) hy hyl hC ht hA hB (hkeys ▸ hbst) hown1 htp0
      (by
        intro z hz
        obtain ⟨ny', hy', hyp'⟩ := hyp z hz
        rw [hy] at hy'
        cases hy'
        exact hyp')
      (SlotOK.post hP hperm hown hslot) h3
  have P12 := hP.trans P2
  obtain ⟨Pf, _, hRf, _, hsame, hrc⟩ := setParent_root_post P12 hroot hslot hown h4
  refine ⟨_, Pf, keys2.trans hkeys, perm2.trans hperm, ?_, hRf⟩
  simp only [PathOK, lt_irrefl, if_false, and_true]
  by_cases hsr : s = .root
  · subst hsr
    have hr2 : st2.root = some t := by
      have := P2.2.2.2.2.1
      simpa [Tree.ptr] using this
    exact ⟨_, hrc t nt' ht' hr2, rfl⟩
  · rw [hsame hsr]
    simp only [hsr, if_false] at htp'
    exact ⟨nt', ht', htp'⟩

/-! ## The double steps -/

theorem root_ne_of_ctx {st : SplayTree} {s : Ref} {G : Tree} {g : Nat}
    (hread : readRef st s = .ok (some g)) (hslot : SlotOK st s G) :
    ∀ b ∈ G.addrs, b ≠ g → st.root ≠ some b := by
  intro b hb hbg
  cases s with
  | root =>
    rw [readRef_root_eq hread]
    exact fun h => hbg (Option.some.inj h).symm
  | left z => exact hslot.1 b hb
  | right z => exact hslot.1 b hb

theorem zigzig_left {fuel : Nat} {st st' : SplayTree} {s : Ref} {A B C D : Tree}
    {t p g : Nat} {k pk gk e : Int}
    (hctx : Ctx st s (.node (.node (.node A t k B) p pk C) g gk D) k)
    (h : splayNode fuel st (some t) = .ok (e, st')) :
    ∃ T', StepOK st st' s (.node (.node (.node A t k B) p pk C) g gk D) T' k := by
  obtain ⟨hread, hrep, hbst, hown, hpath, hslot, hroot⟩ := hctx
  simp only [Tree.ptr] at hread hrep
  have hnd := hrep.nodup hbst
  obtain ⟨ng, P0, D0, hT, hg, hP, hD⟩ := hrep.cell
  cases hT
  have hgl : ng.left = some p := hP.ptr_eq
  rw [hgl] at hP
  obtain ⟨np, X0, C0, hT, hp, hX, hC⟩ := hP.cell
  cases hT
  have hpl : np.left = some t := hX.ptr_eq
  rw [hpl] at hX
  obtain ⟨nt, A0, B0, hT, ht, hA, hB⟩ := hX.cell
  cases hT
  rw [← hpl] at hX
  obtain ⟨hbP, _, hltg, _⟩ := bst_node hbst
  obtain ⟨_, _, hltp, _⟩ := bst_node hbP
  have hkp : nt.element < np.element := hltp _ (by simp [Tree.keys])
  have hkg : nt.element < ng.element := hltg _ (by simp [Tree.keys])
  simp only [PathOK, hkg, hkp, if_true, lt_irrefl, if_false, and_true] at hpath
  obtain ⟨⟨ng', hg', hgp⟩, ⟨np', hp', hpp⟩, nt', ht', htp⟩ := hpath
  rw [hg] at hg'; cases hg'
  rw [hp] at hp'; cases hp'
  rw [ht] at ht'; cases ht'
  obtain ⟨hndP, _, hgP, _, hPD⟩ := nodup_node hnd
  obtain ⟨_, _, hpX, _, hXC⟩ := nodup_node hndP
  have htg : t ≠ g := fun h => hgP (by simp [Tree.addrs, ← h])
  have hpg : p ≠ g := fun h => hgP (by simp [Tree.addrs, ← h])
  have htp' : t ≠ p := fun h => hpX (by simp [Tree.addrs, ← h])
  have hrt : st.root ≠ some t := root_ne_of_ctx hread hslot t (by simp [Tree.addrs]) htg
  have hrp : st.root ≠ some p := root_ne_of_ctx hread hslot p (by simp [Tree.addrs]) hpg
  have hpr : np.right ≠ some t := by
    intro h
    rw [h] at hC
    exact hXC t (by simp [Tree.addrs]) hC.mem_addrs
  have hgr : ng.right ≠ some p := by
    intro h
    rw [h] at hD
    exact hPD p (by simp [Tree.addrs]) hD.mem_addrs
  have hz : isZigZag st (some t) = .ok 0 := by
    rw [isZigZag_eq ht htp (LRChild_left hrt ht htp hp hpr hpl)
      (LRChild_left hrp hp hpp hg hgr hgl)]
    rfl
  obtain ⟨st1, st1b, st2, h1, h2, h3, h4⟩ := splayNode_zigzig ht htp hz h
  obtain ⟨R1, P1, keys1, perm1, hXfr, np1, hp1, hpp1⟩ :=
    rotate_left_child hread hg hgl hD hp hX hC hbst hown hpp
      (fun z hz => by rw [hgp, hz]) hslot h1
  obtain ⟨P1b, _, _, hfr1b, hsame1b, _⟩ := setParent_root_post P1 hroot hslot hown h2
  have hr1 : st1.root ≠ some t := by
    have := P1.2.2.2.2.1
    rw [this]
    split_ifs
    · simp only [Tree.ptr, ne_eq, Option.some.injEq]
      exact fun h => htp' h.symm
    · exact hrt
  refine finish_left hread hbst hown hslot hroot P1b keys1 perm1 ?_ ?_ h3 h4
  · refine ⟨nt, ?_, htp⟩
    rw [hfr1b t hr1, hXfr t (by simp [Tree.addrs]), ht]
  · intro z hz
    have hsr : s ≠ .root := by
      rintro rfl
      simp [Ref.owner] at hz
    rw [hsame1b hsr]
    simp only [hsr, if_false] at hpp1
    exact ⟨np1, hp1, hpp1.trans hz⟩

theorem zigzag_left {fuel : Nat} {st st' : SplayTree} {s : Ref} {A B C D : Tree}
    {t p g : Nat} {k pk gk e : Int}
    (hctx : Ctx st s (.node (.node A p pk (.node B t k C)) g gk D) k)
    (h : splayNode fuel st (some t) = .ok (e, st')) :
    ∃ T', StepOK st st' s (.node (.node A p pk (.node B t k C)) g gk D) T' k := by
  obtain ⟨hread, hrep, hbst, hown, hpath, hslot, hroot⟩ := hctx
  simp only [Tree.ptr] at hread hrep
  have hnd := hrep.nodup hbst
  obtain ⟨ng, P0, D0, hT, hg, hP, hD⟩ := hrep.cell
  cases hT
  have hgl : ng.left = some p := hP.ptr_eq
  rw [hgl] at hP
  obtain ⟨np, A0, X0, hT, hp, hA, hX⟩ := hP.cell
  cases hT
  have hpr : np.right = some t := hX.ptr_eq
  rw [hpr] at hX
  obtain ⟨nt, B0, C0, hT, ht, hB, hC⟩ := hX.cell
  cases hT
  obtain ⟨hbP, _, hltg, _⟩ := bst_node hbst
  obtain ⟨_, _, _, hgtp⟩ := bst_node hbP
  have hkp : np.element < nt.element := hgtp _ (by simp [Tree.keys])
  have hkg : nt.element < ng.element := hltg _ (by simp [Tree.keys])
  have hkp' : ¬ nt.element < np.element := by omega
  simp only [PathOK, hkg, hkp, hkp', if_true, lt_irrefl, if_false, and_true] at hpath
  obtain ⟨⟨ng', hg', hgp⟩, ⟨np', hp', hpp⟩, nt', ht', htp⟩ := hpath
  rw [hg] at hg'; cases hg'
  rw [hp] at hp'; cases hp'
  rw [ht] at ht'; cases ht'
  obtain ⟨hndP, _, hgP, _, hPD⟩ := nodup_node hnd
  obtain ⟨_, _, _, hpX, _⟩ := nodup_node hndP
  have htg : t ≠ g := fun h => hgP (by simp [Tree.addrs, ← h])
  have hpg : p ≠ g := fun h => hgP (by simp [Tree.addrs, ← h])
  have htp' : t ≠ p := fun h => hpX (by simp [Tree.addrs, ← h])
  have hrt : st.root ≠ some t := root_ne_of_ctx hread hslot t (by simp [Tree.addrs]) htg
  have hrp : st.root ≠ some p := root_ne_of_ctx hread hslot p (by simp [Tree.addrs]) hpg
  have hgr : ng.right ≠ some p := by
    intro h
    rw [h] at hD
    exact hPD p (by simp [Tree.addrs]) hD.mem_addrs
  have hz : isZigZag st (some t) = .ok 1 := by
    rw [isZigZag_eq ht htp (LRChild_right hrt ht htp hp hpr)
      (LRChild_left hrp hp hpp hg hgr hgl)]
    rfl
  obtain ⟨st1, st1b, st2, h1, h2, h3, h4⟩ := splayNode_zigzag ht htp hz h
  have hreadP : readRef st (.left g) = .ok (some p) := by
    simp [readRef, getLeft_cell hg, hgl]
  have hslotP : SlotOK st (.left g) (.node A p np.element (.node B t nt.element C)) := by
    refine ⟨?_, ng, hg, ?_⟩
    · intro b hb
      exact root_ne_of_ctx hread hslot b (by simp [Tree.addrs] at hb ⊢; tauto)
        (fun h => hgP (h ▸ hb))
    · intro b hb hr
      rw [hr] at hD
      exact hPD b hb hD.mem_addrs
  obtain ⟨R1, P1, keys1, perm1, _, nt1, ht1, htp1⟩ :=
    rotate_right_child hreadP hp hpr hA ht hC hB hbP
      (by intro c hc; simp only [Ref.owner, Option.some.injEq] at hc; exact hc ▸ hgP)
      htp (fun z hz => by
        simp only [Ref.owner, Option.some.injEq] at hz
        rw [hpp, hz]) hslotP h1
  obtain ⟨PG, _, hgc⟩ := Post.left hread hg rfl hD hnd hown P1
  have keysG : (Tree.node (.node R1 t nt.element C) g ng.element D).keys =
      (Tree.node (.node A p np.element (.node B t nt.element C)) g ng.element D).keys := by
    simp only [Tree.keys] at keys1 ⊢
    rw [keys1]
  have permG : (Tree.node (.node R1 t nt.element C) g ng.element D).addrs.Perm
      (Tree.node (.node A p np.element (.node B t nt.element C)) g ng.element D).addrs := by
    simp only [Tree.addrs] at perm1 ⊢
    exact perm1.append (List.Perm.refl _)
  obtain ⟨P1b, _, _, hfr1b, hsame1b, _⟩ := setParent_root_post PG hroot hslot hown h2
  have hr1 : st1.root ≠ some t := by
    have := P1.2.2.2.2.1
    simp only [reduceCtorEq, if_false] at this
    rw [this]
    exact hrt
  refine finish_left hread hbst hown hslot hroot P1b keysG permG ?_ ?_ h3 h4
  · refine ⟨nt1, ?_, ?_⟩
    · rw [hfr1b t hr1, ht1]
    · simpa [Ref.owner] using htp1
  · intro z hz
    have hsr : s ≠ .root := by
      rintro rfl
      simp [Ref.owner] at hz
    rw [hsame1b hsr]
    exact ⟨_, hgc, by simp [hgp, hz]⟩

theorem zigzig_right {fuel : Nat} {st st' : SplayTree} {s : Ref} {A B C D : Tree}
    {t p g : Nat} {k pk gk e : Int}
    (hctx : Ctx st s (.node D g gk (.node C p pk (.node B t k A))) k)
    (h : splayNode fuel st (some t) = .ok (e, st')) :
    ∃ T', StepOK st st' s (.node D g gk (.node C p pk (.node B t k A))) T' k := by
  obtain ⟨hread, hrep, hbst, hown, hpath, hslot, hroot⟩ := hctx
  simp only [Tree.ptr] at hread hrep
  have hnd := hrep.nodup hbst
  obtain ⟨ng, D0, P0, hT, hg, hD, hP⟩ := hrep.cell
  cases hT
  have hgr : ng.right = some p := hP.ptr_eq
  rw [hgr] at hP
  obtain ⟨np, C0, X0, hT, hp, hC, hX⟩ := hP.cell
  cases hT
  have hpr : np.right = some t := hX.ptr_eq
  rw [hpr] at hX
  obtain ⟨nt, B0, A0, hT, ht, hB, hA⟩ := hX.cell
  cases hT
  rw [← hpr] at hX
  obtain ⟨_, hbP, _, hgtg⟩ := bst_node hbst
  obtain ⟨_, _, _, hgtp⟩ := bst_node hbP
  have hkp : np.element < nt.element := hgtp _ (by simp [Tree.keys])
  have hkg : ng.element < nt.element := hgtg _ (by simp [Tree.keys])
  have hkp' : ¬ nt.element < np.element := by omega
  have hkg' : ¬ nt.element < ng.element := by omega
  simp only [PathOK, hkg, hkp, hkp', hkg', if_true, lt_irrefl, if_false, and_true] at hpath
  obtain ⟨⟨ng', hg', hgp⟩, ⟨np', hp', hpp⟩, nt', ht', htp⟩ := hpath
  rw [hg] at hg'; cases hg'
  rw [hp] at hp'; cases hp'
  rw [ht] at ht'; cases ht'
  obtain ⟨_, hndP, _, hgP, hDP⟩ := nodup_node hnd
  obtain ⟨_, _, _, hpX, _⟩ := nodup_node hndP
  have htg : t ≠ g := fun h => hgP (by simp [Tree.addrs, ← h])
  have hpg : p ≠ g := fun h => hgP (by simp [Tree.addrs, ← h])
  have hrt : st.root ≠ some t := root_ne_of_ctx hread hslot t (by simp [Tree.addrs]) htg
  have hrp : st.root ≠ some p := root_ne_of_ctx hread hslot p (by simp [Tree.addrs]) hpg
  have htp' : t ≠ p := fun h => hpX (by simp [Tree.addrs, ← h])
  have hz : isZigZag st (some t) = .ok 0 := by
    rw [isZigZag_eq ht htp (LRChild_right hrt ht htp hp hpr)
      (LRChild_right hrp hp hpp hg hgr)]
    rfl
  obtain ⟨st1, st1b, st2, h1, h2, h3, h4⟩ := splayNode_zigzig ht htp hz h
  obtain ⟨R1, P1, keys1, perm1, hXfr, np1, hp1, hpp1⟩ :=
    rotate_right_child hread hg hgr hD hp hX hC hbst hown hpp
      (fun z hz => by rw [hgp, hz]) hslot h1
  obtain ⟨P1b, _, _, hfr1b, hsame1b, _⟩ := setParent_root_post P1 hroot hslot hown h2
  have hr1 : st1.root ≠ some t := by
    have := P1.2.2.2.2.1
    rw [this]
    split_ifs
    · simp only [Tree.ptr, ne_eq, Option.some.injEq]
      exact fun h => htp' h.symm
    · exact hrt
  refine finish_right hread hbst hown hslot hroot P1b keys1 perm1 ?_ ?_ h3 h4
  · refine ⟨nt, ?_, htp⟩
    rw [hfr1b t hr1, hXfr t (by simp [Tree.addrs]), ht]
  · intro z hz
    have hsr : s ≠ .root := by
      rintro rfl
      simp [Ref.owner] at hz
    rw [hsame1b hsr]
    simp only [hsr, if_false] at hpp1
    exact ⟨np1, hp1, hpp1.trans hz⟩

theorem zigzag_right {fuel : Nat} {st st' : SplayTree} {s : Ref} {A B C D : Tree}
    {t p g : Nat} {k pk gk e : Int}
    (hctx : Ctx st s (.node D g gk (.node (.node B t k C) p pk A)) k)
    (h : splayNode fuel st (some t) = .ok (e, st')) :
    ∃ T', StepOK st st' s (.node D g gk (.node (.node B t k C) p pk A)) T' k := by
  obtain ⟨hread, hrep, hbst, hown, hpath, hslot, hroot⟩ := hctx
  simp only [Tree.ptr] at hread hrep
  have hnd := hrep.nodup hbst
  obtain ⟨ng, D0, P0, hT, hg, hD, hP⟩ := hrep.cell
  cases hT
  have hgr : ng.right = some p := hP.ptr_eq
  rw [hgr] at hP
  obtain ⟨np, X0, A0, hT, hp, hX, hA⟩ := hP.cell
  cases hT
  have hpl : np.left = some t := hX.ptr_eq
  rw [hpl] at hX
  obtain ⟨nt, B0, C0, hT, ht, hB, hC⟩ := hX.cell
  cases hT
  obtain ⟨_, hbP, _, hgtg⟩ := bst_node hbst
  obtain ⟨_, _, hltp, _⟩ := bst_node hbP
  have hkp : nt.element < np.element := hltp _ (by simp [Tree.keys])
  have hkg : ng.element < nt.element := hgtg _ (by simp [Tree.keys])
  have hkg' : ¬ nt.element < ng.element := by omega
  simp only [PathOK, hkg, hkp, hkg', if_true, lt_irrefl, if_false, and_true] at hpath
  obtain ⟨⟨ng', hg', hgp⟩, ⟨np', hp', hpp⟩, nt', ht', htp⟩ := hpath
  rw [hg] at hg'; cases hg'
  rw [hp] at hp'; cases hp'
  rw [ht] at ht'; cases ht'
  obtain ⟨_, hndP, _, hgP, hDP⟩ := nodup_node hnd
  obtain ⟨_, _, hpX, _, hXA⟩ := nodup_node hndP
  have htg : t ≠ g := fun h => hgP (by simp [Tree.addrs, ← h])
  have hpg : p ≠ g := fun h => hgP (by simp [Tree.addrs, ← h])
  have hrt : st.root ≠ some t := root_ne_of_ctx hread hslot t (by simp [Tree.addrs]) htg
  have hrp : st.root ≠ some p := root_ne_of_ctx hread hslot p (by simp [Tree.addrs]) hpg
  have hpr : np.right ≠ some t := by
    intro h
    rw [h] at hA
    exact hXA t (by simp [Tree.addrs]) hA.mem_addrs
  have hz : isZigZag st (some t) = .ok 1 := by
    rw [isZigZag_eq ht htp (LRChild_left hrt ht htp hp hpr hpl)
      (LRChild_right hrp hp hpp hg hgr)]
    rfl
  obtain ⟨st1, st1b, st2, h1, h2, h3, h4⟩ := splayNode_zigzag ht htp hz h
  have hreadP : readRef st (.right g) = .ok (some p) := by
    simp [readRef, getRight_cell hg, hgr]
  have hslotP : SlotOK st (.right g) (.node (.node B t nt.element C) p np.element A) := by
    refine ⟨?_, ng, hg, ?_⟩
    · intro b hb
      exact root_ne_of_ctx hread hslot b (by simp [Tree.addrs] at hb ⊢; tauto)
        (fun h => hgP (h ▸ hb))
    · intro b hb hr
      rw [hr] at hD
      exact hDP b hD.mem_addrs hb
  obtain ⟨R1, P1, keys1, perm1, _, nt1, ht1, htp1⟩ :=
    rotate_left_child hreadP hp hpl hA ht hB hC hbP
      (by intro c hc; simp only [Ref.owner, Option.some.injEq] at hc; exact hc ▸ hgP)
      htp (fun z hz => by
        simp only [Ref.owner, Option.some.injEq] at hz
        rw [hpp, hz]) hslotP h1
  obtain ⟨PG, _, hgc⟩ := Post.right hread hg rfl hD hnd hown P1
  have keysG : (Tree.node D g ng.element (.node B t nt.element R1)).keys =
      (Tree.node D g ng.element (.node (.node B t nt.element C) p np.element A)).keys := by
    simp only [Tree.keys] at keys1 ⊢
    rw [keys1]
  have permG : (Tree.node D g ng.element (.node B t nt.element R1)).addrs.Perm
      (Tree.node D g ng.element (.node (.node B t nt.element C) p np.element A)).addrs := by
    simp only [Tree.addrs] at perm1 ⊢
    exact (List.Perm.refl _).append (List.Perm.cons _ perm1)
  obtain ⟨P1b, _, _, hfr1b, hsame1b, _⟩ := setParent_root_post PG hroot hslot hown h2
  have hr1 : st1.root ≠ some t := by
    have := P1.2.2.2.2.1
    simp only [reduceCtorEq, if_false] at this
    rw [this]
    exact hrt
  refine finish_right hread hbst hown hslot hroot P1b keysG permG ?_ ?_ h3 h4
  · refine ⟨nt1, ?_, ?_⟩
    · rw [hfr1b t hr1, ht1]
    · simpa [Ref.owner] using htp1
  · intro z hz
    have hsr : s ≠ .root := by
      rintro rfl
      simp [Ref.owner] at hz
    rw [hsame1b hsr]
    exact ⟨_, hgc, by simp [hgp, hz]⟩

/-! ## The splay step at any depth -/

theorem Ctx.down_left {st : SplayTree} {s : Ref} {l r : Tree} {a : Nat} {key k : Int}
    (h : Ctx st s (.node l a key r) k) (hk : k < key) : Ctx st (.left a) l k := by
  obtain ⟨hread, hrep, hbst, hown, hpath, hslot, hroot⟩ := h
  simp only [Tree.ptr] at hread hrep
  have hnd := hrep.nodup hbst
  obtain ⟨n, l0, r0, hT, hc, hl, hr⟩ := hrep.cell
  cases hT
  obtain ⟨_, _, hal, _, hdis⟩ := nodup_node hnd
  simp only [PathOK, hk, if_true] at hpath
  refine ⟨by simp [readRef, getLeft_cell hc, hl.ptr_eq], hl.ptr_eq ▸ hl, (bst_node hbst).1,
    ?_, hpath.2, ⟨?_, n, hc, ?_⟩, hroot⟩
  · intro c hc'
    simp only [Ref.owner, Option.some.injEq] at hc'
    exact hc' ▸ hal
  · intro b hb
    exact root_ne_of_ctx hread hslot b (by simp [Tree.addrs, hb]) (fun h => hal (h ▸ hb))
  · intro b hb h
    rw [h] at hr
    exact hdis b hb hr.mem_addrs

theorem Ctx.down_right {st : SplayTree} {s : Ref} {l r : Tree} {a : Nat} {key k : Int}
    (h : Ctx st s (.node l a key r) k) (hk : key < k) : Ctx st (.right a) r k := by
  obtain ⟨hread, hrep, hbst, hown, hpath, hslot, hroot⟩ := h
  simp only [Tree.ptr] at hread hrep
  have hnd := hrep.nodup hbst
  obtain ⟨n, l0, r0, hT, hc, hl, hr⟩ := hrep.cell
  cases hT
  obtain ⟨_, _, _, har, hdis⟩ := nodup_node hnd
  have hk' : ¬ k < n.element := by omega
  simp only [PathOK, hk, hk', if_true, if_false] at hpath
  refine ⟨by simp [readRef, getRight_cell hc, hr.ptr_eq], hr.ptr_eq ▸ hr, (bst_node hbst).2.1,
    ?_, hpath.2, ⟨?_, n, hc, ?_⟩, hroot⟩
  · intro c hc'
    simp only [Ref.owner, Option.some.injEq] at hc'
    exact hc' ▸ har
  · intro b hb
    exact root_ne_of_ctx hread hslot b (by simp [Tree.addrs, hb]) (fun h => har (h ▸ hb))
  · intro b hb h
    rw [h] at hl
    exact hdis b hl.mem_addrs hb

theorem StepOK.up_left {st st' : SplayTree} {s : Ref} {l l' r : Tree} {a : Nat} {key k : Int}
    (h : Ctx st s (.node l a key r) k) (hk : k < key) (hs : StepOK st st' (.left a) l l' k) :
    StepOK st st' s (.node l a key r) (.node l' a key r) k := by
  obtain ⟨hread, hrep, hbst, hown, hpath, hslot, hroot⟩ := h
  simp only [Tree.ptr] at hread hrep
  have hnd := hrep.nodup hbst
  obtain ⟨n, l0, r0, hT, hc, hl, hr⟩ := hrep.cell
  cases hT
  obtain ⟨hP, hkeys, hperm, hpath', hroot'⟩ := hs
  obtain ⟨P, _, hca⟩ := Post.left hread hc rfl hr hnd hown hP
  simp only [PathOK, hk, if_true] at hpath
  obtain ⟨⟨n', hn', hnp⟩, _⟩ := hpath
  rw [hc] at hn'
  cases hn'
  refine ⟨P, ?_, ?_, ?_, hroot'⟩
  · simp [Tree.keys, hkeys]
  · simp only [Tree.addrs]
    exact hperm.append (List.Perm.refl _)
  · simp only [PathOK, hk, if_true]
    exact ⟨⟨_, hca, hnp⟩, hpath'⟩

theorem StepOK.up_right {st st' : SplayTree} {s : Ref} {l r r' : Tree} {a : Nat} {key k : Int}
    (h : Ctx st s (.node l a key r) k) (hk : key < k) (hs : StepOK st st' (.right a) r r' k) :
    StepOK st st' s (.node l a key r) (.node l a key r') k := by
  obtain ⟨hread, hrep, hbst, hown, hpath, hslot, hroot⟩ := h
  simp only [Tree.ptr] at hread hrep
  have hnd := hrep.nodup hbst
  obtain ⟨n, l0, r0, hT, hc, hl, hr⟩ := hrep.cell
  cases hT
  obtain ⟨hP, hkeys, hperm, hpath', hroot'⟩ := hs
  obtain ⟨P, _, hca⟩ := Post.right hread hc rfl hl hnd hown hP
  have hk' : ¬ k < n.element := by omega
  simp only [PathOK, hk, hk', if_true, if_false] at hpath
  obtain ⟨⟨n', hn', hnp⟩, _⟩ := hpath
  rw [hc] at hn'
  cases hn'
  refine ⟨P, ?_, ?_, ?_, hroot'⟩
  · simp [Tree.keys, hkeys]
  · simp only [Tree.addrs]
    exact (List.Perm.refl _).append (List.Perm.cons _ hperm)
  · simp only [PathOK, hk, hk', if_true, if_false]
    exact ⟨⟨_, hca, hnp⟩, hpath'⟩

theorem depthOf_zero {T : Tree} {k : Int} (hk : k ∈ T.keys) (hd : T.depthOf k = 0) :
    ∃ A t B, T = .node A t k B := by
  cases T with
  | nil => simp [Tree.keys] at hk
  | node l a key r =>
    simp only [Tree.depthOf] at hd
    split_ifs at hd with h1 h2
    have : key = k := by omega
    exact ⟨l, a, r, by rw [this]⟩

theorem mem_left_of_lt {l r : Tree} {a : Nat} {key k : Int}
    (hb : (Tree.node l a key r).keys.Pairwise (· < ·)) (hk : k ∈ (Tree.node l a key r).keys)
    (hlt : k < key) : k ∈ l.keys := by
  obtain ⟨_, _, _, hgt⟩ := bst_node hb
  simp only [Tree.keys, List.mem_append, List.mem_cons] at hk
  rcases hk with h | h | h
  · exact h
  · omega
  · have := hgt k h; omega

theorem mem_right_of_lt {l r : Tree} {a : Nat} {key k : Int}
    (hb : (Tree.node l a key r).keys.Pairwise (· < ·)) (hk : k ∈ (Tree.node l a key r).keys)
    (hlt : key < k) : k ∈ r.keys := by
  obtain ⟨_, _, hl, _⟩ := bst_node hb
  simp only [Tree.keys, List.mem_append, List.mem_cons] at hk
  rcases hk with h | h | h
  · have := hl k h; omega
  · omega
  · exact h

theorem splayStep_deep (k : Int) (fuel : Nat) (e : Int) :
    ∀ (T : Tree) (s : Ref) (st st' : SplayTree), Ctx st s T k → k ∈ T.keys →
    2 ≤ T.depthOf k → splayNode fuel st (T.addrOf k) = .ok (e, st') →
    ∃ T', StepOK st st' s T T' k := by
  intro T
  induction T with
  | nil => intro s st st' _ hk; simp [Tree.keys] at hk
  | node l a key r ihl ihr =>
    intro s st st' hctx hk hd h
    have hbst := hctx.2.2.1
    simp only [Tree.depthOf] at hd
    simp only [Tree.addrOf] at h
    split_ifs at hd h with h1 h2
    · -- the key is in the left subtree
      have hkl := mem_left_of_lt hbst hk h1
      by_cases hdl : 2 ≤ l.depthOf k
      · obtain ⟨T1, hs⟩ := ihl (.left a) st st' (hctx.down_left h1) hkl hdl h
        exact ⟨_, StepOK.up_left hctx h1 hs⟩
      · cases l with
        | nil => simp [Tree.keys] at hkl
        | node ll p pk lr =>
          have hbl := (bst_node hbst).1
          simp only [Tree.depthOf] at hd hdl
          simp only [Tree.addrOf] at h
          split_ifs at hd hdl h with h3 h4
          · have hkll := mem_left_of_lt hbl hkl h3
            obtain ⟨A, t, B, rfl⟩ := depthOf_zero hkll (by omega)
            simp only [Tree.addrOf, lt_irrefl, if_false] at h
            exact zigzig_left hctx h
          · have hklr := mem_right_of_lt hbl hkl h4
            obtain ⟨B, t, C, rfl⟩ := depthOf_zero hklr (by omega)
            simp only [Tree.addrOf, lt_irrefl, if_false] at h
            exact zigzag_left hctx h
          · omega
    · -- the key is in the right subtree
      have hkr := mem_right_of_lt hbst hk h2
      by_cases hdr : 2 ≤ r.depthOf k
      · obtain ⟨T1, hs⟩ := ihr (.right a) st st' (hctx.down_right h2) hkr hdr h
        exact ⟨_, StepOK.up_right hctx h2 hs⟩
      · cases r with
        | nil => simp [Tree.keys] at hkr
        | node rl p pk rr =>
          have hbr := (bst_node hbst).2.1
          simp only [Tree.depthOf] at hd hdr
          simp only [Tree.addrOf] at h
          split_ifs at hd hdr h with h3 h4
          · have hkrl := mem_left_of_lt hbr hkr h3
            obtain ⟨B, t, C, rfl⟩ := depthOf_zero hkrl (by omega)
            simp only [Tree.addrOf, lt_irrefl, if_false] at h
            exact zigzag_right hctx h
          · have hkrr := mem_right_of_lt hbr hkr h4
            obtain ⟨B, t, A, rfl⟩ := depthOf_zero hkrr (by omega)
            simp only [Tree.addrOf, lt_irrefl, if_false] at h
            exact zigzig_right hctx h
          · omega
    · omega

/-! ## The splay step one level below the root -/

theorem zig_root {fuel : Nat} {st st' : SplayTree} {T : Tree} {k e : Int}
    (hctx : Ctx st .root T k) (hk : k ∈ T.keys) (hd : T.depthOf k = 1)
    (h : splayNode fuel st (T.addrOf k) = .ok (e, st')) :
    ∃ T', Rep st'.heap st'.root T' ∧ T'.keys = T.keys ∧ T'.addrs.Perm T.addrs ∧
      st'.root = T.addrOf k ∧ st'.ITEM_NOT_FOUND = st.ITEM_NOT_FOUND := by
  obtain ⟨hread, hrep, hbst, hown, hpath, hslot, hroot⟩ := hctx
  cases T with
  | nil => simp [Tree.keys] at hk
  | node l y yk r =>
    simp only [Tree.ptr] at hread hrep
    have hry := readRef_root_eq hread
    have hnd := hrep.nodup hbst
    obtain ⟨ny, l0, r0, hT, hy, hl, hr⟩ := hrep.cell
    cases hT
    obtain ⟨_, _, hyl, hyr, hdis⟩ := nodup_node hnd
    simp only [Tree.depthOf] at hd
    simp only [Tree.addrOf] at h ⊢
    simp only [PathOK] at hpath
    split_ifs at hd h hpath ⊢ with h1 h2
    · have hkl := mem_left_of_lt hbst hk h1
      obtain ⟨A, x, B, rfl⟩ := depthOf_zero hkl (by omega)
      simp only [Tree.addrOf, lt_irrefl, if_false] at h ⊢
      obtain ⟨nx, A0, B0, hT, hx, hA, hB⟩ := (hl.ptr_eq ▸ hl).cell
      cases hT
      obtain ⟨_, ⟨nx', hx', hxp⟩, _⟩ := hpath
      rw [hx] at hx'
      cases hx'
      have hxy : x ≠ y := fun h => hyl (by simp [Tree.addrs, ← h])
      have hnr : ny.right ≠ some x := by
        intro h
        rw [h] at hr
        exact hdis x (by simp [Tree.addrs]) hr.mem_addrs
      have hC := LRChild_left (by rw [hry]; exact fun h => hxy (Option.some.inj h).symm) hx hxp
        hy hnr hl.ptr_eq
      have hz := isZigZag_eq hx hxp hC (LRChild_root hry)
      simp only [if_true] at hz
      have hrot := splayNode_zig hx hxp hz h
      obtain ⟨R', hP, hkeys, hperm, _, _⟩ := rotate_left_child hread hy hl.ptr_eq hr hx hA hB
        hbst hown hxp (by intro z hz; simp [Ref.owner] at hz) hslot hrot
      refine ⟨_, ?_, hkeys, hperm, ?_, hP.1⟩
      · have := hP.2.2.2.2.1
        simp only [if_true] at this
        rw [this]
        exact hP.2.1
      · have := hP.2.2.2.2.1
        simpa [Tree.ptr] using this
    · have hkr := mem_right_of_lt hbst hk h2
      obtain ⟨B, x, A, rfl⟩ := depthOf_zero hkr (by omega)
      simp only [Tree.addrOf, lt_irrefl, if_false] at h ⊢
      obtain ⟨nx, B0, A0, hT, hx, hB, hA⟩ := (hr.ptr_eq ▸ hr).cell
      cases hT
      obtain ⟨_, ⟨nx', hx', hxp⟩, _⟩ := hpath
      rw [hx] at hx'
      cases hx'
      have hxy : x ≠ y := fun h => hyr (by simp [Tree.addrs, ← h])
      have hC := LRChild_right (by rw [hry]; exact fun h => hxy (Option.some.inj h).symm) hx hxp
        hy hr.ptr_eq
      have hz := isZigZag_eq hx hxp hC (LRChild_root hry)
      simp only [if_true] at hz
      have hrot := splayNode_zig hx hxp hz h
      obtain ⟨R', hP, hkeys, hperm, _, _⟩ := rotate_right_child hread hy hr.ptr_eq hl hx hA hB
        hbst hown hxp (by intro z hz; simp [Ref.owner] at hz) hslot hrot
      refine ⟨_, ?_, hkeys, hperm, ?_, hP.1⟩
      · have := hP.2.2.2.2.1
        simp only [if_true] at this
        rw [this]
        exact hP.2.1
      · have := hP.2.2.2.2.1
        simpa [Tree.ptr] using this

/-! ## The splay loop keeps the in-order sequence -/

theorem splayLoop_inv (k : Int) : ∀ (fuel : Nat) (st st' : SplayTree) (T : Tree) (v : Ptr),
    Ctx st .root T k → k ∈ T.keys → splayLoop fuel st k v = .ok st' →
    ∃ T', Rep st'.heap st'.root T' ∧ T'.keys = T.keys ∧ T'.addrs.Perm T.addrs ∧
      st'.ITEM_NOT_FOUND = st.ITEM_NOT_FOUND := by
  intro fuel
  induction fuel with
  | zero => intro st st' T v _ _ h; simp [splayLoop] at h
  | succ f ih =>
    intro st st' T v hctx hk h
    have hread := hctx.1
    have hroot := readRef_root_eq hread
    have hrep : Rep st.heap st.root T := hroot ▸ hctx.2.1
    simp only [splayLoop] at h
    split_ifs at h with hv
    · cases hf : findAt f st k st.root with
      | error err => simp [hf, bind, Except.bind] at h
      | ok q =>
        have hq := findAt_addrOf k hrep f q hf
        subst hq
        cases hs : splayNode f st (T.addrOf k) with
        | error err => simp [hf, hs, bind, Except.bind] at h
        | ok pr =>
          obtain ⟨e, st1⟩ := pr
          simp only [hf, hs, bind, Except.bind] at h
          by_cases d0 : T.depthOf k = 0
          · obtain ⟨A, t, B, rfl⟩ := depthOf_zero hk d0
            simp only [Tree.addrOf, lt_irrefl, if_false] at hs
            obtain ⟨ρ, n, hρ, hn, hnp⟩ := hctx.2.2.2.2.2.2
            simp only [Tree.ptr] at hroot
            rw [hroot] at hρ
            cases hρ
            have := splayNode_no_parent hn hnp hs
            subst this
            exact ih _ _ _ _ hctx hk h
          · by_cases d1 : T.depthOf k = 1
            · obtain ⟨T1, hrep1, hkeys, hperm, hroot1, hinf⟩ := zig_root hctx hk d1 hs
              cases f with
              | zero => simp [splayLoop] at h
              | succ g =>
                simp only [splayLoop, hroot1, ne_eq, not_true_eq_false, if_false, pure,
                  Except.pure, Except.ok.injEq] at h
                subst h
                exact ⟨T1, hrep1, hkeys, hperm, hinf⟩
            · obtain ⟨T1, hP, hkeys, hperm, hpath1, hroot1⟩ :=
                splayStep_deep k f e T .root st st1 hctx hk (by omega) hs
              have hown : ∀ c, Ref.root.owner = some c → c ∉ T.addrs := by
                intro c hc; simp [Ref.owner] at hc
              have hctx1 : Ctx st1 .root T1 k :=
                ⟨hP.readRef hread hown, hP.2.1, hkeys ▸ hctx.2.2.1,
                  by intro c hc; simp [Ref.owner] at hc, hpath1, trivial, hroot1⟩
              obtain ⟨T2, hrep2, hkeys2, hperm2, hinf2⟩ :=
                ih _ _ _ _ hctx1 (hkeys ▸ hk) h
              exact ⟨T2, hrep2, hkeys2.trans hkeys, hperm2.trans hperm, hinf2.trans hP.1⟩
    · simp only [pure, Except.pure, Except.ok.injEq] at h
      subst h
      exact ⟨T, hrep, rfl, List.Perm.refl _, rfl⟩

theorem splay_inv {fuel : Nat} {st st' : SplayTree} {T : Tree} {k r : Int}
    (hctx : Ctx st .root T k) (hk : k ∈ T.keys) (h : splay fuel k st = .ok (r, st')) :
    ∃ T', Rep st'.heap st'.root T' ∧ T'.keys = T.keys ∧ T'.addrs.Perm T.addrs ∧
      st'.ITEM_NOT_FOUND = st.ITEM_NOT_FOUND := by
  have hroot := readRef_root_eq hctx.1
  have hrep : Rep st.heap st.root T := hroot ▸ hctx.2.1
  simp only [splay] at h
  split_ifs at h with h0
  · simp only [pure, Except.pure, Except.ok.injEq, Prod.mk.injEq] at h
    rw [← h.2]
    exact ⟨T, hrep, rfl, List.Perm.refl _, rfl⟩
  · cases he : getElement st st.root with
    | error err => simp [he, bind, Except.bind] at h
    | ok e0 =>
      simp only [he, bind, Except.bind] at h
      split_ifs at h with h1
      · simp only [pure, Except.pure, Except.ok.injEq, Prod.mk.injEq] at h
        rw [← h.2]
        exact ⟨T, hrep, rfl, List.Perm.refl _, rfl⟩
      · cases hl : splayLoop fuel st k none with
        | error err => simp [hl] at h
        | ok st1 =>
          simp only [hl, pure, Except.pure, Except.ok.injEq, Prod.mk.injEq] at h
          rw [← h.2]
          exact splayLoop_inv k fuel st st1 T none hctx hk hl

/-! ## Trees built by inserts -/

theorem height_le_addrs (T : Tree) : T.height ≤ T.addrs.length := by
  induction T with
  | nil => simp [Tree.height]
  | node l a k r ihl ihr =>
    simp only [Tree.height, Tree.addrs, List.length_append, List.length_cons]
    omega

theorem ins_addrs_length (n : Nat) (x : Int) (T : Tree) :
    (T.ins n x).addrs.length ≤ T.addrs.length + 1 := by
  induction T with
  | nil => simp [Tree.ins, Tree.addrs]
  | node l a k r ihl ihr =>
    simp only [Tree.ins]
    split_ifs <;> simp only [Tree.addrs, List.length_append, List.length_cons] <;> omega

theorem ParentsOK.path {h : Heap} (k : Int) : ∀ {T : Tree} {par : Ptr},
    ParentsOK h par T → PathOK h k par T := by
  intro T
  induction T with
  | nil => intro par _; trivial
  | node l a key r ihl ihr =>
    intro par hp
    obtain ⟨h1, h2, h3⟩ := hp
    refine ⟨h1, ?_⟩
    split_ifs
    · exact ihl h2
    · exact ihr h3

theorem insert_parents {st : SplayTree} {T : Tree} (x : Int) {fuel : Nat} (h : IsBST st T)
    (hp : ParentsOK st.heap none T) (hf : T.height < fuel) :
    ∃ st', insert fuel x st = .ok st' ∧ IsBST st' (T.ins st.heap.length x) ∧
      ParentsOK st'.heap none (T.ins st.heap.length x) ∧
      st'.ITEM_NOT_FOUND = st.ITEM_NOT_FOUND := by
  obtain ⟨st', hst', hb', hinf⟩ := insert_bst x h hf
  refine ⟨st', hst', hb', ?_, hinf⟩
  have hpt := h.1.ptr_eq
  have := insertAt_parents x T fuel st st' .root (by simp [readRef, hpt]) (hpt ▸ h.1) h.2
    (by simp [Ref.owner]) hf hst' none hp
  simpa using this

theorem build_inv : ∀ (xs : List Int) (st : SplayTree) (T : Tree) (fuel : Nat),
    IsBST st T → ParentsOK st.heap none T → T.addrs.length + xs.length < fuel →
    ∃ st' T', runOps fuel (xs.map Op.insert) st = .ok st' ∧ IsBST st' T' ∧
      ParentsOK st'.heap none T' ∧ T'.addrs.length ≤ T.addrs.length + xs.length ∧
      (∀ y, y ∈ T'.keys ↔ y ∈ T.keys ∨ y ∈ xs) ∧
      st'.ITEM_NOT_FOUND = st.ITEM_NOT_FOUND := by
  intro xs
  induction xs with
  | nil =>
    intro st T fuel h hp _
    exact ⟨st, T, rfl, h, hp, by simp, by simp, rfl⟩
  | cons x xs ih =>
    intro st T fuel h hp hf
    simp only [List.length_cons] at hf
    have hh := height_le_addrs T
    obtain ⟨st1, hst1, h1, hp1, hi1⟩ := insert_parents x h hp (by omega : T.height < fuel)
    have hl := ins_addrs_length st.heap.length x T
    obtain ⟨st', T', hrun, h', hp', hlen, hkeys, hi'⟩ := ih st1 _ fuel h1 hp1 (by omega)
    refine ⟨st', T', ?_, h', hp', by simp only [List.length_cons]; omega, ?_, hi'.trans hi1⟩
    · simp only [List.map_cons, runOps, Op.run, hst1, bind, Except.bind]
      exact hrun
    · intro y
      rw [hkeys, ins_keys_mem, List.mem_cons]
      tauto

theorem build_ok {xs : List Int} {fuel : Nat} (hf : xs.length < fuel) :
    ∃ st T, build fuel xs = .ok st ∧ IsBST st T ∧ ParentsOK st.heap none T ∧
      T.addrs.length ≤ xs.length ∧ (∀ y, y ∈ T.keys ↔ y ∈ xs) ∧ st.ITEM_NOT_FOUND = 0 := by
  obtain ⟨st, T, h1, h2, h3, h4, h5, h6⟩ :=
    build_inv xs (empty 0) .nil fuel (empty_bst 0) trivial (by simpa [Tree.addrs] using hf)
  exact ⟨st, T, h1, h2, h3, by simpa [Tree.addrs] using h4, by simpa [Tree.keys] using h5, h6⟩

theorem ctx_of_parents {st : SplayTree} {T : Tree} {k : Int} (h : IsBST st T)
    (hp : ParentsOK st.heap none T) (hk : k ∈ T.keys) : Ctx st .root T k := by
  have hpt := h.1.ptr_eq
  refine ⟨by simp [readRef, hpt], hpt ▸ h.1, h.2, by simp [Ref.owner], hp.path k, trivial, ?_⟩
  cases T with
  | nil => simp [Tree.keys] at hk
  | node l a key r =>
    obtain ⟨⟨n, hn, hnp⟩, _⟩ := hp
    exact ⟨a, n, hpt, hn, hnp⟩

/-! ## Uniqueness of the represented tree -/

theorem Rep.unique {h : Heap} {p : Ptr} {T : Tree} (hr : Rep h p T) :
    ∀ {U : Tree}, Rep h p U → U = T := by
  induction hr with
  | nil => intro U hU; exact Rep.nil_iff.mp hU
  | @node a n l r k hc hk _ _ ihl ihr =>
    intro U hU
    obtain ⟨n', l', r', hT, hc', hl', hr'⟩ := hU.cell
    rw [hc] at hc'
    cases hc'
    rw [hT, ihl hl', ihr hr', hk]

theorem tree58_rep : Rep tree58.heap tree58.root shape58 :=
  Rep.node (n := ⟨5, none, some 1, none⟩) rfl rfl Rep.nil
    (Rep.node (n := ⟨8, none, none, some 0⟩) rfl rfl Rep.nil Rep.nil)

theorem tree85_rep : Rep tree85.heap tree85.root shape85 :=
  Rep.node (n := ⟨8, some 0, none, some 0⟩) rfl rfl
    (Rep.node (n := ⟨5, none, none, some 1⟩) rfl rfl Rep.nil Rep.nil) Rep.nil

theorem tree9534_rep : Rep tree9534.heap tree9534.root shape9534 :=
  Rep.node (n := ⟨9, some 1, none, none⟩) rfl rfl
    (Rep.node (n := ⟨5, some 2, none, some 0⟩) rfl rfl
      (Rep.node (n := ⟨3, none, some 3, some 1⟩) rfl rfl Rep.nil
        (Rep.node (n := ⟨4, none, none, some 2⟩) rfl rfl Rep.nil Rep.nil)) Rep.nil) Rep.nil

/-! ## The splitting removal -/

theorem tree538_rep : Rep tree538.heap tree538.root shape538 :=
  Rep.node (n := ⟨5, some 1, some 2, none⟩) rfl rfl
    (Rep.node (n := ⟨3, none, none, some 0⟩) rfl rfl Rep.nil Rep.nil)
    (Rep.node (n := ⟨8, none, none, some 0⟩) rfl rfl Rep.nil Rep.nil)

theorem insertNode_null_target (fuel : Nat) (st : SplayTree) {x : Nat} {nx : SplayNode}
    (hx : st.heap[x]? = some (some nx)) :
    insertNode (fuel + 1) st (some x) none = .error .null := by
  have h1 : getElement { st with root := some x } (some x) = .ok nx.element :=
    getElement_cell (s := { st with root := some x }) hx
  have h2 : getElement { st with root := some x } none = .error .null := rfl
  simp only [insertNode, if_true, h1, h2, bind, Except.bind]

theorem Sremove_stops {st : SplayTree} {l r : Tree} {a : Nat} {k : Int} (value : Int)
    (h : Rep st.heap st.root (.node l a k r)) (hl : l ≠ .nil) :
    (∀ fuel res, Sremove fuel value st ≠ .ok res) ∧
      ∀ fuel, l.height < fuel → Sremove fuel value st = .error .null := by
  have hroot : st.root = some a := h.ptr_eq
  rw [hroot] at h
  obtain ⟨n, l0, r0, hT, hc, hrl, hrr⟩ := h.cell
  cases hT
  cases l with
  | nil => exact absurd rfl hl
  | node ll x lk lr =>
    have hlp : n.left = some x := hrl.ptr_eq
    rw [hlp] at hrl
    obtain ⟨nx, _, _, _, hx, _, _⟩ := hrl.cell
    have key : ∀ fuel, Sremove fuel value st = .error .null ∨
        Sremove fuel value st = .error .fuel ∨
        ∃ e, findMinAt fuel st (some x) = .error e ∧ Sremove fuel value st = .error e := by
      intro fuel
      cases hm : findMinAt fuel st (some x) with
      | error e =>
        right; right
        exact ⟨e, rfl, by simp [Sremove, hroot, getLeft_cell hc, getRight_cell hc, hlp, hm,
          bind, Except.bind]⟩
      | ok q =>
        cases fuel with
        | zero => simp [findMinAt] at hm
        | succ f =>
          left
          have hi := insertNode_null_target f
            { heap := st.heap, root := none, ITEM_NOT_FOUND := st.ITEM_NOT_FOUND } hx
          simp [Sremove, hroot, getLeft_cell hc, getRight_cell hc, hlp, hm, hi, bind,
            Except.bind]
    refine ⟨?_, ?_⟩
    · intro fuel res hres
      rcases key fuel with h1 | h1 | ⟨e, _, h1⟩ <;> rw [h1] at hres <;> cases hres
    · intro fuel hf
      rcases key fuel with h1 | h1 | ⟨e, he, h1⟩
      · exact h1
      · cases fuel with
        | zero => omega
        | succ f =>
          obtain ⟨q, hq, _⟩ := findMinAt_rep hrl (f + 1) hf
          have hi := insertNode_null_target f
            { heap := st.heap, root := none, ITEM_NOT_FOUND := st.ITEM_NOT_FOUND } hx
          simp [Sremove, hroot, getLeft_cell hc, getRight_cell hc, hlp, hq, hi, bind,
            Except.bind]
      · obtain ⟨q, hq, _⟩ := findMinAt_rep hrl fuel hf
        rw [hq] at he
        cases he

/-! ## Parent-consistent trees -/

theorem ParentsOK.child {h : Heap} : ∀ {T : Tree} {par q : Ptr}, Rep h q T →
    ParentsOK h par T → T.addrs.Nodup → ∀ t ∈ T.addrs,
    ∃ nt, h[t]? = some (some nt) ∧
      ((T.ptr = some t ∧ nt.parent = par) ∨
        (T.ptr ≠ some t ∧ ∃ p np, p ∈ T.addrs ∧ nt.parent = some p ∧
          h[p]? = some (some np) ∧
          ((np.left = some t ∧ np.right ≠ some t) ∨
            (np.right = some t ∧ np.left ≠ some t)))) := by
  intro T
  induction T with
  | nil => intro par q _ _ _ t ht; simp [Tree.addrs] at ht
  | node l a k r ihl ihr =>
    intro par q hrep hpar hnd t ht
    have hq := hrep.ptr_eq
    simp only [Tree.ptr] at hq
    subst hq
    obtain ⟨n, l0, r0, hT, hc, hl, hr⟩ := hrep.cell
    cases hT
    obtain ⟨⟨n', hn', hnp⟩, hpl, hpr⟩ := hpar
    rw [hc] at hn'
    cases hn'
    obtain ⟨hndl, hndr, hal, har, hdis⟩ := nodup_node hnd
    simp only [Tree.addrs, List.mem_append, List.mem_cons] at ht
    rcases ht with ht | ht | ht
    · have hta : t ≠ a := fun e => hal (e ▸ ht)
      obtain ⟨nt, hnt, hcase⟩ := ihl hl hpl hndl t ht
      refine ⟨nt, hnt, Or.inr ⟨by simpa [Tree.ptr] using Ne.symm hta, ?_⟩⟩
      rcases hcase with ⟨h1, h2⟩ | ⟨_, p, np, hp, h2, h3, h4⟩
      · refine ⟨a, n, by simp [Tree.addrs], h2, hc, Or.inl ⟨hl.ptr_eq.trans h1, ?_⟩⟩
        intro e
        rw [e] at hr
        exact hdis t ht hr.mem_addrs
      · exact ⟨p, np, by simp [Tree.addrs, hp], h2, h3, h4⟩
    · subst ht
      exact ⟨n, hc, Or.inl ⟨rfl, hnp⟩⟩
    · have hta : t ≠ a := fun e => har (e ▸ ht)
      obtain ⟨nt, hnt, hcase⟩ := ihr hr hpr hndr t ht
      refine ⟨nt, hnt, Or.inr ⟨by simpa [Tree.ptr] using Ne.symm hta, ?_⟩⟩
      rcases hcase with ⟨h1, h2⟩ | ⟨_, p, np, hp, h2, h3, h4⟩
      · refine ⟨a, n, by simp [Tree.addrs], h2, hc, Or.inr ⟨hr.ptr_eq.trans h1, ?_⟩⟩
        intro e
        rw [e] at hl
        exact hdis t hl.mem_addrs ht
      · exact ⟨p, np, by simp [Tree.addrs, hp], h2, h3, h4⟩

theorem LRChild_of_child {st : SplayTree} {T : Tree} {t p : Nat} {nt np : SplayNode}
    (hrep : Rep st.heap st.root T) (hnd : T.addrs.Nodup) (hpar : ParentsOK st.heap none T)
    (ht : t ∈ T.addrs) (hct : st.heap[t]? = some (some nt)) (htp : nt.parent = some p)
    (hcp : st.heap[p]? = some (some np)) :
    p ∈ T.addrs ∧ st.root ≠ some t ∧
      ((np.left = some t ∧ np.right ≠ some t) ∨ (np.right = some t ∧ np.left ≠ some t)) ∧
      LRChild st (some t) = .ok (if np.left = some t then 0 else 1) := by
  obtain ⟨nt', hnt', hcase⟩ := hpar.child hrep hnd t ht
  rw [hct] at hnt'
  cases hnt'
  rcases hcase with ⟨_, h2⟩ | ⟨h1, p', np', hp', h2, h3, h4⟩
  · rw [htp] at h2; cases h2
  · rw [htp] at h2
    cases h2
    rw [hcp] at h3
    cases h3
    have hroot : st.root ≠ some t := by rw [hrep.ptr_eq]; exact h1
    refine ⟨hp', hroot, h4, ?_⟩
    rcases h4 with ⟨hl, hr⟩ | ⟨hr, hl⟩
    · rw [if_pos hl]
      exact LRChild_left hroot hct htp hcp hr hl
    · rw [if_neg hl]
      exact LRChild_right hroot hct htp hcp hr

/-! ## Level-order printing -/

theorem level_nil (i : Nat) : Tree.level i .nil = [] := by
  cases i <;> rfl

theorem level_ne_nil : ∀ (T : Tree) (i : Nat), i < T.height → T.level i ≠ [] := by
  intro T
  induction T with
  | nil => intro i hi; simp [Tree.height] at hi
  | node l a k r ihl ihr =>
    intro i hi
    cases i with
    | zero => simp [Tree.level]
    | succ j =>
      simp only [Tree.height] at hi
      simp only [Tree.level, ne_eq, List.append_eq_nil, not_and]
      intro h1
      have hj : j < r.height := by
        by_contra hc
        exact ihl j (by omega) h1
      exact ihr j hj

theorem flatten_map_append (f g : Nat → List Int) (m : Nat) :
    (((List.range m).map (fun i => f i ++ g i)).flatten).Perm
      (((List.range m).map f).flatten ++ ((List.range m).map g).flatten) := by
  induction m with
  | zero => simp
  | succ m ih =>
    simp only [List.range_succ, List.map_append, List.map_cons, List.map_nil,
      List.flatten_append, List.flatten_cons, List.flatten_nil, List.append_nil]
    refine (ih.append (List.Perm.refl _)).trans ?_
    simp only [List.append_assoc]
    refine List.Perm.append_left _ ?_
    simp only [← List.append_assoc]
    exact List.Perm.append_right _ List.perm_append_comm

theorem levels_perm : ∀ (T : Tree) (m : Nat), T.height ≤ m →
    (((List.range m).map (fun i => T.level i)).flatten).Perm T.keys := by
  intro T
  induction T with
  | nil =>
    intro m _
    have : (List.range m).map (fun i => Tree.level i .nil) = (List.range m).map (fun _ => []) :=
      List.map_congr_left (fun i _ => level_nil i)
    rw [this]
    simp [Tree.keys]
  | node l a k r ihl ihr =>
    intro m hm
    simp only [Tree.height] at hm
    obtain ⟨j, rfl⟩ : ∃ j, m = j + 1 := ⟨m - 1, by omega⟩
    rw [List.range_succ_eq_map]
    simp only [List.map_cons, List.map_map, List.flatten_cons, Tree.level, Tree.keys]
    have h1 : ((List.range j).map ((fun i => Tree.level i (.node l a k r)) ∘ Nat.succ)) =
        (List.range j).map (fun i => l.level i ++ r.level i) := rfl
    rw [h1]
    refine List.Perm.trans ?_ List.perm_middle.symm
    refine List.Perm.cons _ ?_
    exact (flatten_map_append _ _ j).trans ((ihl j (by omega)).append (ihr j (by omega)))

theorem PrintDepth_rep {st : SplayTree} {p : Ptr} {T : Tree} (hr : Rep st.heap p T) :
    ∀ (fuel : Nat) (d c : Int), T.height < fuel →
      PrintDepth fuel st p d c = .ok (if c ≤ d then T.level (d - c).toNat else []) := by
  induction hr with
  | nil =>
    intro fuel d c hf
    cases fuel with
    | zero => simp at hf
    | succ f => simp [PrintDepth, level_nil, pure, Except.pure]
  | @node a n l r k hc hk _ _ ihl ihr =>
    intro fuel d c hf
    cases fuel with
    | zero => simp at hf
    | succ f =>
      simp only [Tree.height] at hf
      simp only [PrintDepth, ne_eq, reduceCtorEq, not_false_eq_true, if_true, getLeft_cell hc,
        getRight_cell hc, getElement_cell hc, ihl f d (c + 1) (by omega),
        ihr f d (c + 1) (by omega), bind, Except.bind, pure, Except.pure, hk]
      rcases lt_trichotomy d c with h | h | h
      · have h1 : ¬ c + 1 ≤ d := by omega
        have h2 : ¬ c ≤ d := by omega
        have h3 : ¬ d = c := by omega
        simp [h1, h2, h3]
      · subst h
        have h1 : ¬ d + 1 ≤ d := by omega
        simp [h1, Tree.level]
      · have h1 : c + 1 ≤ d := by omega
        have h2 : c ≤ d := by omega
        have h3 : ¬ d = c := by omega
        have h4 : (d - c).toNat = (d - (c + 1)).toNat + 1 := by omega
        simp [h1, h2, h3, h4, Tree.level]

theorem findDepth_rep {st : SplayTree} {p : Ptr} {T : Tree} (hr : Rep st.heap p T) :
    ∀ (fuel : Nat) (d m : Int), T.height < fuel → d - 1 ≤ m →
      findDepth fuel st p d m = .ok (max m (d + T.height - 1)) := by
  induction hr with
  | nil =>
    intro fuel d m hf hm
    cases fuel with
    | zero => simp at hf
    | succ f =>
      simp only [findDepth, ne_eq, not_true_eq_false, if_false, pure, Except.pure,
        Tree.height, Except.ok.injEq]
      push_cast
      omega
  | @node a n l r k hc hk _ _ ihl ihr =>
    intro fuel d m hf hm
    cases fuel with
    | zero => simp at hf
    | succ f =>
      simp only [Tree.height] at hf
      have e1 : (if d > m then d else m) = max m d := by
        split_ifs <;> omega
      simp only [findDepth, ne_eq, reduceCtorEq, not_false_eq_true, if_true, getLeft_cell hc,
        getRight_cell hc, e1, ihl f (d + 1) (max m d) (by omega) (by omega), bind,
        Except.bind]
      rw [ihr f (d + 1) _ (by omega) (by omega)]
      simp only [Tree.height, Except.ok.injEq]
      push_cast
      omega

theorem PrintLOLoop_rep {st : SplayTree} {T : Tree} {fuel : Nat}
    (hrep : Rep st.heap st.root T) (hf : T.height < fuel) :
    ∀ (j n i : Nat), i + j = T.height → j < n →
      PrintLOLoop n fuel st ((T.height : Int) - 1) i =
        .ok ((List.range' i j).map (fun q => T.level q)) := by
  intro j
  induction j with
  | zero =>
    intro n i hi hn
    cases n with
    | zero => omega
    | succ n =>
      have : ¬ (i : Int) ≤ (T.height : Int) - 1 := by omega
      simp [PrintLOLoop, this, pure, Except.pure]
  | succ j ih =>
    intro n i hi hn
    cases n with
    | zero => omega
    | succ n =>
      have h1 : (i : Int) ≤ (T.height : Int) - 1 := by omega
      have h2 := PrintDepth_rep hrep fuel i 0 hf
      have h3 := ih n (i + 1) (by omega) (by omega)
      push_cast at h3
      simp only [PrintLOLoop, h1, if_true, h2, h3, bind, Except.bind, pure, Except.pure,
        List.range', List.map_cons]
      simp

/-! ## Cloning -/

theorem Rep.append {h : Heap} {p : Ptr} {T : Tree} (hr : Rep h p T) (ext : Heap) :
    Rep (h ++ ext) p T := by
  apply hr.congr
  intro b hb
  apply Agree.of_eq
  rw [List.getElem?_append_left (hr.lt_length b hb)]

theorem unlabel_keys : ∀ {U T : Tree}, U.unlabel = T.unlabel → U.keys = T.keys := by
  intro U
  induction U with
  | nil =>
    intro T h
    cases T with
    | nil => rfl
    | node l a k r => simp [Tree.unlabel] at h
  | node l a k r ihl ihr =>
    intro T h
    cases T with
    | nil => simp [Tree.unlabel] at h
    | node l' a' k' r' =>
      simp only [Tree.unlabel, Tree.node.injEq, true_and] at h
      simp [Tree.keys, ihl h.1, ihr h.2.2, h.2.1]

theorem unlabel_height : ∀ {U T : Tree}, U.unlabel = T.unlabel → U.height = T.height := by
  intro U
  induction U with
  | nil =>
    intro T h
    cases T with
    | nil => rfl
    | node l a k r => simp [Tree.unlabel] at h
  | node l a k r ihl ihr =>
    intro T h
    cases T with
    | nil => simp [Tree.unlabel] at h
    | node l' a' k' r' =>
      simp only [Tree.unlabel, Tree.node.injEq, true_and] at h
      simp [Tree.height, ihl h.1, ihr h.2.2]

theorem clone_rep : ∀ (T : Tree) (st : SplayTree) (p : Ptr) (fuel : Nat),
    Rep st.heap p T → T.height < fuel →
    ∃ c st' U ext, clone fuel st p = .ok (c, st') ∧ Rep st'.heap c U ∧
      U.unlabel = T.unlabel ∧ st'.root = st.root ∧
      st'.ITEM_NOT_FOUND = st.ITEM_NOT_FOUND ∧ st'.heap = st.heap ++ ext ∧
      (∀ b ∈ U.addrs, st.heap.length ≤ b) ∧ U.addrs.Nodup ∧
      ∀ b ∈ U.addrs, ∃ n, st'.heap[b]? = some (some n) ∧ n.parent = none := by
  intro T
  induction T with
  | nil =>
    intro st p fuel hr hf
    have hp := hr.ptr_eq
    simp only [Tree.ptr] at hp
    subst hp
    cases fuel with
    | zero => simp at hf
    | succ f =>
      exact ⟨none, st, .nil, [], by simp [clone, pure, Except.pure], Rep.nil, rfl, rfl, rfl,
        by simp, by simp [Tree.addrs], by simp [Tree.addrs], by simp [Tree.addrs]⟩
  | node l a k r ihl ihr =>
    intro st p fuel hr hf
    have hp := hr.ptr_eq
    simp only [Tree.ptr] at hp
    subst hp
    obtain ⟨n, l0, r0, hT, hc, hl, hrr⟩ := hr.cell
    cases hT
    cases fuel with
    | zero => simp at hf
    | succ f =>
      simp only [Tree.height] at hf
      obtain ⟨cl, st1, Ul, e1, h1, hU1, hu1, hr1, hi1, hh1, hfr1, hnd1, hpn1⟩ :=
        ihl st n.left f hl (by omega)
      have hc1 : st1.heap[a]? = some (some n) := by
        rw [hh1, List.getElem?_append_left (cell_lt hc)]
        exact hc
      have hrr1 : Rep st1.heap n.right r := by rw [hh1]; exact hrr.append e1
      obtain ⟨cr, st2, Ur, e2, h2, hU2, hu2, hr2, hi2, hh2, hfr2, hnd2, hpn2⟩ :=
        ihr st1 n.right f hrr1 (by omega)
      have hlen1 : st.heap.length ≤ st1.heap.length := by rw [hh1]; simp
      have hlen2 : st1.heap.length ≤ st2.heap.length := by rw [hh2]; simp
      have hUl2 : ∀ b ∈ Ul.addrs, b < st1.heap.length := hU1.lt_length
      have hUr2 : ∀ b ∈ Ur.addrs, b < st2.heap.length := hU2.lt_length
      refine ⟨some st2.heap.length, (alloc st2 n.element cl cr).2,
        .node Ul st2.heap.length n.element Ur, e1 ++ e2 ++ [some ⟨n.element, cl, cr, none⟩],
        ?_, ?_, ?_, ?_, ?_, ?_, ?_, ?_, ?_⟩
      · simp [clone, getElement_cell hc, getLeft_cell hc, h1, getRight_cell hc1, h2, alloc,
          bind, Except.bind, pure, Except.pure]
      · refine Rep.node (n := ⟨n.element, cl, cr, none⟩) ?_ rfl ?_ ?_
        · simp [alloc]
        · have := (hU1.append e2).append [some ⟨n.element, cl, cr, none⟩]
          rw [← hh2] at this
          exact this
        · exact hU2.append _
      · simp [Tree.unlabel, hu1, hu2]
      · simp [alloc, hr2, hr1]
      · simp [alloc, hi2, hi1]
      · simp [alloc, hh2, hh1]
      · intro b hb
        simp only [Tree.addrs, List.mem_append, List.mem_cons] at hb
        rcases hb with hb | rfl | hb
        · exact hfr1 b hb
        · omega
        · have := hfr2 b hb; omega
      · simp only [Tree.addrs]
        rw [List.nodup_append]
        refine ⟨hnd1, ?_, ?_⟩
        · rw [List.nodup_cons]
          exact ⟨fun hm => absurd (hUr2 _ hm) (by omega), hnd2⟩
        · intro b hb1 hb2
          rw [List.mem_cons] at hb2
          have := hUl2 b hb1
          rcases hb2 with rfl | hb2
          · omega
          · have := hfr2 b hb2; omega
      · intro b hb
        simp only [Tree.addrs, List.mem_append, List.mem_cons] at hb
        rcases hb with hb | rfl | hb
        · obtain ⟨m, hm, hmp⟩ := hpn1 b hb
          refine ⟨m, ?_, hmp⟩
          have hb1 := hUl2 b hb
          simp only [alloc]
          rw [List.getElem?_append_left (by omega), hh2, List.getElem?_append_left hb1]
          exact hm
        · exact ⟨⟨n.element, cl, cr, none⟩, by simp [alloc], rfl⟩
        · obtain ⟨m, hm, hmp⟩ := hpn2 b hb
          refine ⟨m, ?_, hmp⟩
          simp only [alloc]
          rw [List.getElem?_append_left (hUr2 b hb)]
          exact hm

/-! ## Assignment and copy construction -/

theorem assign_spec {this : SplayTree} {D T : Tree} {q : Ptr} {fuel : Nat}
    (hD : Rep this.heap this.root D) (hDn : D.addrs.Nodup) (hT : Rep this.heap q T)
    (hdis : ∀ b ∈ T.addrs, b ∉ D.addrs) (hfD : D.height < fuel) (hfT : T.height < fuel) :
    ∃ st' U, assign fuel this q = .ok st' ∧ Rep st'.heap st'.root U ∧
      U.unlabel = T.unlabel ∧ Rep st'.heap q T ∧
      st'.ITEM_NOT_FOUND = this.ITEM_NOT_FOUND ∧ U.addrs.Nodup ∧
      (∀ b ∈ U.addrs, b ∉ T.addrs) ∧
      ∀ b ∈ U.addrs, ∃ n, st'.heap[b]? = some (some n) ∧ n.parent = none := by
  have hp := hD.ptr_eq
  obtain ⟨st1, hst1, hinf1, _, _, hlen1, hroot1, hframe1⟩ :=
    makeEmptyAt_post D fuel this .root (by simp [readRef, hp]) (hp ▸ hD) hDn
      (by simp [Ref.owner]) hfD
  have hT1 : Rep st1.heap q T := by
    apply hT.congr
    intro b hb
    apply Agree.of_eq
    have := hframe1 b (hT.lt_length b hb) (hdis b hb)
    simpa [Ref.owner] using this
  obtain ⟨c, st2, U, ext, h2, hU, hu, hr2, hi2, hh2, hfr, hnd, hpn⟩ :=
    clone_rep T st1 q fuel hT1 hfT
  refine ⟨{ st2 with root := c }, U, ?_, hU, hu, ?_, ?_, hnd, ?_, hpn⟩
  · simp [assign, makeEmpty, hst1, h2, bind, Except.bind, pure, Except.pure]
  · show Rep st2.heap q T
    rw [hh2]
    exact hT1.append ext
  · show st2.ITEM_NOT_FOUND = this.ITEM_NOT_FOUND
    rw [hi2, hinf1]
  · intro b hb hbT
    have h1 := hfr b hb
    have h2 := hT.lt_length b hbT
    omega

theorem copy_spec {rhs : SplayTree} {T : Tree} {fuel : Nat}
    (hT : Rep rhs.heap rhs.root T) (hfT : T.height < fuel) :
    ∃ st' U, copy fuel rhs = .ok st' ∧ Rep st'.heap st'.root U ∧
      U.unlabel = T.unlabel ∧ Rep st'.heap rhs.root T ∧
      st'.ITEM_NOT_FOUND = rhs.ITEM_NOT_FOUND ∧ U.addrs.Nodup ∧
      (∀ b ∈ U.addrs, b ∉ T.addrs) ∧
      ∀ b ∈ U.addrs, ∃ n, st'.heap[b]? = some (some n) ∧ n.parent = none :=
  @assign_spec { heap := rhs.heap, root := none, ITEM_NOT_FOUND := rhs.ITEM_NOT_FOUND }
    .nil T rhs.root fuel Rep.nil (by simp [Tree.addrs]) hT (by simp [Tree.addrs])
    (by simp only [Tree.height]; omega) hfT

/-! ## Splaying in a tree without parent links -/

theorem pathAddrs_sub (x : Int) : ∀ (T : Tree) (b : Nat), b ∈ T.pathAddrs x → b ∈ T.addrs := by
  intro T
  induction T with
  | nil => intro b hb; simp [Tree.pathAddrs] at hb
  | node l a key r ihl ihr =>
    intro b hb
    simp only [Tree.pathAddrs, List.mem_cons] at hb
    simp only [Tree.addrs, List.mem_append, List.mem_cons]
    rcases hb with hb | hb
    · exact Or.inr (Or.inl hb)
    · split_ifs at hb
      · exact Or.inl (ihl b hb)
      · exact Or.inr (Or.inr (ihr b hb))
      · simp at hb

theorem pathOK_transfer {h H : Heap} (x : Int) : ∀ {T : Tree} {par : Ptr},
    PathOK h x par T → (∀ b ∈ T.pathAddrs x, H[b]? = h[b]?) → PathOK H x par T := by
  intro T
  induction T with
  | nil => intro par _ _; trivial
  | node l a key r ihl ihr =>
    intro par hp hsame
    obtain ⟨⟨n, hn, hnp⟩, hrest⟩ := hp
    refine ⟨⟨n, by rw [hsame a (by simp [Tree.pathAddrs])]; exact hn, hnp⟩, ?_⟩
    split_ifs at hrest ⊢ with h1 h2
    · exact ihl hrest (fun b hb => hsame b (by simp [Tree.pathAddrs, h1, hb]))
    · exact ihr hrest (fun b hb => hsame b (by simp [Tree.pathAddrs, h1, h2, hb]))

theorem belowOK_transfer {h H : Heap} (x : Int) {T : Tree} (hp : BelowOK h x T)
    (hsame : ∀ b ∈ (T.pathAddrs x).tail, H[b]? = h[b]?) : BelowOK H x T := by
  cases T with
  | nil => trivial
  | node l a key r =>
    simp only [BelowOK] at hp ⊢
    simp only [Tree.pathAddrs, List.tail_cons] at hsame
    split_ifs at hp hsame ⊢ with h1 h2
    · exact pathOK_transfer x hp hsame
    · exact pathOK_transfer x hp hsame

theorem head_not_in_path_tail (x : Int) {l r : Tree} {a : Nat} {key : Int}
    (hnd : (Tree.node l a key r).addrs.Nodup) :
    a ∉ ((Tree.node l a key r).pathAddrs x).tail := by
  obtain ⟨_, _, hal, har, _⟩ := nodup_node hnd
  simp only [Tree.pathAddrs, List.tail_cons]
  split_ifs
  · exact fun hm => hal (pathAddrs_sub x l a hm)
  · exact fun hm => har (pathAddrs_sub x r a hm)
  · simp

theorem insertAt_relinks (x : Int) : ∀ (T : Tree) (fuel : Nat) (st st' : SplayTree) (t : Ref),
    readRef st t = .ok T.ptr → Rep st.heap T.ptr T → T.keys.Pairwise (· < ·) → x ∈ T.keys →
    T.height < fuel → insertAt fuel x t st = .ok st' →
    (∀ b, b ∉ (T.pathAddrs x).tail → st'.heap[b]? = st.heap[b]?) ∧ BelowOK st'.heap x T := by
  intro T
  induction T with
  | nil => intro fuel st st' t _ _ _ hx; simp [Tree.keys] at hx
  | node l a k r ihl ihr =>
    intro fuel st st' t hread hrep hb hx hf h
    cases fuel with
    | zero => simp at hf
    | succ f =>
      simp only [Tree.height] at hf
      simp only [Tree.ptr] at hread hrep
      have hnd := hrep.nodup hb
      obtain ⟨n, l0, r0, hT, hc, hl, hr⟩ := hrep.cell
      cases hT
      obtain ⟨hbl, hbr, hlt, hgt⟩ := bst_node hb
      obtain ⟨hndl, hndr, _, _, _⟩ := nodup_node hnd
      by_cases h1 : x < n.element
      · have hxl : x ∈ l.keys := mem_left_of_lt hb hx h1
        have hrl : readRef st (.left a) = .ok l.ptr := by
          simp [readRef, getLeft_cell hc, hl.ptr_eq]
        obtain ⟨st1, hst1, her, _⟩ := insertAt_present x l f st (.left a) hrl
          (hl.ptr_eq ▸ hl) hbl hxl (by omega)
        obtain ⟨hfr1, hbel1⟩ := ihl f st st1 (.left a) hrl (hl.ptr_eq ▸ hl) hbl hxl
          (by omega) hst1
        have hroot : st1.root = st.root := congrArg (fun s => s.root) her
        have hheap := congrArg (fun s => s.heap) her
        simp only [eraseParents] at hheap
        have hag := agree_of_erase hheap
        have hread1 := readRef_agree hroot hag hread
        obtain ⟨na, hca, _, hla, _⟩ := hag a n hc
        cases l with
        | nil => simp [Tree.keys] at hxl
        | node ll a1 lk lr =>
          have hl' := hl
          rw [hl.ptr_eq] at hl'
          obtain ⟨n0, _, _, _, hc0, _, _⟩ := hl'.cell
          obtain ⟨n1, hc1, _, _, _⟩ := hag a1 n0 hc0
          have hla' : na.left = some a1 := by rw [hla, hl.ptr_eq]; rfl
          simp only [insertAt, hread, getElement_cell hc, h1, if_true, hst1, hread1,
            getLeft_cell hca, hla', bind, Except.bind, setParent] at h
          rw [modify_cell _ hc1] at h
          cases h
          have hlen : a1 < st1.heap.length := cell_lt hc1
          refine ⟨?_, ?_⟩
          · intro b hbn
            simp only [Tree.pathAddrs, h1, if_true, List.tail_cons, List.mem_cons, not_or]
              at hbn
            show (st1.heap.set a1 _)[b]? = _
            rw [List.getElem?_set_ne (Ne.symm hbn.1)]
            apply hfr1 b
            simpa [Tree.pathAddrs] using hbn.2
          · simp only [BelowOK, h1, if_true]
            refine ⟨⟨_, List.getElem?_set_self hlen, rfl⟩, ?_⟩
            have := belowOK_transfer (H := st1.heap.set a1 (some { n1 with parent := some a }))
              x hbel1 (by
                intro b hbm
                rw [List.getElem?_set_ne]
                intro e
                exact head_not_in_path_tail x hndl (e ▸ hbm))
            simpa [BelowOK] using this
      · by_cases h2 : n.element < x
        · have hxr : x ∈ r.keys := mem_right_of_lt hb hx h2
          have hrr : readRef st (.right a) = .ok r.ptr := by
            simp [readRef, getRight_cell hc, hr.ptr_eq]
          obtain ⟨st1, hst1, her, _⟩ := insertAt_present x r f st (.right a) hrr
            (hr.ptr_eq ▸ hr) hbr hxr (by omega)
          obtain ⟨hfr1, hbel1⟩ := ihr f st st1 (.right a) hrr (hr.ptr_eq ▸ hr) hbr hxr
            (by omega) hst1
          have hroot : st1.root = st.root := congrArg (fun s => s.root) her
          have hheap := congrArg (fun s => s.heap) her
          simp only [eraseParents] at hheap
          have hag := agree_of_erase hheap
          have hread1 := readRef_agree hroot hag hread
          obtain ⟨na, hca, _, _, hra⟩ := hag a n hc
          cases r with
          | nil => simp [Tree.keys] at hxr
          | node rl a1 rk rr =>
            have hr' := hr
            rw [hr.ptr_eq] at hr'
            obtain ⟨n0, _, _, _, hc0, _, _⟩ := hr'.cell
            obtain ⟨n1, hc1, _, _, _⟩ := hag a1 n0 hc0
            have hra' : na.right = some a1 := by rw [hra, hr.ptr_eq]; rfl
            simp only [insertAt, hread, getElement_cell hc, h1, h2, if_true, if_false, hst1,
              hread1, getRight_cell hca, hra', bind, Except.bind, setParent] at h
            rw [modify_cell _ hc1] at h
            cases h
            have hlen : a1 < st1.heap.length := cell_lt hc1
            refine ⟨?_, ?_⟩
            · intro b hbn
              simp only [Tree.pathAddrs, h1, h2, if_true, if_false, List.tail_cons,
                List.mem_cons, not_or] at hbn
              show (st1.heap.set a1 _)[b]? = _
              rw [List.getElem?_set_ne (Ne.symm hbn.1)]
              apply hfr1 b
              simpa [Tree.pathAddrs] using hbn.2
            · simp only [BelowOK, h1, h2, if_true, if_false]
              refine ⟨⟨_, List.getElem?_set_self hlen, rfl⟩, ?_⟩
              have := belowOK_transfer
                (H := st1.heap.set a1 (some { n1 with parent := some a }))
                x hbel1 (by
                  intro b hbm
                  rw [List.getElem?_set_ne]
                  intro e
                  exact head_not_in_path_tail x hndr (e ▸ hbm))
              simpa [BelowOK] using this
        · simp only [insertAt, hread, getElement_cell hc, h1, h2, if_false, bind, Except.bind,
            pure, Except.pure, Except.ok.injEq] at h
          subst h
          exact ⟨fun _ _ => rfl, by simp [BelowOK, h1, h2]⟩

/-! ## The claims -/

theorem splayLoop_copy53 : ∀ (fuel : Nat) (v : Ptr), v ≠ some 3 →
    splayLoop fuel copy53 3 v = .error .fuel := by
  intro fuel
  induction fuel with
  | zero => intro v _; rfl
  | succ f ih =>
    intro v hv
    have hv' : v ≠ copy53.root := hv
    match f, ih with
    | 0, _ => simp [splayLoop, hv', findAt, bind, Except.bind]
    | 1, _ =>
      simp only [splayLoop, hv', ne_eq, not_false_eq_true, if_true, bind, Except.bind]
      rfl
    | n + 2, ih =>
      have h1 : findAt (n + 2) copy53 3 copy53.root = .ok (some 2) := rfl
      have h2 : splayNode (n + 2) copy53 (some 2) = .ok (3, copy53) := rfl
      simp only [splayLoop, hv', ne_eq, not_false_eq_true, if_true, bind, Except.bind, h1, h2]
      exact ih (some 2) (by decide)

/-- C1 (failing input): in the tree built by `insert(5); insert(3)` the key 3 is stored, and
`splay(3)` does not complete: whatever the budget, it ends in an error, and with a budget of
three or more in a `NULL` dereference (`insertNode` is called with the absent right child of
the node holding 3). -/
theorem splay_left_child_null_deref :
    build 3 [5, 3] = .ok tree53 ∧ find 3 3 tree53 = .ok 3 ∧
      (∀ fuel, ∃ e, splay fuel 3 tree53 = .error e) ∧
      ∀ fuel, splay (fuel + 3) 3 tree53 = .error .null :=
  ⟨rfl, rfl, fun fuel =>
    match fuel with
    | 0 => ⟨_, rfl⟩
    | 1 => ⟨_, rfl⟩
    | 2 => ⟨_, rfl⟩
    | _ + 3 => ⟨.null, rfl⟩, fun _ => rfl⟩

/-- C2: every finite sequence of insert and remove calls on the empty tree completes and the
in-order traversal of the resulting tree is strictly ascending; and on a binary search tree a
single insert and a single remove complete and leave a tree whose in-order traversal is
strictly ascending. -/
theorem inorder_strictly_ascending (ops : List Op) (notFound : Int) (fuel : Nat)
    (hf : ops.length < fuel) (st : SplayTree) (T : Tree) (x : Int) (h : IsBST st T)
    (hT : T.height + 1 < fuel) :
    (∃ st' ks, runOps fuel ops (empty notFound) = .ok st' ∧ inorder fuel st' = .ok ks ∧
      ks.Pairwise (· < ·)) ∧
    (∃ st' ks, insert fuel x st = .ok st' ∧ inorder fuel st' = .ok ks ∧
      ks.Pairwise (· < ·)) ∧
    (∃ st' ks, remove fuel x st = .ok st' ∧ inorder fuel st' = .ok ks ∧
      ks.Pairwise (· < ·)) := by
  refine ⟨?_, ?_, ?_⟩
  · obtain ⟨st', T', hrun, h', hht, _⟩ :=
      runOps_bst ops (empty notFound) .nil fuel (empty_bst notFound)
        (by simpa [Tree.height] using hf)
    simp only [Tree.height, Nat.zero_add] at hht
    exact ⟨st', T'.keys, hrun, inorder_rep h'.1 (by omega), h'.2⟩
  · obtain ⟨st', hst', h', _⟩ := insert_bst x h (by omega : T.height < fuel)
    have := ins_height st.heap.length x T
    exact ⟨st', _, hst', inorder_rep h'.1 (by omega), h'.2⟩
  · obtain ⟨st', hst', h', _⟩ := remove_bst x h (by omega : T.height < fuel)
    have := rem_height x T
    exact ⟨st', _, hst', inorder_rep h'.1 (by omega), h'.2⟩

theorem tree53_bst : IsBST tree53 shape53 :=
  ⟨Rep.node (n := { element := 5, left := some 1, right := none, parent := none }) rfl rfl
    (Rep.node (n := { element := 3, left := none, right := none, parent := some 0 }) rfl rfl
      Rep.nil Rep.nil) Rep.nil, by simp [shape53, Tree.keys]⟩

theorem tree51_bst : IsBST tree51 shape51 :=
  ⟨Rep.node (n := { element := 5, left := some 2, right := none, parent := none }) rfl rfl
    (Rep.node (n := { element := 1, left := none, right := none, parent := some 1 }) rfl rfl
      Rep.nil Rep.nil) Rep.nil, by simp [shape51, Tree.keys]⟩

theorem inorder_strictly_ascending_witness :
    ([Op.insert 5, Op.insert 3, Op.insert 8, Op.remove 5].length < 5 ∧ IsBST tree53 shape53 ∧
      shape53.height + 1 < 5) ∧
    ((∃ st' ks, runOps 5 [Op.insert 5, Op.insert 3, Op.insert 8, Op.remove 5] (empty 0) =
        .ok st' ∧ inorder 5 st' = .ok ks ∧ ks.Pairwise (· < ·)) ∧
    (∃ st' ks, insert 5 4 tree53 = .ok st' ∧ inorder 5 st' = .ok ks ∧
      ks.Pairwise (· < ·)) ∧
    (∃ st' ks, remove 5 4 tree53 = .ok st' ∧ inorder 5 st' = .ok ks ∧
      ks.Pairwise (· < ·))) :=
  ⟨⟨by decide, tree53_bst, by decide⟩,
    inorder_strictly_ascending [Op.insert 5, Op.insert 3, Op.insert 8, Op.remove 5] 0 5
      (by decide) tree53 shape53 4 tree53_bst (by decide)⟩

/-- C3: on a binary search tree whose in-order traversal lists `T.keys`, `insert(x)`
completes and the traversal then lists exactly those keys and `x`, each once; `remove(x)`
completes and the traversal then lists exactly those keys other than `x`, each once; and
after any sequence of inserts and removes on the empty tree the traversal lists, each once,
exactly the keys inserted and not removed since. -/
theorem inorder_lists_stored_keys (st : SplayTree) (T : Tree) (x : Int) (fuel : Nat)
    (h : IsBST st T) (hT : T.height + 1 < fuel) (ops : List Op) (notFound : Int)
    (hf : ops.length < fuel) :
    inorder fuel st = .ok T.keys ∧
    (∃ st' ks, insert fuel x st = .ok st' ∧ inorder fuel st' = .ok ks ∧ ks.Nodup ∧
      ∀ y, y ∈ ks ↔ y ∈ T.keys ∨ y = x) ∧
    (∃ st' ks, remove fuel x st = .ok st' ∧ inorder fuel st' = .ok ks ∧ ks.Nodup ∧
      ∀ y, y ∈ ks ↔ y ∈ T.keys ∧ y ≠ x) ∧
    (∃ st' ks, runOps fuel ops (empty notFound) = .ok st' ∧ inorder fuel st' = .ok ks ∧
      ks.Nodup ∧ ∀ y, y ∈ ks ↔ y ∈ specKeys ops) := by
  refine ⟨inorder_rep h.1 (by omega), ?_, ?_, ?_⟩
  · obtain ⟨st', hst', h', _⟩ := insert_bst x h (by omega : T.height < fuel)
    have := ins_height st.heap.length x T
    exact ⟨st', _, hst', inorder_rep h'.1 (by omega), sorted_nodup h'.2,
      ins_keys_mem _ x T⟩
  · obtain ⟨st', hst', h', _⟩ := remove_bst x h (by omega : T.height < fuel)
    have := rem_height x T
    refine ⟨st', _, hst', inorder_rep h'.1 (by omega), sorted_nodup h'.2, ?_⟩
    intro y
    simp [rem_keys x T h.2]
  · obtain ⟨st', T', hrun, h', hht, hk⟩ :=
      runOps_bst ops (empty notFound) .nil fuel (empty_bst notFound)
        (by simpa [Tree.height] using hf)
    simp only [Tree.height, Nat.zero_add] at hht
    refine ⟨st', T'.keys, hrun, inorder_rep h'.1 (by omega), sorted_nodup h'.2, ?_⟩
    intro y
    have : y ∈ T'.keys.toFinset ↔ y ∈ specKeys ops := by
      rw [hk]; simp [specKeys, Tree.keys]
    simpa using this

theorem inorder_lists_stored_keys_witness :
    (IsBST tree53 shape53 ∧ shape53.height + 1 < 5 ∧
      [Op.insert 5, Op.insert 3, Op.insert 5, Op.remove 3].length < 5) ∧
    (inorder 5 tree53 = .ok shape53.keys ∧
    (∃ st' ks, insert 5 4 tree53 = .ok st' ∧ inorder 5 st' = .ok ks ∧ ks.Nodup ∧
      ∀ y, y ∈ ks ↔ y ∈ shape53.keys ∨ y = 4) ∧
    (∃ st' ks, remove 5 4 tree53 = .ok st' ∧ inorder 5 st' = .ok ks ∧ ks.Nodup ∧
      ∀ y, y ∈ ks ↔ y ∈ shape53.keys ∧ y ≠ 4) ∧
    (∃ st' ks, runOps 5 [Op.insert 5, Op.insert 3, Op.insert 5, Op.remove 3] (empty 0) =
        .ok st' ∧ inorder 5 st' = .ok ks ∧
      ks.Nodup ∧ ∀ y, y ∈ ks ↔ y ∈ specKeys [Op.insert 5, Op.insert 3, Op.insert 5,
        Op.remove 3])) :=
  ⟨⟨tree53_bst, by decide, by decide⟩,
    inorder_lists_stored_keys tree53 shape53 4 5 tree53_bst (by decide)
      [Op.insert 5, Op.insert 3, Op.insert 5, Op.remove 3] 0 (by decide)⟩

/-- C5 (failing input): in the tree built by `insert(5)` the key 7 is not stored, and
`splay(7)` does not return the sentinel: whatever the budget, it ends in an error, and with
a budget of three or more in a `NULL` dereference (`find` returns `NULL` and the splay step
reads its parent link). -/
theorem splay_absent_null_deref :
    build 2 [5] = .ok tree5 ∧ find 2 7 tree5 = .ok tree5.ITEM_NOT_FOUND ∧
      (∀ fuel, ∃ e, splay fuel 7 tree5 = .error e) ∧
      ∀ fuel, splay (fuel + 3) 7 tree5 = .error .null :=
  ⟨rfl, rfl, fun fuel =>
    match fuel with
    | 0 => ⟨_, rfl⟩
    | 1 => ⟨_, rfl⟩
    | 2 => ⟨_, rfl⟩
    | _ + 3 => ⟨.null, rfl⟩, fun _ => rfl⟩

/-- C6 (failing input): the copy of the tree built by `insert(5); insert(3)` stores the key
3 below its root; the splay step on the node holding 3 returns with the tree unchanged, and
the loop of `splay(3)` exhausts every budget. -/
theorem splay_copy_never_terminates :
    (build 3 [5, 3] >>= copy 3) = .ok copy53 ∧ find 3 3 copy53 = .ok 3 ∧
      findAt 3 copy53 3 copy53.root = .ok (some 2) ∧
      (∀ fuel, splayNode fuel copy53 (some 2) = .ok (3, copy53)) ∧
      ∀ fuel, splay fuel 3 copy53 = .error .fuel := by
  refine ⟨rfl, rfl, rfl, fun _ => rfl, ?_⟩
  intro fuel
  have := splayLoop_copy53 fuel none (by decide)
  simp only [splay, bind, Except.bind, this]
  rfl

/-- C7: on a binary search tree `find(x)` returns the stored key equal to `x` when `x` is
among the keys of the tree, and the `ITEM_NOT_FOUND` sentinel when it is not. -/
theorem find_returns_key_or_sentinel (st : SplayTree) (T : Tree) (x : Int) (fuel : Nat)
    (h : IsBST st T) (hf : T.height < fuel) :
    (x ∈ T.keys → find fuel x st = .ok x) ∧
    (x ∉ T.keys → find fuel x st = .ok st.ITEM_NOT_FOUND) := by
  have := find_bst x h hf
  constructor
  · intro hx; simpa [hx] using this
  · intro hx; simpa [hx] using this

theorem find_returns_key_or_sentinel_witness :
    (IsBST tree53 shape53 ∧ shape53.height < 3) ∧
    ((3 ∈ shape53.keys → find 3 3 tree53 = .ok 3) ∧
    (3 ∉ shape53.keys → find 3 3 tree53 = .ok tree53.ITEM_NOT_FOUND)) :=
  ⟨⟨tree53_bst, by decide⟩, find_returns_key_or_sentinel tree53 shape53 3 3 tree53_bst
    (by decide)⟩

/-- C10: on a binary search tree, `remove(x)` of a key that is not stored completes and
leaves the tree object and the whole memory unchanged. -/
theorem remove_absent_unchanged (st : SplayTree) (T : Tree) (x : Int) (fuel : Nat)
    (h : IsBST st T) (hx : x ∉ T.keys) (hf : T.height < fuel) :
    remove fuel x st = .ok st :=
  remove_absent h hx hf

theorem remove_absent_unchanged_witness :
    (IsBST tree53 shape53 ∧ (4 : Int) ∉ shape53.keys ∧ shape53.height < 3) ∧
      remove 3 4 tree53 = .ok tree53 :=
  ⟨⟨tree53_bst, by decide, by decide⟩,
    remove_absent_unchanged tree53 shape53 4 3 tree53_bst (by decide) (by decide)⟩

theorem insert_present {st : SplayTree} {T : Tree} {x : Int} {fuel : Nat} (h : IsBST st T)
    (hx : x ∈ T.keys) (hf : T.height < fuel) :
    ∃ st', insert fuel x st = .ok st' ∧ eraseParents st' = eraseParents st ∧
      (ParentsOK st.heap none T → st' = st) := by
  obtain ⟨hrep, hb⟩ := h
  have hp := hrep.ptr_eq
  obtain ⟨st', hst', he, hpar⟩ :=
    insertAt_present x T fuel st .root (by simp [readRef, hp]) (hp ▸ hrep) hb hx hf
  exact ⟨st', hst', he, hpar none⟩

theorem findMin_empty {st : SplayTree} (fuel : Nat) (h : st.root = none) :
    findMin (fuel + 1) st = .ok st.ITEM_NOT_FOUND := by
  simp [findMin, h, findMinAt, elementAt, bind, Except.bind, pure, Except.pure]

theorem findMax_empty {st : SplayTree} (fuel : Nat) (h : st.root = none) :
    findMax fuel st = .ok st.ITEM_NOT_FOUND := by
  simp [findMax, h, findMaxAt, elementAt, bind, Except.bind, pure, Except.pure]

/-- C8: on a non-empty binary search tree `findMin()` returns the least and `findMax()` the
greatest stored key; on an empty tree both return the `ITEM_NOT_FOUND` sentinel; and
`makeEmpty()` completes and leaves an empty tree, on which both return the sentinel. -/
theorem findMin_findMax_extremes (st : SplayTree) (T : Tree) (fuel : Nat) (h : IsBST st T)
    (hf : T.height < fuel) :
    (isEmpty st = false →
      ∃ m M, findMin fuel st = .ok m ∧ findMax fuel st = .ok M ∧ m ∈ T.keys ∧ M ∈ T.keys ∧
        ∀ y ∈ T.keys, m ≤ y ∧ y ≤ M) ∧
    (isEmpty st = true →
      findMin fuel st = .ok st.ITEM_NOT_FOUND ∧ findMax fuel st = .ok st.ITEM_NOT_FOUND) ∧
    (∃ st', makeEmpty fuel st = .ok st' ∧ isEmpty st' = true ∧
      findMin fuel st' = .ok st.ITEM_NOT_FOUND ∧ findMax fuel st' = .ok st.ITEM_NOT_FOUND) := by
  have hpos : ∃ f, fuel = f + 1 := ⟨fuel - 1, by omega⟩
  obtain ⟨f, rfl⟩ := hpos
  refine ⟨?_, ?_, ?_⟩
  · intro hne
    cases T with
    | nil =>
      have : st.root = none := h.1.ptr_eq
      simp [isEmpty, this] at hne
    | node l a k r =>
      refine ⟨_, _, findMin_bst h hf, findMax_bst h hf, ?_, ?_, ?_⟩
      · exact minKey_mem
      · exact maxKey_mem
      · intro y hy
        exact ⟨minKey_le h.2 _ y hy, le_maxKey h.2 _ y hy⟩
  · intro he
    have : st.root = none := by simpa [isEmpty] using he
    exact ⟨findMin_empty f this, findMax_empty _ this⟩
  · obtain ⟨st', hst', hroot, hinf⟩ := makeEmpty_bst h hf
    refine ⟨st', hst', by simp [isEmpty, hroot], ?_, ?_⟩
    · rw [← hinf]; exact findMin_empty f hroot
    · rw [← hinf]; exact findMax_empty _ hroot

theorem findMin_findMax_extremes_witness :
    (IsBST tree53 shape53 ∧ shape53.height < 3) ∧
    ((isEmpty tree53 = false →
      ∃ m M, findMin 3 tree53 = .ok m ∧ findMax 3 tree53 = .ok M ∧ m ∈ shape53.keys ∧
        M ∈ shape53.keys ∧ ∀ y ∈ shape53.keys, m ≤ y ∧ y ≤ M) ∧
    (isEmpty tree53 = true →
      findMin 3 tree53 = .ok tree53.ITEM_NOT_FOUND ∧
        findMax 3 tree53 = .ok tree53.ITEM_NOT_FOUND) ∧
    (∃ st', makeEmpty 3 tree53 = .ok st' ∧ isEmpty st' = true ∧
      findMin 3 st' = .ok tree53.ITEM_NOT_FOUND ∧
        findMax 3 st' = .ok tree53.ITEM_NOT_FOUND)) :=
  ⟨⟨tree53_bst, by decide⟩, findMin_findMax_extremes tree53 shape53 3 tree53_bst (by decide)⟩

/-- C9 (counterexample): after `insert(5); insert(3); insert(1); remove(3)` the key 1 is
stored, and `insert(1)` changes the tree: it rewrites the parent link of the node holding
1. -/
theorem insert_stored_key_rewrites_parent :
    runOps 4 [Op.insert 5, Op.insert 3, Op.insert 1, Op.remove 3] (empty 0) = .ok tree51 ∧
      find 4 1 tree51 = .ok 1 ∧
      ∃ st', insert 4 1 tree51 = .ok st' ∧ st' ≠ tree51 ∧
        getParent tree51 (some 2) = .ok (some 1) ∧ getParent st' (some 2) = .ok (some 0) :=
  ⟨rfl, rfl, _, rfl, by decide, rfl, rfl⟩

/-- C9 (amended): on a binary search tree, `insert(x)` of a key that is already stored
completes and leaves the root, every key and every left and right child link unchanged (the
memory is the same up to parent links); afterwards every node on the search path of `x`
below the root has as parent link the node it was reached from, and every cell that is not
on that path below the root, the root node included, is unchanged; when the tree is
parent-consistent the whole tree is unchanged. -/
theorem insert_stored_key_keeps_links (st : SplayTree) (T : Tree) (x : Int) (fuel : Nat)
    (h : IsBST st T) (hx : x ∈ T.keys) (hf : T.height < fuel) :
    ∃ st', insert fuel x st = .ok st' ∧ eraseParents st' = eraseParents st ∧
      BelowOK st'.heap x T ∧
      (∀ b, b ∉ (T.pathAddrs x).tail → st'.heap[b]? = st.heap[b]?) ∧
      (ParentsOK st.heap none T → st' = st) := by
  obtain ⟨st', h1, h2, h3⟩ := insert_present h hx hf
  have hp := h.1.ptr_eq
  obtain ⟨h4, h5⟩ := insertAt_relinks x T fuel st st' .root (by simp [readRef, hp])
    (hp ▸ h.1) h.2 hx hf h1
  exact ⟨st', h1, h2, h5, h4, h3⟩

/-- The instance of `insert_stored_key_keeps_links` at the tree after `insert(5); insert(3);
insert(1); remove(3)`, which is not parent-consistent, and the stored key 1. -/
theorem insert_stored_key_keeps_links_witness :
    (IsBST tree51 shape51 ∧ (1 : Int) ∈ shape51.keys ∧ shape51.height < 3) ∧
    ∃ st', insert 3 1 tree51 = .ok st' ∧ eraseParents st' = eraseParents tree51 ∧
      BelowOK st'.heap 1 shape51 ∧
      (∀ b, b ∉ (shape51.pathAddrs 1).tail → st'.heap[b]? = tree51.heap[b]?) ∧
      (ParentsOK tree51.heap none shape51 → st' = tree51) :=
  ⟨⟨tree51_bst, by decide, by decide⟩,
    insert_stored_key_keeps_links tree51 shape51 1 3 tree51_bst (by decide) (by decide)⟩

/-- C4: for the tree built from the empty tree by the inserts `xs` and a key `k` among them,
if `splay(k)` completes then the in-order traversal of the tree afterwards yields the same
key sequence as the in-order traversal before the call. -/
theorem splay_keeps_inorder (xs : List Int) (k : Int) (fuel F : Nat) (st st' : SplayTree)
    (r : Int) (hf : xs.length < fuel) (hb : build fuel xs = .ok st) (hk : k ∈ xs)
    (hs : splay F k st = .ok (r, st')) :
    ∃ ks, inorder fuel st = .ok ks ∧ inorder fuel st' = .ok ks := by
  obtain ⟨st0, T, hb0, hbst, hpar, hlen, hkeys, _⟩ := build_ok hf
  rw [hb] at hb0
  cases hb0
  have hkT : k ∈ T.keys := (hkeys k).mpr hk
  obtain ⟨T', hrep', hkeys', hperm, _⟩ := splay_inv (ctx_of_parents hbst hpar hkT) hkT hs
  have h1 := height_le_addrs T
  have h2 := height_le_addrs T'
  have h3 := hperm.length_eq
  refine ⟨T.keys, inorder_rep hbst.1 (by omega), ?_⟩
  rw [← hkeys']
  exact inorder_rep hrep' (by omega)

/-- The instance `insert(5); insert(8); splay(8)` of `splay_keeps_inorder`. -/
theorem splay_keeps_inorder_witness :
    ∃ ks, inorder 3 tree58 = .ok ks ∧ inorder 3 tree85 = .ok ks :=
  splay_keeps_inorder [5, 8] 8 3 5 tree58 tree85 8 (by decide) rfl (by decide) rfl

/-- C11 (failing input): after `insert(5); insert(3); insert(1); remove(3)` on the empty tree
the node holding 1 is the left child of the root, yet its parent link still names the cell
of the removed node, which is freed: the tree is not parent-consistent. -/
theorem remove_breaks_parent_links :
    (∀ n, runOps (n + 4) [.insert 5, .insert 3, .insert 1, .remove 3] (empty 0) = .ok tree51) ∧
      (∀ T, Rep tree51.heap tree51.root T → ¬ ParentsOK tree51.heap none T) ∧
      tree51.heap[0]? = some (some ⟨5, some 2, none, none⟩) ∧
      tree51.heap[2]? = some (some ⟨1, none, none, some 1⟩) ∧ tree51.heap[1]? = some none := by
  refine ⟨fun _ => rfl, ?_, rfl, rfl, rfl⟩
  intro T hT
  rw [tree51_bst.1.unique hT]
  simp [ParentsOK, shape51, tree51]

/-- C13 (failing input): the tree built by `insert(5); insert(8)` is a parent-consistent
binary search tree and `splay(8)` completes on it, but in the result the parent link of the
new root (the node holding 8) still names the node holding 5: the result is not
parent-consistent. -/
theorem splay_zig_keeps_root_parent :
    build 3 [5, 8] = .ok tree58 ∧ IsBST tree58 shape58 ∧ ParentsOK tree58.heap none shape58 ∧
      (∀ n, splay (n + 3) 8 tree58 = .ok (8, tree85)) ∧
      (∀ T, Rep tree85.heap tree85.root T → ¬ ParentsOK tree85.heap none T) ∧
      tree85.root = some 1 ∧ tree85.heap[1]? = some (some ⟨8, some 0, none, some 0⟩) := by
  refine ⟨rfl, ⟨tree58_rep, by simp [shape58, Tree.keys]⟩, ?_, fun _ => rfl, ?_, rfl, rfl⟩
  · simp [ParentsOK, shape58, tree58]
  · intro T hT
    rw [tree85_rep.unique hT]
    simp [ParentsOK, shape85, tree85]

/-- C14 (failing inputs): in the parent-consistent tree built by `insert(5); insert(3)` the
node holding 3 is the left child of the root and `rotate` on it does not complete
(`insertNode` dereferences its absent right child); and in the tree built by `insert(9);
insert(5); insert(3); insert(4)` `rotate` on the node holding 3, the left child of the node
holding 5, completes with the node holding 4 still the right child of 3 and the node
holding 5 below it, with no left child. -/
theorem rotate_left_child_diverges :
    (IsBST tree53 shape53 ∧ ParentsOK tree53.heap none shape53 ∧
      (∀ fuel st', rotate fuel tree53 (some 1) ≠ .ok st') ∧
      ∀ n, rotate (n + 1) tree53 (some 1) = .error .null) ∧
    (IsBST tree9534 shape9534 ∧ ParentsOK tree9534.heap none shape9534 ∧
      (∀ n, rotate (n + 2) tree9534 (some 2) = .ok tree9345) ∧
      tree9345.heap[2]? = some (some ⟨3, none, some 3, some 0⟩) ∧
      tree9345.heap[3]? = some (some ⟨4, none, some 1, some 2⟩) ∧
      tree9345.heap[1]? = some (some ⟨5, none, none, some 3⟩)) := by
  refine ⟨⟨tree53_bst, by simp [ParentsOK, shape53, tree53], ?_, fun _ => rfl⟩,
    ⟨tree9534_rep, by simp [shape9534, Tree.keys]⟩, by simp [ParentsOK, shape9534, tree9534],
    fun _ => rfl, rfl, rfl, rfl⟩
  intro fuel st' h
  cases fuel with
  | zero => exact absurd h (by rw [show rotate 0 tree53 (some 1) = .error .fuel from rfl]; simp)
  | succ n =>
    exact absurd h (by rw [show rotate (n + 1) tree53 (some 1) = .error .null from rfl]; simp)

/-- C15 (failing input): in the tree built by `insert(5); insert(3)`, `rotate` on the node
holding 3 (a left child without a right child, its parent the root) does not complete,
while in the mirror image of that tree `rotate` on the same node completes, with the mirror
image of the rotated tree. -/
theorem rotate_not_mirror_symmetric :
    ParentsOK tree53.heap none shape53 ∧
      (∀ n, rotate (n + 1) tree53 (some 1) = .error .null) ∧
      ∀ n, rotate n (mirror tree53) (some 1) = .ok (mirror tree35) := by
  refine ⟨by simp [ParentsOK, shape53, tree53], fun _ => rfl, fun _ => rfl⟩

/-- C20: the inserts `xs` on the empty tree complete and the resulting tree is a
parent-consistent binary search tree: the parent link of the root is `NULL` and the parent
link of every other node names the node whose child link leads to it. -/
theorem insert_only_parent_consistent (xs : List Int) (fuel : Nat) (hf : xs.length < fuel) :
    ∃ st T, build fuel xs = .ok st ∧ IsBST st T ∧ ParentsOK st.heap none T ∧
      ∀ y, y ∈ T.keys ↔ y ∈ xs := by
  obtain ⟨st, T, h1, h2, h3, _, h5, _⟩ := build_ok hf
  exact ⟨st, T, h1, h2, h3, h5⟩

/-- The instance `insert(5); insert(3)` of `insert_only_parent_consistent`. -/
theorem insert_only_parent_consistent_witness :
    ∃ st T, build 3 [5, 3] = .ok st ∧ IsBST st T ∧ ParentsOK st.heap none T ∧
      ∀ y, y ∈ T.keys ↔ y ∈ [5, 3] :=
  insert_only_parent_consistent [5, 3] 3 (by decide)

/-- C16: in a parent-consistent tree, for a node `t` whose parent link names `p`,
`isZigZag(t)` never returns the error code -1; it returns 2 when `p` is the root, and when
`p` is not the root, `p` has a parent `g` and the result is 0 if `t` and `p` are children on
the same side and 1 if they are children on different sides. -/
theorem isZigZag_classifies (st : SplayTree) (T : Tree) (t p : Nat) (nt np : SplayNode)
    (hrep : Rep st.heap st.root T) (hnd : T.addrs.Nodup) (hpar : ParentsOK st.heap none T)
    (ht : t ∈ T.addrs) (hct : st.heap[t]? = some (some nt)) (htp : nt.parent = some p)
    (hcp : st.heap[p]? = some (some np)) :
    isZigZag st (some t) ≠ .ok (-1) ∧
      (st.root = some p → isZigZag st (some t) = .ok 2) ∧
      (st.root ≠ some p → ∃ g ng, np.parent = some g ∧ st.heap[g]? = some (some ng) ∧
        isZigZag st (some t) =
          .ok (if (np.left = some t ↔ ng.left = some p) then 0 else 1)) := by
  obtain ⟨hp, hroot, hside, hC⟩ := LRChild_of_child hrep hnd hpar ht hct htp hcp
  by_cases hr : st.root = some p
  · have hz := isZigZag_eq hct htp hC (LRChild_root hr)
    simp only [if_true] at hz
    refine ⟨by rw [hz]; simp, fun _ => hz, fun h => absurd hr h⟩
  · obtain ⟨np', hnp', hcase⟩ := hpar.child hrep hnd p hp
    rw [hcp] at hnp'
    cases hnp'
    rcases hcase with ⟨h1, _⟩ | ⟨_, g, ng, hg, hpg, hcg, _⟩
    · exact absurd (hrep.ptr_eq.trans h1) hr
    · obtain ⟨_, _, hside', hP⟩ := LRChild_of_child hrep hnd hpar hp hcp hpg hcg
      have hz := isZigZag_eq hct htp hC hP
      have hz' : isZigZag st (some t) =
          .ok (if (np.left = some t ↔ ng.left = some p) then 0 else 1) := by
        rw [hz]
        by_cases a1 : np.left = some t <;> by_cases a2 : ng.left = some p <;> simp [a1, a2]
      refine ⟨?_, fun h => absurd h hr, fun _ => ⟨g, ng, hpg, hcg, hz'⟩⟩
      rw [hz']
      split_ifs <;> simp

/-- The instance of `isZigZag_classifies` at the node holding 3 of the tree built by
`insert(9); insert(5); insert(3); insert(4)`: a left child of a left child. -/
theorem isZigZag_classifies_witness :
    isZigZag tree9534 (some 2) ≠ .ok (-1) ∧
      (tree9534.root = some 1 → isZigZag tree9534 (some 2) = .ok 2) ∧
      (tree9534.root ≠ some 1 → ∃ g ng, (some 0 : Ptr) = some g ∧
        tree9534.heap[g]? = some (some ng) ∧
        isZigZag tree9534 (some 2) =
          .ok (if ((some 2 : Ptr) = some 2 ↔ ng.left = some 1) then 0 else 1)) :=
  isZigZag_classifies tree9534 shape9534 2 1 ⟨3, none, some 3, some 1⟩
    ⟨5, some 2, none, some 0⟩ tree9534_rep (by decide)
    (by simp [ParentsOK, shape9534, tree9534]) (by decide) rfl rfl rfl

/-- C18 (failing input): on every tree whose root has a non-empty left and a non-empty right
subtree, `Sremove(value)` does not complete: the call `lTree.insertNode(lRoot, NULL)`
dereferences `NULL`, whatever the budget. -/
theorem Sremove_null_deref (st : SplayTree) (l r : Tree) (a : Nat) (k value : Int)
    (fuel : Nat) (h : IsBST st (.node l a k r)) (hp : ParentsOK st.heap none (.node l a k r))
    (hl : l ≠ .nil) (hr : r ≠ .nil) (hf : l.height < fuel) :
    Sremove fuel value st = .error .null ∧ ∀ F res, Sremove F value st ≠ .ok res :=
  ⟨(Sremove_stops value h.1 hl).2 fuel hf, (Sremove_stops value h.1 hl).1⟩

/-- The instance of `Sremove_null_deref` at the tree built by `insert(5); insert(3);
insert(8)`. -/
theorem Sremove_null_deref_witness :
    Sremove 2 5 tree538 = .error .null ∧ ∀ F res, Sremove F 5 tree538 ≠ .ok res :=
  Sremove_null_deref tree538 _ _ 0 5 5 2 ⟨tree538_rep, by simp [Tree.keys]⟩
    (by simp [ParentsOK, tree538]) (by simp) (by simp) (by simp [Tree.height])

/-- C17: for a non-empty tree, `findDepth(root,0,0)` is the maximum depth of a node (the
height less one), for every level `i` up to it `PrintDepth(root,i,0)` writes exactly the
keys of the nodes at depth `i`, left to right, and at least one key, and `PrintLO` writes
these lines, level 0 first; together the lines hold every stored key exactly once. -/
theorem PrintLO_level_order (st : SplayTree) (T : Tree) (fuel : Nat)
    (h : Rep st.heap st.root T) (hne : T ≠ .nil) (hf : T.height < fuel) :
    findDepth fuel st st.root 0 0 = .ok ((T.height : Int) - 1) ∧
      (∀ i : Nat, i < T.height →
        PrintDepth fuel st st.root i 0 = .ok (T.level i) ∧ T.level i ≠ []) ∧
      PrintLO fuel st = .ok ((List.range T.height).map (fun i => T.level i)) ∧
      (((List.range T.height).map (fun i => T.level i)).flatten).Perm T.keys := by
  have hpos : 0 < T.height := by
    cases T with
    | nil => exact absurd rfl hne
    | node l a k r => simp [Tree.height]
  have hroot : st.root ≠ none := by
    intro e
    rw [e] at h
    exact hne (Rep.nil_iff.mp h)
  have hfd : findDepth fuel st st.root 0 0 = .ok ((T.height : Int) - 1) := by
    rw [findDepth_rep h fuel 0 0 hf (by omega)]
    congr 1
    omega
  refine ⟨hfd, ?_, ?_, levels_perm T T.height (le_refl _)⟩
  · intro i hi
    have := PrintDepth_rep h fuel i 0 hf
    simp only [Int.natCast_nonneg, if_true, sub_zero, Int.toNat_ofNat] at this
    exact ⟨this, level_ne_nil T i hi⟩
  · have hl := PrintLOLoop_rep h hf T.height fuel 0 (by omega) hf
    simp only [PrintLO, ne_eq, hroot, not_false_eq_true, if_true, PrintLOAt, hfd, bind,
      Except.bind]
    rw [List.range_eq_range']
    exact hl

/-- The instance of `PrintLO_level_order` at the tree built by `insert(5); insert(3);
insert(8)`, whose levels are `5` and `3 8`. -/
theorem PrintLO_level_order_witness :
    findDepth 3 tree538 tree538.root 0 0 = .ok ((shape538.height : Int) - 1) ∧
      (∀ i : Nat, i < shape538.height →
        PrintDepth 3 tree538 tree538.root i 0 = .ok (shape538.level i) ∧
          shape538.level i ≠ []) ∧
      PrintLO 3 tree538 = .ok ((List.range shape538.height).map (fun i => shape538.level i)) ∧
      (((List.range shape538.height).map (fun i => shape538.level i)).flatten).Perm
        shape538.keys :=
  PrintLO_level_order tree538 shape538 3 tree538_rep (by simp [shape538]) (by decide)

/-- C12: copy construction from a tree, and assignment of it to another tree object of the
same memory, complete and produce a tree with the same left/right shape and the same key at
every position, so the in-order traversals of the copy and of the original yield the same
sequence. -/
theorem copy_same_shape (rhs this : SplayTree) (T D : Tree) (fuel : Nat)
    (hT : Rep rhs.heap rhs.root T) (hfT : T.height < fuel) (hheap : this.heap = rhs.heap)
    (hD : Rep this.heap this.root D) (hDn : D.addrs.Nodup)
    (hdis : ∀ b ∈ T.addrs, b ∉ D.addrs) (hfD : D.height < fuel) :
    (∃ cp U, copy fuel rhs = .ok cp ∧ Rep cp.heap cp.root U ∧ U.unlabel = T.unlabel ∧
      inorder fuel cp = .ok T.keys ∧ inorder fuel rhs = .ok T.keys) ∧
    (∃ cp U, assign fuel this rhs.root = .ok cp ∧ Rep cp.heap cp.root U ∧
      U.unlabel = T.unlabel ∧ inorder fuel cp = .ok T.keys ∧
      inorder fuel rhs = .ok T.keys) := by
  have hin := inorder_rep hT hfT
  refine ⟨?_, ?_⟩
  · obtain ⟨cp, U, h1, h2, h3, _⟩ := copy_spec hT hfT
    refine ⟨cp, U, h1, h2, h3, ?_, hin⟩
    rw [← unlabel_keys h3]
    exact inorder_rep h2 (by rw [unlabel_height h3]; exact hfT)
  · obtain ⟨cp, U, h1, h2, h3, _⟩ := assign_spec hD hDn (hheap ▸ hT) hdis hfD hfT
    refine ⟨cp, U, h1, h2, h3, ?_, hin⟩
    rw [← unlabel_keys h3]
    exact inorder_rep h2 (by rw [unlabel_height h3]; exact hfT)

/-- The instance of `copy_same_shape` at the tree built by `insert(5); insert(3)`, copied
and assigned to an empty tree object of the same memory. -/
theorem copy_same_shape_witness :
    (∃ cp U, copy 3 tree53 = .ok cp ∧ Rep cp.heap cp.root U ∧ U.unlabel = shape53.unlabel ∧
      inorder 3 cp = .ok shape53.keys ∧ inorder 3 tree53 = .ok shape53.keys) ∧
    (∃ cp U, assign 3 { tree53 with root := none } tree53.root = .ok cp ∧
      Rep cp.heap cp.root U ∧ U.unlabel = shape53.unlabel ∧
      inorder 3 cp = .ok shape53.keys ∧ inorder 3 tree53 = .ok shape53.keys) :=
  copy_same_shape tree53 { tree53 with root := none } shape53 .nil 3 tree53_bst.1
    (by decide) rfl Rep.nil (by simp [Tree.addrs]) (by simp [Tree.addrs]) (by decide)

end Splay
